import Mathlib

/-!
# uxfs: the directory table, the controller channel and the file operations

A shallow embedding of `uxfs.c`.

* C strings are lists of bytes (`List Nat`): the bytes before the terminating NUL.
* Every `file_t` lives in a heap (`uxfs_t.heap`) and a pointer to it is its index
  there, so that a pointer stays valid while `add_file` moves the entries of the
  sorted pointer array `uxfs_t.dir`.
* Functions take the global state `uxfs_t` and return it with their result.  A
  function that would read through an invalid pointer returns `none` there.
* The pipe to the controller is the pair of byte streams `co_in` and `co_out`.
* `time(NULL)` is the argument `now`.  The log on stderr, the owner ids of
  `struct stat` and the capacity `dir.max` of the pointer array are left out.
* The mutex `lock` is not recursive.  The argument `held` of `add_file`, and of the
  functions of the controller channel on the way to it, says whether the caller has
  locked it: `f_open`, `do_release` and `do_rename` call `c_putc` with the lock held,
  and a `pthread_mutex_lock` that waits for the caller itself never returns, which
  is a result `none`.  A call that has undefined behaviour is `none` as well.
* Loops carry a fuel argument that is at least the number of their iterations.
* Sizes and counters are natural numbers.  Where an `off_t` offset meets the `int`
  fields of a handle, the conversion to `int` is modelled: `do_read` stores the
  difference through `to_int`, and `do_write` has no result once the grown `size`
  passes `INT_MAX`.
-/

namespace Uxfs

-- ---------------------------------------------------------------------------
-- Definitions
-- ---------------------------------------------------------------------------

def MIN_FREE : Nat := 4
def LINE_MAX : Nat := 1024
/-- Size of `file_t.path`: the value `<stdio.h>` gives on Linux/glibc, where FUSE runs. -/
def FILENAME_MAX : Nat := 4096

def M_READ : Nat := 1
def M_WRITE : Nat := 2
def M_DIR : Nat := 4
def M_USER : Nat := 8
def M_STATIC : Nat := 16

def R_NONE : Nat := 0
def R_STATUS : Nat := 1
def R_MULTI : Nat := 2
def C_STATUS : Nat := 3
def C_TEMP_DATA : Nat := 8

def ENOENT : Int := 2
def EPERM : Int := 1
def EACCES : Int := 13
def EISDIR : Int := 21
def ENOTDIR : Int := 20
def ENOTEMPTY : Int := 39
def EBADF : Int := 9

/-- The bytes of a string literal, for writing paths and protocol lines. -/
def cs (s : String) : List Nat := s.toList.map Char.toNat

def SLASH : Nat := 47
def DOT : Nat := 46
def LF : Nat := 10

/-- Byte-wise comparison of two C strings; like `strcmp`, only the sign of the
result is meaningful (the difference of the first differing bytes, a missing
byte counting below every byte). -/
def strcmp : List Nat → List Nat → Int
  | [], [] => 0
  | [], _ :: _ => -1
  | _ :: _, [] => 1
  | a :: as, b :: bs => if a = b then strcmp as bs else (a : Int) - (b : Int)

/-- The buffer record `buf_t`.  `buffer` holds the `size` allocated bytes and is
`none` for a NULL pointer; `fin` is the field `end`. -/
structure buf_t where
  mode : Nat
  here : Nat
  fin : Nat
  size : Nat
  buffer : Option (List Nat)
deriving DecidableEq, Repr

/-- The entry record `file_t`; `buf` is `none` for a NULL pointer. -/
structure file_t where
  path : List Nat
  mode : Nat
  mtime : Nat
  inode : Nat
  used : Int
  deleted : Int
  buf : Option buf_t
deriving DecidableEq, Repr

/-- The zeroed record `f_alloc` returns. -/
def f_alloc : file_t :=
  { path := [], mode := 0, mtime := 0, inode := 0, used := 0, deleted := 0, buf := none }

/-- The global `uxfs` together with the heap of `file_t` records and the two
pipe ends.  `dir` is `dir.file[0 .. len)`, an array of pointers into `heap`;
`co_in` are the bytes the controller has sent and the bridge has not consumed
yet (the rest of `co.buf` followed by what `read` will deliver), `co_out` the
bytes written to the controller so far; `exited` records a call of `__exit`. -/
structure uxfs_t where
  heap : List file_t
  dir : List Nat
  inode_count : Nat
  n_open : Nat
  n_close : Nat
  other_users : Nat
  co_in : List Nat
  co_out : List Nat
  exited : Bool
deriving DecidableEq, Repr

/-- Dereference of a `file_t *`. -/
def deref (u : uxfs_t) (p : Nat) : file_t := u.heap.getD p f_alloc

/-- The record `d->file[k]` points to. -/
def file_at (u : uxfs_t) (k : Nat) : file_t := deref u (u.dir.getD k u.heap.length)

/-- The loop of `d_search_file`: `fuel` bounds the number of probes, `r` and
`pos` carry the last comparison and the last probed index. -/
def d_search_loop (pathAt : Nat → List Nat) (path : List Nat) :
    Nat → Int → Int → Int → Nat → Int × Nat
  | 0, _, _, r, pos => (r, pos)
  | fuel + 1, left, right, r, pos =>
    if left ≤ right then
      let k := ((left + right) / 2).toNat
      let r1 := strcmp path (pathAt k)
      if r1 = 0 then (0, k)
      else if r1 < 0 then d_search_loop pathAt path fuel left ((k : Int) - 1) r1 k
      else d_search_loop pathAt path fuel ((k : Int) + 1) right r1 k
    else (r, pos)

/-- Binary search `d_search_file(d, path, &pos)`: the result and `*pos`. -/
def d_search_file (u : uxfs_t) (path : List Nat) : Int × Nat :=
  if u.dir.length = 0 then (1, 0)
  else d_search_loop (fun k => (file_at u k).path) path u.dir.length
         0 ((u.dir.length : Int) - 1) (-2) 0

/-- The mode after the two corrections at the head of `add_file`. -/
def fix_mode (mode : Nat) : Nat :=
  let m1 := if mode &&& (M_WRITE ||| M_READ) = 0 then mode ||| M_READ else mode
  if m1 &&& M_DIR ≠ 0 then m1 ||| M_READ else m1

/-- Overwrite the record a pointer refers to. -/
def store (u : uxfs_t) (p : Nat) (f : file_t) : uxfs_t :=
  { u with heap := u.heap.set p f }

/-- Upsert `add_file(d, path, mode)`; `now` is what `time(NULL)` returns and `held`
whether the caller holds `lock`.  The result is the returned index (`-1` for a path
longer than `FILENAME_MAX`, which is refused before the lock is taken).  With the
lock held by the caller `pthread_mutex_lock` never returns: `none`.  A new path of
exactly `FILENAME_MAX` bytes passes the length test, and `strcpy` then writes its
terminator behind `file_t.path`: `none`. -/
def add_file (held : Bool) (u : uxfs_t) (path : List Nat) (mode : Nat) (now : Nat) :
    Option (Int × uxfs_t) :=
  if path.length > FILENAME_MAX then some (-1, u)
  else if held then none
  else
    let mode := fix_mode mode
    let (rc, k) := d_search_file u path
    if rc = 0 then
      let p := u.dir.getD k u.heap.length
      let f := deref u p
      some ((k : Int), store u p { f with mode := mode, deleted := 0 })
    else if path.length = FILENAME_MAX then none
    else
      let k := if u.dir.length > 0 then (if rc > 0 then k + 1 else k) else k
      let f : file_t :=
        { f_alloc with path := path, mode := mode, mtime := now,
                       inode := u.inode_count + 1, used := 0, deleted := 0 }
      some ((k : Int),
        { u with heap := u.heap ++ [f],
                 dir := u.dir.take k ++ [u.heap.length] ++ u.dir.drop k,
                 inode_count := u.inode_count + 1 })

/-- Strict order of the table: `path[i] < path[i+1]` at all adjacent positions. -/
def sorted (u : uxfs_t) : Prop :=
  ∀ i, i + 1 < u.dir.length → strcmp (file_at u i).path (file_at u (i + 1)).path < 0

/-- Every pointer of the array refers to an allocated record. -/
def ptrs_ok (u : uxfs_t) : Prop := ∀ p ∈ u.dir, p < u.heap.length

/-- Result contract of the binary search over `n` strictly increasing paths. -/
def search_res (P : Nat → List Nat) (n : Nat) (path : List Nat) (res : Int × Nat) : Prop :=
  (res.1 = 0 ∧ res.2 < n ∧ P res.2 = path) ∨
  (res.1 ≠ 0 ∧ (if res.1 > 0 then res.2 + 1 else res.2) ≤ n ∧
    (∀ i, i < (if res.1 > 0 then res.2 + 1 else res.2) → 0 < strcmp path (P i)) ∧
    (∀ i, (if res.1 > 0 then res.2 + 1 else res.2) ≤ i → i < n → strcmp path (P i) < 0))

/-- The index at which `add_file` stores a new entry: the last probe of
`d_search_file`, advanced by one when the path compared above it. -/
def ins_pos (u : uxfs_t) (path : List Nat) : Nat :=
  if u.dir.length > 0 then
    (if (d_search_file u path).1 > 0 then (d_search_file u path).2 + 1
     else (d_search_file u path).2)
  else (d_search_file u path).2

/-- The record `add_file` builds for a new entry. -/
def new_file (u : uxfs_t) (path : List Nat) (mode : Nat) (now : Nat) : file_t :=
  { f_alloc with path := path, mode := fix_mode mode, mtime := now,
                 inode := u.inode_count + 1, used := 0, deleted := 0 }

instance sorted_dec (u : uxfs_t) : Decidable (sorted u) :=
  decidable_of_iff
    (∀ i, i < u.dir.length - 1 → strcmp (file_at u i).path (file_at u (i + 1)).path < 0)
    ⟨fun h i hi => h i (by omega), fun h i hi => h i (by omega)⟩

instance ptrs_ok_dec (u : uxfs_t) : Decidable (ptrs_ok u) := by
  unfold ptrs_ok
  exact inferInstance

/-- A zeroed `uxfs_t` holding the given records, the array pointing at them in order. -/
def mk_table (fs : List file_t) : uxfs_t :=
  { heap := fs, dir := List.range fs.length, inode_count := fs.length + 1, n_open := 0,
    n_close := 0, other_users := 0, co_in := [], co_out := [], exited := false }

/-- An entry record with the given path, mode and deleted flag. -/
def mk_file (path : String) (mode : Nat) (deleted : Int) : file_t :=
  { f_alloc with path := cs path, mode := mode, deleted := deleted }

/-- The table `/` (a readable directory), `/b` (a read-write file). -/
def table_root_b : uxfs_t := mk_table [mk_file "/" 5 0, mk_file "/b" 3 0]

-- Strings -------------------------------------------------------------------

/-- The C string stored at the start of a byte array: the bytes before the first NUL. -/
def c_str (mem : List Nat) : List Nat := mem.takeWhile (fun c => c ≠ 0)

/-- Bounded copy `m_copy(d, s, len)` of a C string: at most `len - MIN_FREE` bytes. -/
def m_copy (s : List Nat) (len : Nat) : List Nat := s.take (len - MIN_FREE)

/-- Index of the last occurrence of `c`, as `strrchr` finds it. -/
def strrchr : List Nat → Nat → Option Nat
  | [], _ => none
  | x :: xs, c =>
    match strrchr xs c with
    | some i => some (i + 1)
    | none => if x = c then some 0 else none

/-- Index of the first occurrence of `c`, as `strchr` finds it. -/
def strchr : List Nat → Nat → Option Nat
  | [], _ => none
  | x :: xs, c => if x = c then some 0 else (strchr xs c).map (fun i => i + 1)

/-- Comparison `strncmp(a, b, n)` of at most `n` leading bytes. -/
def strncmp (a b : List Nat) (n : Nat) : Int := strcmp (a.take n) (b.take n)

/-- Word extraction `m_getword(&from, delim, to, max)`: the word copied to `to`
and the advanced `*from`. -/
def m_getword (src : List Nat) (delim : Nat) (max : Nat) : List Nat × List Nat :=
  let s := src.dropWhile (fun c => c = 32 ∨ c = 9)
  ((s.takeWhile (fun c => c ≠ delim)).take (max - 2),
   (s.dropWhile (fun c => c ≠ delim)).drop 1)

/-- Largest value of the type `int`. -/
def INT_MAX : Nat := 2147483647

/-- Conversion of an integer to the type `int`: 32 bits, two's complement. -/
def to_int (x : Int) : Int := (x + 2147483648) % 4294967296 - 2147483648

-- Buffers -------------------------------------------------------------------

/-- The zeroed record `b_alloc` returns. -/
def b_alloc : buf_t := { mode := 0, here := 0, fin := 0, size := 0, buffer := none }

/-- Allocation `malloc(n)`: the content of fresh memory is unspecified and taken as zero bytes;
no statement below reads a byte that was not written before. -/
def malloc (n : Nat) : List Nat := List.replicate n 0

/-- Resize `realloc(p, n)`: the old bytes, then fresh ones. -/
def realloc (p : Option (List Nat)) (n : Nat) : List Nat :=
  (p.getD []).take n ++ malloc (n - (p.getD []).length)

/-- Store of `data` at offset `off` of an allocated block (`memmove`, `strcpy`, byte stores). -/
def mem_write (m : List Nat) (off : Nat) (data : List Nat) : List Nat :=
  m.take off ++ data ++ m.drop (off + data.length)

def b_clear (b : buf_t) : buf_t :=
  let b1 := { b with here := 0, fin := 0 }
  match b1.buffer with
  | none => { b1 with size := LINE_MAX, buffer := some (malloc LINE_MAX) }
  | some _ => b1

def b_append_line (b : buf_t) (line : List Nat) : buf_t :=
  let len := line.length
  let b1 := if b.fin + len + MIN_FREE > b.size then
      { b with size := b.size + (len + MIN_FREE + LINE_MAX),
               buffer := some (realloc b.buffer (b.size + (len + MIN_FREE + LINE_MAX))) }
    else b
  { b1 with buffer := b1.buffer.map (fun m => mem_write m b1.fin (line ++ [LF, 0])),
            fin := b1.fin + len + 1 }

/-- Buffer `b_from_strings(count, ...)`: the lines appended to a fresh buffer. -/
def b_from_strings (lines : List (List Nat)) : buf_t :=
  lines.foldl b_append_line b_alloc

/-- The scan of `b_getline` from `here`: the bytes copied to `line` (at most
`size` of them) and the new `here`. -/
def b_getline_loop (mem : List Nat) (fin size : Nat) : Nat → Nat → List Nat → List Nat × Nat
  | 0, here, line => (line, here)
  | fuel + 1, here, line =>
    if here < fin then
      let c := mem.getD here 0
      if c = LF then (line, here + 1)
      else b_getline_loop mem fin size fuel (here + 1)
             (if line.length < size then line ++ [c] else line)
    else (line, here)

/-- Peek `b_getline(b, line, size)`: the returned line (`none` for NULL) and the buffer
with its advanced `here`. -/
def b_getline (b : buf_t) (size : Nat) : Option (List Nat) × buf_t :=
  if b.here ≥ b.fin then (none, b)
  else
    let r := b_getline_loop (b.buffer.getD []) b.fin (size - MIN_FREE) (b.fin - b.here) b.here []
    (some r.1, { b with here := r.2 })

def b_copy (s : buf_t) : buf_t :=
  { mode := s.mode, here := s.here, fin := s.fin, size := s.size,
    buffer := some (realloc s.buffer s.size) }

-- Controller channel --------------------------------------------------------

/-- Split of a byte stream at its first line feed: the line and the rest. -/
def split_line : List Nat → Option (List Nat × List Nat)
  | [] => none
  | c :: rest =>
    if c = LF then some ([], rest)
    else (split_line rest).map (fun r => (c :: r.1, r.2))

/-- Line input `c_gets(line, size, debug)`: the next line of the controller, cut at
a NUL and at `size - MIN_FREE` bytes by `m_copy`; when the stream ends before a
line feed the connection counts as closed, which is fatal. -/
def c_gets (u : uxfs_t) (size : Nat) : Option (List Nat) × uxfs_t :=
  match split_line u.co_in with
  | none => (none, { u with exited := true })
  | some (l, rest) => (some (m_copy (c_str l) size), { u with co_in := rest })

/-- Line output `c_puts(debug, format, ...)` of the formatted `text`.  The pipe
is taken as writable.  A text longer than `vsnprintf` stores (`LINE_MAX - 3`
bytes) fails the length check after the `write`, which is fatal; the bytes
that `write` then sends past the stored text are left out. -/
def c_puts (u : uxfs_t) (text : List Nat) : Int × uxfs_t :=
  if text.length ≤ LINE_MAX - 3 then
    ((text.length : Int), { u with co_out := u.co_out ++ text })
  else
    (-1, { u with co_out := u.co_out ++ text.take (LINE_MAX - 3), exited := true })

/-- Letter parser `d_get_modebits(path, par)`. -/
def d_get_modebits (par : List Nat) : Nat :=
  par.foldl (fun mode c =>
    if c = 114 then mode ||| M_READ
    else if c = 119 then mode ||| M_WRITE
    else if c = 100 then mode ||| M_DIR
    else if c = 115 then mode ||| (M_READ ||| M_WRITE ||| M_STATIC)
    else mode ||| M_READ) 0

/-- Test `c <= ' '` on a `char`, which is signed on the target. -/
def le_space (c : Nat) : Bool := decide (c ≤ 32) || decide (128 ≤ c)

/-- The `T_END` half of `m_trim`: a last byte that is `<= ' '` is overwritten by
NUL.  The loop then counts upwards (`i++`) and runs on past the terminator;
that walk through the memory behind the string is not followed. -/
def m_trim_end (s : List Nat) : List Nat :=
  match s.getLast? with
  | some c => if le_space c then s.dropLast else s
  | none => s

/-- Directive line `add_file_from_definition(line)`; `none` where `add_file` has no
result. -/
def add_file_from_definition (held : Bool) (u : uxfs_t) (line : List Nat) (now : Nat) :
    Option (Int × uxfs_t) :=
  let w1 := m_getword line 32 FILENAME_MAX
  let mode_par := (m_getword w1.2 32 20).1
  let path := m_trim_end w1.1
  let s := path.dropWhile (fun c => le_space c)
  if s = [] then some (-1, u)
  else if s.head? ≠ some SLASH then some (-1, u)
  else
    let mode := d_get_modebits mode_par
    if strcmp path (cs "/") = 0 then add_file held u path (mode ||| M_DIR) now
    else if path.getLast? = some SLASH then add_file held u path.dropLast (mode ||| M_DIR) now
    else add_file held u path mode now

/-- The data-sending loop of `c_putc`: every line of `data` goes out, one that
begins with `.` behind an extra `.`. -/
def c_send_data : Nat → uxfs_t → buf_t → buf_t × uxfs_t
  | 0, u, d => (d, u)
  | fuel + 1, u, d =>
    match b_getline d LINE_MAX with
    | (none, d1) => (d1, u)
    | (some p, d1) =>
      if p.getD 0 0 = DOT then c_send_data fuel (c_puts u (DOT :: c_str p ++ [LF])).2 d1
      else c_send_data fuel (c_puts u (c_str p ++ [LF])).2 d1

/-- The `R_MULTI` receive loop of `c_putc`: lines are appended to `reply` until
a lone `.`, one leading `.` stripped. -/
def c_recv_data : Nat → uxfs_t → buf_t → buf_t × uxfs_t
  | 0, u, r => (r, u)
  | fuel + 1, u, r =>
    match c_gets u LINE_MAX with
    | (none, u1) => (r, u1)
    | (some rbuf, u1) =>
      if strcmp rbuf (cs ".") = 0 then (r, u1)
      else if rbuf.getD 0 0 = DOT then c_recv_data fuel u1 (b_append_line r (rbuf.drop 1))
      else c_recv_data fuel u1 (b_append_line r rbuf)

/-- The data block of a `DIR` directive: every line up to a lone `.` is upserted;
`none` once an upsert has no result. -/
def c_dir_data (held : Bool) (now : Nat) : Nat → uxfs_t → Option uxfs_t
  | 0, u => some u
  | fuel + 1, u =>
    match c_gets u LINE_MAX with
    | (none, u1) => some u1
    | (some data, u1) =>
      if strcmp data (cs ".") = 0 then some u1
      else
        match add_file_from_definition held u1 data now with
        | none => none
        | some r => c_dir_data held now fuel r.2

/-- The directive loop of `c_putc` over the rest `p` of the status line. -/
def c_directives (held : Bool) (now : Nat) :
    Nat → uxfs_t → List Nat → Int → Option (Int × uxfs_t)
  | 0, u, _, rc => some (rc, u)
  | fuel + 1, u, p, rc =>
    let w := m_getword p 59 200
    if w.1 = [] then some (rc, u)
    else
      let token := (m_getword w.1 32 40).1
      if strcmp token (cs "QUIT") = 0 then some (0, { u with exited := true })
      else if strcmp token (cs "DIR") = 0 then
        match c_dir_data held now (u.co_in.length + 1) u with
        | none => none
        | some v => c_directives held now fuel v w.2 rc
      else some (1, { u with exited := true })

/-- The response half of `c_putc`. -/
def c_response (held : Bool) (u : uxfs_t) (flags : Nat) (reply : Option buf_t) (now : Nat) :
    Option (Int × Option buf_t × uxfs_t) :=
  match c_gets u LINE_MAX with
  | (none, u1) => some (1, reply, u1)
  | (some line, u1) =>
    let w := m_getword line 59 200
    let token := (m_getword w.1 32 40).1
    if strcmp token (cs "+OK") ≠ 0 ∧ strcmp token (cs "-ERR") ≠ 0 then
      some (1, reply, { u1 with exited := true })
    else
      let rc : Int := if strcmp token (cs "+OK") = 0 then 0 else 1
      let rd : Option buf_t × uxfs_t :=
        if rc = 0 ∧ flags &&& C_STATUS = R_MULTI then
          match reply with
          | some r =>
            let x := c_recv_data (u1.co_in.length + 1) u1 (b_clear r)
            (some x.1, x.2)
          | none => (none, u1)
        else (reply, u1)
      (c_directives held now (w.2.length + 1) rd.2 w.2 rc).map (fun dr => (dr.1, rd.1, dr.2))

/-- The data block of a request: the lines of `data` from its start, then a lone `.`. -/
def c_request_data (u : uxfs_t) (data : Option buf_t) : Option buf_t × uxfs_t :=
  match data with
  | some d =>
    let x := c_send_data (d.fin + 1) u { d with here := 0 }
    (some x.1, (c_puts x.2 (cs ".\n")).2)
  | none => (none, u)

/-- The command line of a request: `cmd`, and `par` behind a blank when it is not empty. -/
def c_command (cmd : List Nat) (par : Option (List Nat)) : List Nat :=
  match par with
  | some q => if q ≠ [] then cmd ++ [32] ++ q ++ [LF] else cmd ++ [LF]
  | none => cmd ++ [LF]

/-- Exchange `c_putc(cmd, par, flags, data, reply)`: the result, `data` (`none` once
freed), `reply` and the new state; `held` says whether the caller holds `lock`. -/
def c_putc (held : Bool) (u : uxfs_t) (cmd : Option (List Nat)) (par : Option (List Nat))
    (flags : Nat) (data : Option buf_t) (reply : Option buf_t) (now : Nat) :
    Option (Int × Option buf_t × Option buf_t × uxfs_t) :=
  match cmd with
  | some c =>
    let s1 := c_puts u (c_command c par)
    if s1.1 ≤ 0 then some (1, data, reply, s1.2)
    else
      let sd := c_request_data s1.2 data
      let data1 := if flags &&& C_TEMP_DATA ≠ 0 then none else sd.1
      if flags &&& C_STATUS ≠ R_NONE then
        (c_response held sd.2 flags reply now).map (fun r => (r.1, data1, r.2.1, r.2.2))
      else some (s1.1, data1, reply, sd.2)
  | none =>
    if flags &&& C_STATUS ≠ R_NONE then
      (c_response held u flags reply now).map (fun r => (r.1, data, r.2.1, r.2.2))
    else some (0, data, reply, u)

-- File operations -----------------------------------------------------------

def O_RDONLY : Nat := 0
def O_WRONLY : Nat := 1
def O_RDWR : Nat := 2
def O_ACCMODE : Nat := 3

def S_IFDIR : Nat := 0o040000
def S_IFREG : Nat := 0o100000
def S_IRUSR : Nat := 0o400
def S_IWUSR : Nat := 0o200
def S_IXUSR : Nat := 0o100
def S_IRGRP : Nat := 0o040
def S_IWGRP : Nat := 0o020
def S_IXGRP : Nat := 0o010
def S_IROTH : Nat := 0o004
def S_IWOTH : Nat := 0o002
def S_IXOTH : Nat := 0o001

/-- The fields of `struct stat` that `d_getattr` fills, but for the owner ids. -/
structure stat_t where
  st_mode : Nat
  st_nlink : Nat
  st_size : Nat
  st_blocks : Nat
  st_blksize : Nat
  st_ino : Nat
  st_mtime : Nat
deriving DecidableEq, Repr

/-- The zeroed `struct stat` the dispatcher and `memset` hand to `d_getattr`. -/
def stat_zero : stat_t :=
  { st_mode := 0, st_nlink := 0, st_size := 0, st_blocks := 0, st_blksize := 0,
    st_ino := 0, st_mtime := 0 }

/-- The pointer `d->file[k]`; an index outside the array yields no valid pointer. -/
def file_ptr (u : uxfs_t) (k : Int) : Option Nat :=
  if 0 ≤ k then u.dir.get? k.toNat else none

def d_get_parent (u : uxfs_t) (path : List Nat) : Int × Nat :=
  let dn := m_copy path FILENAME_MAX
  match strrchr dn SLASH with
  | none => (-1, 0)
  | some i => d_search_file u (if i = 0 then dn.take 1 else dn.take i)

def d_getattr (u : uxfs_t) (f : file_t) (st : stat_t) : stat_t :=
  let st0 := { st with st_mtime := f.mtime, st_blksize := 512, st_blocks := 0 }
  let perm := (if f.mode &&& M_WRITE ≠ 0 then S_IWUSR else 0) |||
              (if f.mode &&& M_READ ≠ 0 then S_IRUSR else 0)
  let st1 := { st0 with st_ino := f.inode }
  let st2 :=
    if strcmp f.path (cs "/") = 0 then
      { st1 with st_mode := S_IFDIR ||| 0o775, st_nlink := 2, st_blocks := 2, st_size := 4096 }
    else if f.mode &&& M_DIR ≠ 0 then
      { st1 with st_mode := S_IFDIR ||| perm ||| S_IXUSR, st_nlink := 2, st_blocks := 2,
                 st_size := 4096 }
    else
      let st3 := { st1 with st_mode := S_IFREG ||| perm, st_nlink := 1 }
      if f.mode &&& (M_STATIC ||| M_USER) ≠ 0 then
        match f.buf with
        | some b => { st3 with st_size := b.fin }
        | none => st3
      else st3
  if u.other_users ≠ 0 then
    let m1 := if st2.st_mode &&& S_IRUSR ≠ 0 then st2.st_mode ||| (S_IRGRP ||| S_IROTH)
              else st2.st_mode
    let m2 := if m1 &&& S_IWUSR ≠ 0 then m1 ||| (S_IWGRP ||| S_IWOTH) else m1
    let m3 := if m2 &&& S_IXUSR ≠ 0 then m2 ||| (S_IXGRP ||| S_IXOTH) else m2
    { st2 with st_mode := m3 }
  else st2

/-- Lookup `getfile(d, path, deleted)`: the pointer found, `none` for NULL. -/
def getfile (u : uxfs_t) (path : List Nat) (deleted : Int) : Option Nat :=
  let f : Option Nat :=
    if u.dir.length = 0 then none
    else if u.dir.length = 1 then
      (if strcmp (file_at u 0).path path = 0 then some (u.dir.getD 0 u.heap.length) else none)
    else
      (if (d_search_file u path).1 = 0
       then some (u.dir.getD (d_search_file u path).2 u.heap.length) else none)
  match f with
  | some p => if deleted = 0 ∧ (deref u p).deleted ≠ 0 then none else some p
  | none => none

/-- Creation core `f_create(path, &f)`: the result, `*f` and the new state; `none`
where `add_file`, called without the lock, has no result.  With a result of 0, `*f`
is `none` when `add_file` returned -1 and the array was read outside its bounds. -/
def f_create (u : uxfs_t) (path : List Nat) (now : Nat) : Option (Int × Option Nat × uxfs_t) :=
  if (d_get_parent u path).1 ≠ 0 then some (-ENOENT, none, u)
  else if (file_at u (d_get_parent u path).2).mode &&& M_WRITE = 0 then some (-EACCES, none, u)
  else
    (add_file false u path (M_READ ||| M_WRITE ||| M_USER) now).map
      (fun r => (0, file_ptr r.2 r.1, r.2))

/-- Handle open `f_open(f, mode, fi)`: the result, the buffer stored in `fi->fh`
and the new state.  The `READ` exchange runs with `lock` held; `none` when it does
not return. -/
def f_open (u : uxfs_t) (f : Nat) (mode : Nat) (now : Nat) :
    Option (Int × Option buf_t × uxfs_t) :=
  let acc := mode &&& O_ACCMODE
  let fm := (deref u f).mode
  if acc = O_RDWR ∧ fm &&& (M_WRITE ||| M_READ) ≠ (M_WRITE ||| M_READ) then
    some (-EACCES, none, u)
  else if acc = O_WRONLY ∧ fm &&& M_WRITE = 0 then some (-EACCES, none, u)
  else if acc = O_RDONLY ∧ fm &&& M_READ = 0 then some (-EACCES, none, u)
  else
    let m := if acc = O_RDWR then M_WRITE ||| M_READ
             else if acc = O_WRONLY then M_WRITE
             else if acc = O_RDONLY then M_READ else 0
    let b0 : buf_t := { b_alloc with mode := m ||| (fm &&& M_USER) }
    let lb : Option (buf_t × uxfs_t) :=
      if b0.mode &&& M_READ ≠ 0 then
        let b1 : buf_t :=
          match (if fm &&& M_USER ≠ 0 then (deref u f).buf else none) with
          | some fb => { b_copy fb with mode := m ||| (fm &&& M_USER) }
          | none => { b0 with size := 512, buffer := some (malloc 512) }
        if acc = O_RDONLY ∧ fm &&& M_USER = 0 then
          (c_putc true u (some (cs "READ")) (some (deref u f).path) R_MULTI none (some b1)
            now).map (fun r => (r.2.2.1.getD b1, r.2.2.2))
        else some (b1, u)
      else if b0.mode &&& M_WRITE ≠ 0 then
        some ({ b0 with size := 512, buffer := some (malloc 512) }, u)
      else some (b0, u)
    lb.map (fun x =>
      (0, some x.1,
        { store x.2 f { deref x.2 f with used := (deref x.2 f).used + 1 } with
          n_open := x.2.n_open + 1 }))

def do_getattr (u : uxfs_t) (path : List Nat) (st : stat_t) : Int × stat_t :=
  match getfile u path 0 with
  | none => (-ENOENT, st)
  | some p => (0, d_getattr u (deref u p) st)

/-- Callback `do_create(path, mode, fi)`; `none` where `f_create` or `f_open` has no
result, and when `f_create` handed back no valid pointer and `f_open` dereferences it. -/
def do_create (u : uxfs_t) (path : List Nat) (now : Nat) :
    Option (Int × Option buf_t × uxfs_t) :=
  match f_create u path now with
  | none => none
  | some c =>
    if c.1 ≠ 0 then some (c.1, none, u)
    else
      match c.2.1 with
      | some f => f_open c.2.2 f O_WRONLY now
      | none => none

/-- Callback `do_open(path, fi)` with `fi->flags = flags`.  For an absent path
`do_create` is called with a NULL `fi`, which `f_open` dereferences once the
entry is created: `none`. -/
def do_open (u : uxfs_t) (path : List Nat) (flags : Nat) (now : Nat) :
    Option (Int × Option buf_t × uxfs_t) :=
  match getfile u path 0 with
  | none =>
    match f_create u path now with
    | none => none
    | some c => if c.1 = 0 then none else some (-ENOENT, none, u)
  | some f =>
    if (deref u f).mode &&& M_DIR ≠ 0 then some (-EISDIR, none, u)
    else f_open u f (flags &&& O_ACCMODE) now

/-- Callback `do_write` on the handle `b`: the result, `errno` when set, and the handle.
The fields `size` and `end` are of type `int`.  When the grown `size` passes
`INT_MAX` the stored value wraps, `realloc` is handed the wrapped size and the
`memmove` that follows lies outside what it returns: `none`. -/
def do_write (b : buf_t) (data : List Nat) (offset : Nat) : Option (Int × Option Int × buf_t) :=
  if b.mode &&& M_WRITE = 0 then some (-1, some EBADF, b)
  else
    let size := data.length
    if b.size < offset + size + 4 ∧ INT_MAX < b.size + (offset + size + 4 + 2048) then none
    else
      let b1 := if b.size < offset + size + 4 then
          { b with size := b.size + (offset + size + 4 + 2048),
                   buffer := some (realloc b.buffer (b.size + (offset + size + 4 + 2048))) }
        else b
      let b2 := { b1 with buffer := b1.buffer.map (fun m => mem_write m offset data) }
      some (((size : Nat) : Int), none,
        if b2.fin < offset + size then { b2 with fin := offset + size } else b2)

/-- Callback `do_read` on the handle `b`: the result and the bytes copied out.  The
difference `b->end - offset` is computed in `off_t` and stored in the `int n`. -/
def do_read (b : buf_t) (size : Nat) (offset : Nat) : Int × List Nat :=
  let n := to_int ((b.fin : Int) - (offset : Int))
  if n ≤ 0 then (0, [])
  else
    let n1 := if (size : Int) < n then (size : Int) else n
    (n1, ((b.buffer.getD []).drop offset).take n1.toNat)

/-- Callback `do_release(path, fi)` for the handle `b`; `none` when the handle has no
allocated buffer to take the terminator, and when the `WRITE` exchange, which runs
with `lock` held, does not return. -/
def do_release (u : uxfs_t) (path : List Nat) (b : buf_t) (now : Nat) : Option (Int × uxfs_t) :=
  match getfile u path 1 with
  | none => some (0, { u with n_close := u.n_close + 1 })
  | some f =>
    match b.buffer with
    | none => none
    | some m =>
      let u1 := store u f { deref u f with mtime := now, used := (deref u f).used - 1 }
      let b1 := { b with buffer := some (mem_write m b.fin [0]) }
      if b1.mode &&& M_WRITE ≠ 0 then
        (c_putc true u1 (some (cs "WRITE")) (some (deref u1 f).path) R_STATUS (some b1) none
          now).map (fun r =>
            let u2 := r.2.2.2
            let u3 := if b1.mode &&& M_USER ≠ 0
                      then store u2 f { deref u2 f with buf := r.2.1 } else u2
            (0, { u3 with n_close := u3.n_close + 1 }))
      else some (0, { u1 with n_close := u1.n_close + 1 })

/-- The `FILEOP` exchange shared by rename, unlink, mkdir and rmdir:
`c_putc("FILEOP", NULL, C_TEMP_DATA | R_STATUS, b_from_strings(...), NULL)`. -/
def fileop (held : Bool) (u : uxfs_t) (lines : List (List Nat)) (now : Nat) :
    Option (Int × uxfs_t) :=
  (c_putc held u (some (cs "FILEOP")) none (C_TEMP_DATA ||| R_STATUS)
    (some (b_from_strings lines)) none now).map (fun r => (r.1, r.2.2.2))

/-- The move of `do_rename` through the two pointers, in the state `u2` the exchange
with the controller has left. -/
def move_entry (u2 : uxfs_t) (src dst : Nat) (now : Nat) : uxfs_t :=
  let u3 := store u2 dst { deref u2 dst with buf := none }
  let u4 := store u3 dst { deref u3 dst with mode := (deref u3 src).mode, mtime := now,
                                              deleted := 0, buf := (deref u3 src).buf }
  store u4 src { deref u4 src with buf := none, deleted := 1 }

/-- The tail of `do_rename` once source and destination meet the requirements:
the exchange with the controller, then the move through the two pointers, all
with `lock` held. -/
def rename_move (u : uxfs_t) (src dst : Nat) (src_path dst_path : List Nat) (now : Nat) :
    Option (Int × uxfs_t) :=
  (fileop true u [cs "rename", src_path, dst_path] now).map
    (fun w => (0, move_entry w.2 src dst now))

/-- Callback `do_rename(from, to)`; `none` where `f_create` or the exchange has no
result, and when `f_create` handed back no valid pointer and the move dereferences
it. -/
def do_rename (u : uxfs_t) (src_path dst_path : List Nat) (now : Nat) : Option (Int × uxfs_t) :=
  match getfile u src_path 0 with
  | none => some (-ENOENT, u)
  | some src =>
    if (deref u src).mode &&& M_DIR ≠ 0 then some (-EISDIR, u)
    else if (deref u src).mode &&& M_USER = 0 then some (-EACCES, u)
    else
      match getfile u dst_path 1 with
      | some dst =>
        if (deref u dst).mode &&& M_DIR ≠ 0 then some (-EISDIR, u)
        else if (deref u dst).mode &&& M_USER = 0 then some (-EPERM, u)
        else rename_move u src dst src_path dst_path now
      | none =>
        match f_create u dst_path now with
        | none => none
        | some c =>
          if c.1 = 0 then
            match getfile c.2.2 src_path 0 with
            | none => some (-EACCES, c.2.2)
            | some src1 =>
              match c.2.1 with
              | some dst => rename_move c.2.2 src1 dst src_path dst_path now
              | none => none
          else some (c.1, u)

def do_unlink (u : uxfs_t) (path : List Nat) (now : Nat) : Option (Int × uxfs_t) :=
  match getfile u path 0 with
  | none => some (-ENOENT, u)
  | some f =>
    if (deref u f).mode &&& M_USER = 0 then some (-EPERM, u)
    else if (deref u f).mode &&& M_DIR ≠ 0 then some (-EISDIR, u)
    else
      (fileop false u [cs "unlink", path] now).map
        (fun w => (0, store w.2 f { deref w.2 f with deleted := 1 }))

/-- Callback `do_mkdir(path, mode)`; `none` where `f_create` has no result and when it
handed back no valid pointer. -/
def do_mkdir (u : uxfs_t) (path : List Nat) (now : Nat) : Option (Int × uxfs_t) :=
  match f_create u path now with
  | none => none
  | some c =>
    if c.1 ≠ 0 then some (c.1, u)
    else
      match c.2.1 with
      | none => none
      | some d =>
        (fileop false
          (store c.2.2 d { deref c.2.2 d with mode := M_DIR ||| M_READ ||| M_WRITE ||| M_USER })
          [cs "mkdir", path] now).map
          (fun r => if r.1 ≠ 0 then (-EPERM, r.2) else (0, r.2))

/-- The scan of `do_rmdir` from index `k`: whether a non-deleted entry is met
before the first entry that is taken to lie outside the directory. -/
def rmdir_scan (u : uxfs_t) (path : List Nat) (sp : Nat) : Nat → Nat → Bool
  | 0, _ => false
  | fuel + 1, k =>
    if k < u.dir.length then
      let f := file_at u k
      if f.path.getD sp 0 = SLASH ∨ strncmp f.path path path.length = 0 then
        (if f.deleted = 0 then true else rmdir_scan u path sp fuel (k + 1))
      else false
    else false

def do_rmdir (u : uxfs_t) (path : List Nat) (now : Nat) : Option (Int × uxfs_t) :=
  if path = [] ∨ (d_search_file u path).1 ≠ 0 then some (-ENOENT, u)
  else
    let k := (d_search_file u path).2
    let d := u.dir.getD k u.heap.length
    if (deref u d).mode &&& M_DIR = 0 then some (-ENOTDIR, u)
    else
      let sp := if strcmp path (cs "/") = 0 then 0 else path.length
      if rmdir_scan u path sp (u.dir.length - (k + 1)) (k + 1) then some (-ENOTEMPTY, u)
      else
        (fileop false (store u d { deref u d with deleted := 1 }) [cs "rmdir", path] now).map
          (fun r => if r.1 ≠ 0 then (-EPERM, r.2) else (0, r.2))

/-- The dispatcher's directory buffer behind `filler`: the entries taken so far
(name and stat) and the room left. -/
structure fill_t where
  names : List (List Nat × Option stat_t)
  room : Nat
deriving DecidableEq, Repr

/-- One call `filler(buf, name, st, 0)`: the result (non-zero when the buffer is full). -/
def filler (b : fill_t) (name : List Nat) (st : Option stat_t) : Int × fill_t :=
  if b.room = 0 then (1, b)
  else (0, { names := b.names ++ [(name, st)], room := b.room - 1 })

/-- The scan of `do_readdir` from index `k`. -/
def readdir_scan (u : uxfs_t) (path : List Nat) (sp : Nat) : Nat → Nat → fill_t → fill_t
  | 0, _, b => b
  | fuel + 1, k, b =>
    if k < u.dir.length then
      let f := file_at u k
      if f.deleted ≠ 0 then readdir_scan u path sp fuel (k + 1) b
      else if f.path.getD sp 0 ≠ SLASH ∨ strncmp f.path path path.length ≠ 0 then b
      else
        match strchr (f.path.drop (sp + 1)) SLASH with
        | none =>
          let r := filler b (f.path.drop (sp + 1)) (some (do_getattr u path stat_zero).2)
          if r.1 ≠ 0 then r.2 else readdir_scan u path sp fuel (k + 1) r.2
        | some i =>
          if (f.path.drop (sp + 1)).getD (i + 1) 0 = 0 then
            let r := filler b (m_copy (f.path.drop (sp + 1)) FILENAME_MAX).dropLast
                       (some (d_getattr u f stat_zero))
            if r.1 ≠ 0 then r.2 else readdir_scan u path sp fuel (k + 1) r.2
          else readdir_scan u path sp fuel (k + 1) b
    else b

/-- Callback `do_readdir(path, buf, filler, offset, fi)`: the result, `errno` when
set, and the directory buffer. -/
def do_readdir (u : uxfs_t) (path : List Nat) (b : fill_t) : Int × Option Int × fill_t :=
  let b1 := (filler b (cs ".") none).2
  let b2 := (filler b1 (cs "..") none).2
  if path = [] ∨ (d_search_file u path).1 ≠ 0 then (-1, some ENOENT, b2)
  else
    let k := (d_search_file u path).2
    if (file_at u k).mode &&& M_DIR = 0 then (-1, some ENOTDIR, b2)
    else
      let sp := if strcmp path (cs "/") = 0 then 0 else path.length
      (0, none, readdir_scan u path sp (u.dir.length - (k + 1)) (k + 1) b2)

-- Specified behaviour the listings and scans are compared with ------------------

/-- Parent path in the spec's words: the path cut before its last `/` component,
the parent of a top-level path (and of the root) being `/`; none without a `/`. -/
def parent_path (path : List Nat) : Option (List Nat) :=
  match strrchr path SLASH with
  | none => none
  | some i => some (if i = 0 then path.take 1 else path.take i)

/-- Final path component: what follows the last `/`. -/
def last_component (path : List Nat) : List Nat :=
  match strrchr path SLASH with
  | none => path
  | some i => path.drop (i + 1)

/-- Specified listing of directory `dpath`: the final components of the non-deleted
entries whose parent path is `dpath`, in table order. -/
def spec_readdir (u : uxfs_t) (dpath : List Nat) : List (List Nat) :=
  (((List.range u.dir.length).map (file_at u)).filter
    (fun f => decide (f.deleted = 0) && decide (parent_path f.path = some dpath)
              && decide (f.path ≠ dpath))).map
    (fun f => last_component f.path)

/-- A path lies strictly within the subtree of `dpath`: it is `dpath`, a `/`, and more bytes
(every other path, for the root). -/
def strictly_within (dpath path : List Nat) : Bool :=
  if dpath = cs "/" then decide (path ≠ dpath) && List.isPrefixOf dpath path
  else List.isPrefixOf (dpath ++ [SLASH]) path && decide (dpath.length + 1 < path.length)

/-- Some non-deleted entry of the table lies strictly within the subtree of `dpath`. -/
def has_live_below (u : uxfs_t) (dpath : List Nat) : Bool :=
  ((List.range u.dir.length).map (file_at u)).any
    (fun f => decide (f.deleted = 0) && strictly_within dpath f.path)

/-- The table `/`, `/d` (a directory), `/d-x`, `/d/x`: the file `/d-x` sorts between
the directory and its content. -/
def table_d_dash : uxfs_t :=
  mk_table [mk_file "/" 7 0, mk_file "/d" 5 0, mk_file "/d-x" 3 0, mk_file "/d/x" 3 0]

/-- The table `/`, `/d` (an empty directory), `/dx` (a file beside it). -/
def table_d_dx : uxfs_t :=
  mk_table [mk_file "/" 7 0, mk_file "/d" 5 0, mk_file "/dx" 3 0]

/-- The table `/`, `/d` (a user directory), `/f` (a user file), the controller
about to answer `-ERR`. -/
def table_err : uxfs_t :=
  { mk_table [mk_file "/" 7 0, mk_file "/d" 15 0, mk_file "/f" 11 0] with co_in := cs "-ERR\n" }

/-- The pointer `p` is an entry of the table and carries the path. -/
def entry_of (u : uxfs_t) (path : List Nat) (p : Nat) : Prop :=
  p ∈ u.dir ∧ (deref u p).path = path

instance entry_of_dec (u : uxfs_t) (path : List Nat) (p : Nat) : Decidable (entry_of u path p) := by
  unfold entry_of
  exact inferInstance

/-- The pointer the binary search finds for a path, if any. -/
def lookup (u : uxfs_t) (path : List Nat) : Option Nat :=
  if (d_search_file u path).1 = 0
  then some (u.dir.getD (d_search_file u path).2 u.heap.length) else none

/-- Some entry of the table carries the path. -/
def present (u : uxfs_t) (path : List Nat) : Prop := ∃ p ∈ u.dir, (deref u p).path = path

instance present_dec (u : uxfs_t) (path : List Nat) : Decidable (present u path) := by
  unfold present
  exact inferInstance

/-- What an operation on the table leaves alone: every record allocated before is
still there with its path, buffer, inode, open count and time stamp, and every
entry of the array is still an entry. -/
def frame (u v : uxfs_t) : Prop :=
  u.heap.length ≤ v.heap.length ∧
  (∀ p, p < u.heap.length →
    (deref v p).path = (deref u p).path ∧ (deref v p).buf = (deref u p).buf ∧
    (deref v p).inode = (deref u p).inode ∧ (deref v p).used = (deref u p).used) ∧
  (∀ p, p ∈ u.dir → p ∈ v.dir)

/-- The table invariant: valid pointers in strictly increasing path order. -/
def table_ok (u : uxfs_t) : Prop := ptrs_ok u ∧ sorted u

instance table_ok_dec (u : uxfs_t) : Decidable (table_ok u) := by
  unfold table_ok
  exact inferInstance

/-- A step that keeps the records allocated before and the table invariant. -/
def step (u v : uxfs_t) : Prop := frame u v ∧ (table_ok u → table_ok v)

/-- A directory path of `FILENAME_MAX - MIN_FREE` bytes: `/aaa...a`. -/
def long_dir : List Nat := SLASH :: List.replicate 4091 97

/-- The path `/aaa...a/b` below `long_dir`; with its `FILENAME_MAX - 2` bytes it still
fits `file_t.path`. -/
def long_path : List Nat := long_dir ++ [SLASH, 98]

/-- The table holding only a writable root `/`. -/
def table_root_rw : uxfs_t := mk_table [mk_file "/" 7 0]

/-- The table `/` (read-only directory), `/a` (user file), `/d` (directory), `/s` (a
file without USER). -/
def table_mixed : uxfs_t :=
  mk_table [mk_file "/" 5 0, mk_file "/a" 11 0, mk_file "/d" 15 0, mk_file "/s" 3 0]

/-- The table `/`, `/a` (user file), `/d` (directory), `/s` (a file without USER) with
the controller about to answer `+OK`. -/
def table_mixed_ok : uxfs_t := { table_mixed with co_in := cs "+OK\n" }

/-- The table `/`, `/a`, `/d`, `/s` with the controller about to answer `+OK;DIR`, an
empty data block, and the directive line `/x r` in the data block of the `DIR`
directive. -/
def table_mixed_dir : uxfs_t := { table_mixed with co_in := cs "+OK;DIR\n.\n/x r\n.\n" }

/-- The table `/` (writable directory), `/a` (a user file retaining the byte `X`), with
the controller about to answer `+OK`. -/
def table_user : uxfs_t :=
  { mk_table [mk_file "/" 7 0,
      { mk_file "/a" 11 0 with
        buf := some { mode := 10, here := 0, fin := 1, size := 4, buffer := some [88, 0, 0, 0] } }]
    with co_in := cs "+OK\n" }

/-- The state `do_rename("/a", "/b")` leaves behind in `table_user`. -/
def table_user_renamed : uxfs_t :=
  ((do_rename table_user (cs "/a") (cs "/b") 0).map Prod.snd).getD table_user

-- Data blocks ----------------------------------------------------------------

/-- The bytes a buffer holds: `buffer[0 .. end)`. -/
def contents (b : buf_t) : List Nat := (b.buffer.getD []).take b.fin

/-- The allocation of a buffer agrees with its `size` field and `end` lies inside it. -/
def buf_wf (b : buf_t) : Prop :=
  ∀ m, b.buffer = some m → m.length = b.size ∧ b.fin ≤ b.size

/-- A line that passes the wire unchanged: no line feed and no NUL in it, and with
the escaping `.` at most `LINE_MAX - MIN_FREE` bytes long. -/
def wire_ok (l : List Nat) : Prop :=
  LF ∉ l ∧ 0 ∉ l ∧ l.length + (if l.getD 0 0 = DOT then 1 else 0) ≤ LINE_MAX - MIN_FREE

/-- The byte sequence made of the given lines, each followed by a line feed. -/
def unlines (lines : List (List Nat)) : List Nat :=
  match lines with
  | [] => []
  | l :: ls => l ++ LF :: unlines ls

/-- The wire form of a data block in the spec's words: a line that begins with `.`
gets one more `.` in front, and a lone `.` line ends the block. -/
def wire_block (lines : List (List Nat)) : List Nat :=
  match lines with
  | [] => [DOT, LF]
  | l :: ls => (if l.getD 0 0 = DOT then DOT :: l else l) ++ LF :: wire_block ls

instance wire_ok_dec (l : List Nat) : Decidable (wire_ok l) := by
  unfold wire_ok
  exact inferInstance

/-- A handle buffer that holds exactly the bytes `data` (four spare bytes behind them). -/
def buf_holding (data : List Nat) : buf_t :=
  { mode := 0, here := 0, fin := data.length, size := data.length + 4,
    buffer := some (data ++ [0, 0, 0, 0]) }

/-- The empty table with a silent controller. -/
def table_empty : uxfs_t := mk_table []

/-- Two buffers agree in everything but the read cursor `here`. -/
def same_data (a b : buf_t) : Prop :=
  a.mode = b.mode ∧ a.fin = b.fin ∧ a.size = b.size ∧ a.buffer = b.buffer

/-- The table holding only a writable root `/`, the controller about to answer `+OK`. -/
def table_root_ok : uxfs_t := { table_root_rw with co_in := cs "+OK\n" }

/-- The handle `do_create("/note")` returns in `table_root_ok`. -/
def note_handle : buf_t :=
  (((do_create table_root_ok (cs "/note") 0).map (fun r => r.2.1)).getD none).getD b_alloc

/-- The state `do_create("/note")` leaves behind in `table_root_ok`. -/
def note_created : uxfs_t :=
  ((do_create table_root_ok (cs "/note") 0).map (fun r => r.2.2)).getD table_root_ok

/-- The state `main` sets up before its `add_file`: all zero but `inode_count = 1`;
`inp` is what the controller is going to send. -/
def uxfs_init (inp : List Nat) : uxfs_t :=
  { heap := [], dir := [], inode_count := 1, n_open := 0, n_close := 0, other_users := 0,
    co_in := inp, co_out := [], exited := false }

/-- The table `main` hands to `fuse_main`: the root added by `add_file(&uxfs.dir, "/", M_DIR)`,
a call that returns (the lock is free and the path has one byte). -/
def bootstrap (inp : List Nat) (now : Nat) : uxfs_t :=
  ((add_file false (uxfs_init inp) (cs "/") M_DIR now).map Prod.snd).getD (uxfs_init inp)

/-- The handle `f_open` hands out with the mode bits `mode` when there is no retained
buffer to copy: 512 bytes allocated, nothing written. -/
def fresh_handle (mode : Nat) : buf_t :=
  { mode := mode, here := 0, fin := 0, size := 512, buffer := some (malloc 512) }

/-- A handle with WRITE and USER holding the five bytes `hello`. -/
def hello_handle : buf_t := { buf_holding (cs "hello") with mode := M_WRITE ||| M_USER }

/-- A property of states that no exchange with the controller breaks: it survives
every change outside the table and the upsert of every directive line. -/
def stable (I : uxfs_t → Prop) : Prop :=
  (∀ u v : uxfs_t, v.heap = u.heap → v.dir = u.dir → I u → I v) ∧
  (∀ (held : Bool) (u : uxfs_t) (line : List Nat) (now : Nat) (r : Int × uxfs_t),
    I u → add_file_from_definition held u line now = some r → I r.2)

/-- The mode bits an access mode asks for, in the spec's words: READ for read-only,
WRITE for write-only, both for read-write. -/
def needed_bits (acc : Nat) : Nat :=
  if acc = O_RDONLY then M_READ else if acc = O_WRONLY then M_WRITE else M_READ ||| M_WRITE

/-- What `do_write` and `do_release` rely on in a handle: the buffer is allocated
with `size` bytes and `end` lies below `size`. -/
def handle_ok (b : buf_t) : Prop :=
  b.buffer.map List.length = some b.size ∧ b.fin < b.size

instance handle_ok_dec (b : buf_t) : Decidable (handle_ok b) := by
  unfold handle_ok
  exact inferInstance

/-- A sequence of `do_write` calls on one handle, each with its data and its offset;
`none` once a call has no defined result. -/
def do_writes (b : buf_t) : List (List Nat × Nat) → Option buf_t
  | [] => some b
  | w :: rest =>
    match do_write b w.1 w.2 with
    | none => none
    | some r => do_writes r.2.2 rest

/-- The handle a read-write `f_open` of `/a` hands out in `table_user`. -/
def user_handle : buf_t :=
  (((f_open table_user 1 O_RDWR 0).map (fun r => r.2.1)).getD none).getD b_alloc

/-- The state a read-write `f_open` of `/a` leaves behind in `table_user`. -/
def user_opened : uxfs_t := ((f_open table_user 1 O_RDWR 0).map (fun r => r.2.2)).getD table_user

/-- A sequence of `add_file` calls outside the lock, each with its path, its mode and the
time of the call; `none` once a call has no result. -/
def add_files (u : uxfs_t) : List (List Nat × Nat × Nat) → Option uxfs_t
  | [] => some u
  | c :: rest =>
    match add_file false u c.1 c.2.1 c.2.2 with
    | none => none
    | some r => add_files r.2 rest

/-- Three `add_file` calls on the empty table: `/`, then `/a`, then `/` once more. -/
def three_calls : List (List Nat × Nat × Nat) :=
  [(cs "/", M_DIR, 0), (cs "/a", M_READ ||| M_WRITE, 1), (cs "/", M_DIR ||| M_WRITE, 2)]

/-- The root path has an entry that is not deleted and has DIR. -/
def root_ok (u : uxfs_t) : Prop :=
  ∃ r, entry_of u (cs "/") r ∧ (deref u r).deleted = 0 ∧ (deref u r).mode &&& M_DIR ≠ 0

/-- The table invariant together with a live root directory. -/
def root_inv (u : uxfs_t) : Prop := table_ok u ∧ root_ok u

/-- One event in the life of the table: a file operation with its arguments, one line
of the data block of a DIR directive, or bytes arriving from the controller. -/
inductive fs_op where
  | op_create (path : List Nat)
  | op_open (path : List Nat) (flags : Nat)
  | op_mkdir (path : List Nat)
  | op_rmdir (path : List Nat)
  | op_unlink (path : List Nat)
  | op_rename (src dst : List Nat)
  | op_release (path : List Nat) (b : buf_t)
  | op_directive (line : List Nat)
  | op_input (inp : List Nat)
  deriving DecidableEq

/-- The state after one event at the time `now`; `none` when the operation has no
defined result. -/
def run_op (u : uxfs_t) (now : Nat) : fs_op → Option uxfs_t
  | fs_op.op_create path => (do_create u path now).map (fun r => r.2.2)
  | fs_op.op_open path flags => (do_open u path flags now).map (fun r => r.2.2)
  | fs_op.op_mkdir path => (do_mkdir u path now).map (fun r => r.2)
  | fs_op.op_rmdir path => (do_rmdir u path now).map (fun r => r.2)
  | fs_op.op_unlink path => (do_unlink u path now).map (fun r => r.2)
  | fs_op.op_rename src dst => (do_rename u src dst now).map (fun r => r.2)
  | fs_op.op_release path b => (do_release u path b now).map (fun r => r.2)
  | fs_op.op_directive line => (add_file_from_definition false u line now).map (fun r => r.2)
  | fs_op.op_input inp => some { u with co_in := u.co_in ++ inp }

/-- A sequence of events, each with the time it happens at. -/
def run_ops (u : uxfs_t) : List (Nat × fs_op) → Option uxfs_t
  | [] => some u
  | e :: rest =>
    match run_op u e.1 e.2 with
    | none => none
    | some v => run_ops v rest

/-- The handle `do_create` hands out, after `do_write` has stored the byte `X` at offset 0. -/
def written_handle : buf_t :=
  ((do_write (fresh_handle (M_WRITE ||| M_USER)) (cs "X") 0).map (fun r => r.2.2)).getD b_alloc

/-- The controller declares the root writable and is ready to answer `+OK` three times;
then `/a` is created, written, released and unlinked, and `mkdir /a` follows. -/
def mkdir_over_file : List (Nat × fs_op) :=
  [(1, fs_op.op_directive (cs "/ rw")), (2, fs_op.op_input (cs "+OK\n+OK\n+OK\n")),
   (3, fs_op.op_create (cs "/a")), (4, fs_op.op_release (cs "/a") written_handle),
   (5, fs_op.op_unlink (cs "/a")), (6, fs_op.op_mkdir (cs "/a"))]

/-- A life of the table that leaves the root alone: the root is declared writable,
`/note` is created, `/d` is made and removed again. -/
def quiet_life : List (Nat × fs_op) :=
  [(1, fs_op.op_directive (cs "/ rw")), (2, fs_op.op_input (cs "+OK\n+OK\n")),
   (3, fs_op.op_create (cs "/note")), (4, fs_op.op_mkdir (cs "/d")),
   (5, fs_op.op_rmdir (cs "/d"))]

/-- A path of `FILENAME_MAX + 1` bytes: `/aaa...a`. -/
def over_long_path : List Nat := SLASH :: List.replicate 4096 97

/-- A path of exactly `FILENAME_MAX` bytes: `/aaa...a`. -/
def full_path : List Nat := SLASH :: List.replicate 4095 97

/-- Mask of the file-type bits of `st_mode` (`<sys/stat.h>`). -/
def S_IFMT : Nat := 0o170000

/-- Mask of the user permission bits of `st_mode` (`<sys/stat.h>`). -/
def S_IRWXU : Nat := 0o700

/-- The state of `table_d_dash` when uxfs was started with `allow_other`. -/
def table_d_dash_shared : uxfs_t := { table_d_dash with other_users := 2 }

/-- The number of probes the loop of `d_search_file` makes when it may run for `fuel`
rounds: one for every pass through the loop body. -/
def d_search_probes (pathAt : Nat → List Nat) (path : List Nat) : Nat → Int → Int → Nat
  | 0, _, _ => 0
  | fuel + 1, left, right =>
    if left ≤ right then
      let k := ((left + right) / 2).toNat
      let r1 := strcmp path (pathAt k)
      if r1 = 0 then 1
      else if r1 < 0 then 1 + d_search_probes pathAt path fuel left ((k : Int) - 1)
      else 1 + d_search_probes pathAt path fuel ((k : Int) + 1) right
    else 0

/-- The mode bits of one letter of a mode string, in the spec's words: `r` READ, `w`
WRITE, `d` DIR, `s` READ, WRITE and STATIC, any other letter READ. -/
def letter_bits (c : Nat) : Nat :=
  if c = 114 then M_READ
  else if c = 119 then M_WRITE
  else if c = 100 then M_DIR
  else if c = 115 then M_READ ||| M_WRITE ||| M_STATIC
  else M_READ

/-- The bitwise OR of the bits of all letters of a mode string, in the spec's words. -/
def spec_modebits (par : List Nat) : Nat :=
  match par with
  | [] => 0
  | c :: rest => letter_bits c ||| spec_modebits rest

/-- The status token of a status line as `c_putc` takes it: the first word of the first
field that ends at a `;`. -/
def status_token (line : List Nat) : List Nat :=
  (m_getword (m_getword line 59 200).1 32 40).1

/-- The first words of the directives behind the status field, as the loop of `c_putc`
takes them: field by field up to the first empty one; `fuel` bounds their number. -/
def directive_words : Nat → List Nat → List (List Nat)
  | 0, _ => []
  | fuel + 1, p =>
    if (m_getword p 59 200).1 = [] then []
    else (m_getword (m_getword p 59 200).1 32 40).1 ::
      directive_words fuel (m_getword p 59 200).2

/-- The empty table with the controller about to send the given bytes. -/
def table_hearing (inp : String) : uxfs_t := { table_empty with co_in := cs inp }

/-- A mode as `add_file` leaves it, in the spec's words: READ or WRITE is set, and READ
is set whenever DIR is. -/
def mode_ok (m : Nat) : Prop :=
  m &&& (M_READ ||| M_WRITE) ≠ 0 ∧ (m &&& M_DIR ≠ 0 → m &&& M_READ ≠ 0)

instance mode_ok_dec (m : Nat) : Decidable (mode_ok m) := by
  unfold mode_ok
  exact inferInstance

/-- The table invariant together with a normalised mode in every allocated record. -/
def mode_inv (u : uxfs_t) : Prop :=
  table_ok u ∧ ∀ p, p < u.heap.length → mode_ok (deref u p).mode

/-- One event on the table: a direct call `add_file(path, mode)`, or one of the events
of `fs_op`. -/
inductive table_op where
  | tbl_add_file (path : List Nat) (mode : Nat)
  | tbl_fs (op : fs_op)
  deriving DecidableEq

/-- The state after one table event at the time `now`; `none` when a file operation
has no defined result. -/
def run_table_op (u : uxfs_t) (now : Nat) : table_op → Option uxfs_t
  | table_op.tbl_add_file path mode => (add_file false u path mode now).map (fun r => r.2)
  | table_op.tbl_fs op => run_op u now op

/-- A sequence of table events, each with the time it happens at. -/
def run_table_ops (u : uxfs_t) : List (Nat × table_op) → Option uxfs_t
  | [] => some u
  | e :: rest =>
    match run_table_op u e.1 e.2 with
    | none => none
    | some v => run_table_ops v rest

/-- A short life of the table: `main` adds a writable root, a directive declares the
write-only `/a`, then `/d` is made, `/f` created, renamed to `/g` and unlinked, and
`/d` removed. -/
def busy_table : List (Nat × table_op) :=
  [(0, table_op.tbl_add_file (cs "/") (M_DIR ||| M_WRITE)),
   (1, table_op.tbl_fs (fs_op.op_directive (cs "/a w"))),
   (2, table_op.tbl_fs (fs_op.op_mkdir (cs "/d"))),
   (3, table_op.tbl_fs (fs_op.op_create (cs "/f"))),
   (4, table_op.tbl_fs (fs_op.op_rename (cs "/f") (cs "/g"))),
   (5, table_op.tbl_fs (fs_op.op_unlink (cs "/g"))),
   (6, table_op.tbl_fs (fs_op.op_rmdir (cs "/d")))]

-- ---------------------------------------------------------------------------
-- Theorems
-- ---------------------------------------------------------------------------

theorem strcmp_self (a : List Nat) : strcmp a a = 0 := by
  induction a with
  | nil => rfl
  | cons x xs ih => simp [strcmp, ih]

theorem strcmp_eq_zero (a b : List Nat) : strcmp a b = 0 ↔ a = b := by
  induction a generalizing b with
  | nil => cases b <;> simp [strcmp]
  | cons x xs ih =>
    cases b with
    | nil => simp [strcmp]
    | cons y ys =>
      simp only [strcmp]
      by_cases h : x = y
      · simp [h, ih]
      · simp only [h, if_false, List.cons.injEq, false_and, iff_false]
        omega

theorem strcmp_swap (a b : List Nat) : strcmp a b < 0 ↔ 0 < strcmp b a := by
  induction a generalizing b with
  | nil => cases b <;> simp [strcmp]
  | cons x xs ih =>
    cases b with
    | nil => simp [strcmp]
    | cons y ys =>
      simp only [strcmp]
      by_cases h : x = y
      · subst h
        simp [ih]
      · have h2 : ¬ y = x := fun e => h e.symm
        simp only [h, h2, if_false]
        omega

theorem strcmp_trans (a b c : List Nat) (h1 : strcmp a b < 0) (h2 : strcmp b c < 0) :
    strcmp a c < 0 := by
  induction a generalizing b c with
  | nil =>
    cases c with
    | nil => cases b <;> simp [strcmp] at h1 h2
    | cons z zs => simp [strcmp]
  | cons x xs ih =>
    cases b with
    | nil => simp [strcmp] at h1
    | cons y ys =>
      cases c with
      | nil => simp [strcmp] at h2
      | cons z zs =>
        simp only [strcmp] at h1 h2 ⊢
        by_cases hxy : x = y
        · subst hxy
          by_cases hxz : x = z
          · subst hxz
            simp only [if_true] at h1 h2 ⊢
            exact ih ys zs h1 h2
          · simp only [hxz, if_false] at h2 ⊢
            exact h2
        · simp only [hxy, if_false] at h1
          by_cases hyz : y = z
          · subst hyz
            simp only [hxy, if_false]
            exact h1
          · simp only [hyz, if_false] at h2
            have hxz : ¬ x = z := by omega
            simp only [hxz, if_false]
            omega

theorem d_search_loop_spec (P : Nat → List Nat) (n : Nat) (path : List Nat)
    (hs : ∀ i j, i < j → j < n → strcmp (P i) (P j) < 0) :
    ∀ (fuel : Nat) (left right r : Int) (pos : Nat),
      0 ≤ left → right < n → right + 1 - left ≤ fuel → left ≤ right + 1 →
      (∀ i : Nat, (i : Int) < left → 0 < strcmp path (P i)) →
      (∀ i : Nat, right < (i : Int) → i < n → strcmp path (P i) < 0) →
      (right < left → r ≠ 0 ∧ ((if r > 0 then pos + 1 else pos : Nat) : Int) = left) →
      search_res P n path (d_search_loop P path fuel left right r pos) := by
  intro fuel
  induction fuel with
  | zero =>
    intro left right r pos h0 hr hf hlr hlo hhi hex
    have hlt : right < left := by omega
    obtain ⟨hr0, hins⟩ := hex hlt
    simp only [d_search_loop]
    right
    refine ⟨hr0, ?_, ?_, ?_⟩
    · show (if r > 0 then pos + 1 else pos) ≤ n
      omega
    · intro i hi
      apply hlo
      show (i : Int) < left
      have : (if r > 0 then pos + 1 else pos) = (if r > 0 then pos + 1 else pos) := rfl
      simp only at hi
      omega
    · intro i hi hin
      apply hhi _ _ hin
      simp only at hi
      omega
  | succ fuel ih =>
    intro left right r pos h0 hr hf hlr hlo hhi hex
    simp only [d_search_loop]
    by_cases hle : left ≤ right
    · simp only [hle, if_true]
      have hk1 : left ≤ (((left + right) / 2).toNat : Int) := by omega
      have hk2 : (((left + right) / 2).toNat : Int) ≤ right := by omega
      generalize ((left + right) / 2).toNat = k at hk1 hk2
      have hkn : k < n := by omega
      by_cases hr1 : strcmp path (P k) = 0
      · simp only [hr1, if_true]
        left
        exact ⟨rfl, hkn, ((strcmp_eq_zero _ _).1 hr1).symm⟩
      · simp only [hr1, if_false]
        by_cases hneg : strcmp path (P k) < 0
        · simp only [hneg, if_true]
          apply ih
          · exact h0
          · omega
          · omega
          · omega
          · exact hlo
          · intro i hi hin
            by_cases hik : i = k
            · subst hik; exact hneg
            · exact strcmp_trans _ _ _ hneg (hs k i (by omega) hin)
          · intro _
            refine ⟨hr1, ?_⟩
            have : ¬ strcmp path (P k) > 0 := by omega
            simp only [this, if_false]
            omega
        · simp only [hneg, if_false]
          have hpos : 0 < strcmp path (P k) := by omega
          apply ih
          · omega
          · exact hr
          · omega
          · omega
          · intro i hi
            by_cases hik : i = k
            · subst hik; exact hpos
            · have h1 : strcmp (P i) (P k) < 0 := hs i k (by omega) hkn
              have h2 : strcmp (P k) path < 0 := (strcmp_swap _ _).2 hpos
              exact (strcmp_swap _ _).1 (strcmp_trans _ _ _ h1 h2)
          · exact hhi
          · intro _
            refine ⟨hr1, ?_⟩
            have : strcmp path (P k) > 0 := hpos
            simp only [this, if_true]
            omega
    · simp only [hle, if_false]
      have hlt : right < left := by omega
      obtain ⟨hr0, hins⟩ := hex hlt
      right
      refine ⟨hr0, ?_, ?_, ?_⟩
      · show (if r > 0 then pos + 1 else pos) ≤ n
        omega
      · intro i hi
        apply hlo
        simp only at hi
        omega
      · intro i hi hin
        apply hhi _ _ hin
        simp only at hi
        omega

theorem sorted_lt (u : uxfs_t) (hs : sorted u) :
    ∀ i j, i < j → j < u.dir.length →
      strcmp (file_at u i).path (file_at u j).path < 0 := by
  intro i j
  induction j with
  | zero => intro h; omega
  | succ j ih =>
    intro hij hj
    by_cases h : i = j
    · subst h; exact hs i hj
    · exact strcmp_trans _ _ _ (ih (by omega) (by omega)) (hs j hj)

theorem d_search_file_spec (u : uxfs_t) (path : List Nat) (hs : sorted u)
    (hne : u.dir.length ≠ 0) :
    search_res (fun k => (file_at u k).path) u.dir.length path (d_search_file u path) := by
  unfold d_search_file
  simp only [hne, if_false]
  apply d_search_loop_spec _ _ _ (sorted_lt u hs)
  · omega
  · omega
  · omega
  · omega
  · intro i hi; omega
  · intro i hi hin; omega
  · intro h; omega

theorem deref_store (u : uxfs_t) (p q : Nat) (f : file_t) :
    deref (store u p f) q = if q = p ∧ p < u.heap.length then f else deref u q := by
  unfold deref store
  simp only [List.getD_eq_getElem?_getD, List.getElem?_set]
  by_cases h : p = q
  · subst h
    by_cases h2 : p < u.heap.length
    · simp [h2]
    · have h4 : u.heap.length ≤ p := by omega
      simp [h2, List.getElem?_eq_none h4]
  · have h3 : ¬ q = p := fun e => h e.symm
    simp [h, h3]

theorem store_dir (u : uxfs_t) (p : Nat) (f : file_t) : (store u p f).dir = u.dir := rfl

theorem store_heap_length (u : uxfs_t) (p : Nat) (f : file_t) :
    (store u p f).heap.length = u.heap.length := by
  simp [store]

theorem file_at_store_path (u : uxfs_t) (p : Nat) (f : file_t)
    (hf : f.path = (deref u p).path) (k : Nat) :
    (file_at (store u p f) k).path = (file_at u k).path := by
  unfold file_at
  rw [deref_store, store_dir, store_heap_length]
  split
  · next h => rw [hf, h.1]
  · rfl

theorem file_at_out (u : uxfs_t) (k : Nat) (hk : u.dir.length ≤ k) : file_at u k = f_alloc := by
  unfold file_at deref
  simp [List.getD_eq_getElem?_getD, List.getElem?_eq_none hk]

theorem insert_getD (d : List Nat) (k : Nat) (hk : k ≤ d.length) (x dflt : Nat) (i : Nat) :
    (d.take k ++ [x] ++ d.drop k).getD i dflt
      = if i < k then d.getD i dflt else if i = k then x else d.getD (i - 1) dflt := by
  have hlen : (d.take k).length = k := by simp [hk]
  simp only [List.getD_eq_getElem?_getD, List.append_assoc]
  by_cases h1 : i < k
  · simp only [h1, if_true]
    rw [List.getElem?_append_left (by omega), List.getElem?_take_of_lt h1]
  · simp only [h1, if_false]
    rw [List.getElem?_append_right (by omega), hlen]
    by_cases h2 : i = k
    · subst h2
      simp
    · simp only [h2, if_false]
      have e : i - k = (i - k - 1) + 1 := by omega
      rw [e]
      simp only [List.singleton_append, List.getElem?_cons_succ, List.getElem?_drop]
      have e2 : k + (i - k - 1) = i - 1 := by omega
      rw [e2]

theorem file_at_insert (u : uxfs_t) (hp : ptrs_ok u) (f : file_t) (k : Nat)
    (hk : k ≤ u.dir.length) (ic : Nat) (i : Nat) :
    file_at { u with heap := u.heap ++ [f],
                     dir := u.dir.take k ++ [u.heap.length] ++ u.dir.drop k,
                     inode_count := ic } i
      = if i < k then file_at u i else if i = k then f else file_at u (i - 1) := by
  have key : ∀ j, (u.heap ++ [f]).getD (u.dir.getD j (u.heap.length + 1)) f_alloc
      = file_at u j := by
    intro j
    unfold file_at deref
    by_cases hj : j < u.dir.length
    · have hmem : u.dir[j] ∈ u.dir := List.getElem_mem hj
      have hv := hp _ hmem
      simp only [List.getD_eq_getElem?_getD, List.getElem?_eq_getElem hj, Option.getD_some]
      rw [List.getElem?_append_left hv]
    · have hj2 : u.dir.length ≤ j := by omega
      have h3 : (u.heap ++ [f]).length ≤ u.heap.length + 1 := by simp
      simp [List.getD_eq_getElem?_getD, List.getElem?_eq_none hj2, List.getElem?_eq_none h3]
  unfold file_at deref
  simp only [List.length_append, List.length_singleton]
  rw [insert_getD u.dir k hk]
  by_cases h1 : i < k
  · simp only [h1, if_true]
    exact key i
  · simp only [h1, if_false]
    by_cases h2 : i = k
    · simp [h2, List.getD_eq_getElem?_getD]
    · simp only [h2, if_false]
      exact key (i - 1)

theorem add_file_long (held : Bool) (u : uxfs_t) (path : List Nat) (mode now : Nat)
    (h : path.length > FILENAME_MAX) : add_file held u path mode now = some (-1, u) := by
  simp [add_file, h]

theorem add_file_held (u : uxfs_t) (path : List Nat) (mode now : Nat)
    (h : ¬ path.length > FILENAME_MAX) : add_file true u path mode now = none := by
  simp [add_file, h]

theorem add_file_found (u : uxfs_t) (path : List Nat) (mode now : Nat)
    (h : ¬ path.length > FILENAME_MAX) (hf : (d_search_file u path).1 = 0) :
    add_file false u path mode now =
      some (((d_search_file u path).2 : Int),
        store u (u.dir.getD (d_search_file u path).2 u.heap.length)
          { deref u (u.dir.getD (d_search_file u path).2 u.heap.length) with
            mode := fix_mode mode, deleted := 0 }) := by
  unfold add_file
  simp only [h, if_false]
  rcases hd : d_search_file u path with ⟨rc, k⟩
  rw [hd] at hf
  simp only at hf
  simp [hf]

theorem add_file_overrun (u : uxfs_t) (path : List Nat) (mode now : Nat)
    (h : path.length = FILENAME_MAX) (hf : (d_search_file u path).1 ≠ 0) :
    add_file false u path mode now = none := by
  have h1 : ¬ path.length > FILENAME_MAX := by omega
  unfold add_file
  simp only [h1, if_false]
  rcases hd : d_search_file u path with ⟨rc, k⟩
  rw [hd] at hf
  simp only at hf
  simp [hf, h]

theorem add_file_new (u : uxfs_t) (path : List Nat) (mode now : Nat)
    (h : path.length < FILENAME_MAX) (hf : (d_search_file u path).1 ≠ 0) :
    add_file false u path mode now =
      some (((ins_pos u path : Nat) : Int),
        { u with heap := u.heap ++ [new_file u path mode now],
                 dir := u.dir.take (ins_pos u path) ++ [u.heap.length]
                          ++ u.dir.drop (ins_pos u path),
                 inode_count := u.inode_count + 1 }) := by
  have h1 : ¬ path.length > FILENAME_MAX := by omega
  have h2 : ¬ path.length = FILENAME_MAX := by omega
  unfold add_file ins_pos new_file
  simp only [h1, if_false]
  rcases hd : d_search_file u path with ⟨rc, k⟩
  rw [hd] at hf
  simp only at hf
  simp [hf, h2]

theorem add_file_some (held : Bool) (u : uxfs_t) (path : List Nat) (mode now : Nat)
    (r : Int × uxfs_t) (e : add_file held u path mode now = some r) :
    (path.length > FILENAME_MAX ∧ r = (-1, u)) ∨
    (held = false ∧ ¬ path.length > FILENAME_MAX ∧ (d_search_file u path).1 = 0 ∧
      r = (((d_search_file u path).2 : Int),
        store u (u.dir.getD (d_search_file u path).2 u.heap.length)
          { deref u (u.dir.getD (d_search_file u path).2 u.heap.length) with
            mode := fix_mode mode, deleted := 0 })) ∨
    (held = false ∧ path.length < FILENAME_MAX ∧ (d_search_file u path).1 ≠ 0 ∧
      r = (((ins_pos u path : Nat) : Int),
        { u with heap := u.heap ++ [new_file u path mode now],
                 dir := u.dir.take (ins_pos u path) ++ [u.heap.length]
                          ++ u.dir.drop (ins_pos u path),
                 inode_count := u.inode_count + 1 })) := by
  by_cases h : path.length > FILENAME_MAX
  · rw [add_file_long held u path mode now h] at e
    exact Or.inl ⟨h, (Option.some.inj e).symm⟩
  · cases held with
    | true =>
      rw [add_file_held u path mode now h] at e
      exact absurd e (by simp)
    | false =>
      by_cases hf : (d_search_file u path).1 = 0
      · rw [add_file_found u path mode now h hf] at e
        exact Or.inr (Or.inl ⟨rfl, h, hf, (Option.some.inj e).symm⟩)
      · by_cases he : path.length = FILENAME_MAX
        · rw [add_file_overrun u path mode now he hf] at e
          exact absurd e (by simp)
        · have hlt : path.length < FILENAME_MAX := by omega
          rw [add_file_new u path mode now hlt hf] at e
          exact Or.inr (Or.inr ⟨rfl, hlt, hf, (Option.some.inj e).symm⟩)

theorem ins_pos_spec (u : uxfs_t) (path : List Nat) (hs : sorted u)
    (hf : (d_search_file u path).1 ≠ 0) :
    ins_pos u path ≤ u.dir.length ∧
    (∀ i, i < ins_pos u path → 0 < strcmp path (file_at u i).path) ∧
    (∀ i, ins_pos u path ≤ i → i < u.dir.length → strcmp path (file_at u i).path < 0) := by
  by_cases hne : u.dir.length = 0
  · have h0 : d_search_file u path = (1, 0) := by simp [d_search_file, hne]
    have hi : ins_pos u path = 0 := by simp [ins_pos, hne, h0]
    rw [hi]
    refine ⟨by omega, ?_, ?_⟩
    · intro i h; omega
    · intro i _ h; omega
  · have hsp := d_search_file_spec u path hs hne
    have hpos : u.dir.length > 0 := by omega
    have hi : ins_pos u path = (if (d_search_file u path).1 > 0
        then (d_search_file u path).2 + 1 else (d_search_file u path).2) := by
      simp [ins_pos, hpos]
    rw [hi]
    rcases hsp with h | h
    · exact absurd h.1 hf
    · exact h.2

theorem add_file_sorted_aux (held : Bool) (u : uxfs_t) (path : List Nat) (mode now : Nat)
    (r : Int × uxfs_t) (hp : ptrs_ok u) (hs : sorted u)
    (e : add_file held u path mode now = some r) : sorted r.2 := by
  rcases add_file_some held u path mode now r e with ⟨_, rfl⟩ | ⟨_, h, hf, rfl⟩ | ⟨_, h, hf, rfl⟩
  · exact hs
  · intro i hi
    have e := file_at_store_path u (u.dir.getD (d_search_file u path).2 u.heap.length)
      { deref u (u.dir.getD (d_search_file u path).2 u.heap.length) with
        mode := fix_mode mode, deleted := 0 } rfl
    show strcmp (file_at (store _ _ _) i).path (file_at (store _ _ _) (i + 1)).path < 0
    rw [e i, e (i + 1)]
    exact hs i hi
  · obtain ⟨hk, hlo, hhi⟩ := ins_pos_spec u path hs hf
    intro i hi
    simp only [List.length_append, List.length_take, List.length_drop,
      List.length_singleton] at hi
    show strcmp (file_at _ i).path (file_at _ (i + 1)).path < 0
    rw [file_at_insert u hp _ _ hk, file_at_insert u hp _ _ hk]
    by_cases h1 : i + 1 < ins_pos u path
    · have h2 : i < ins_pos u path := by omega
      simp only [h1, h2, if_true]
      exact hs i (by omega)
    · by_cases h3 : i + 1 = ins_pos u path
      · have h2 : i < ins_pos u path := by omega
        have h6 : ¬ i + 1 < ins_pos u path := by omega
        rw [if_pos h2, if_neg h6, if_pos h3]
        exact (strcmp_swap _ _).2 (hlo i h2)
      · by_cases h4 : i = ins_pos u path
        · have h5 : ¬ i < ins_pos u path := by omega
          simp only [h1, h3, h4, h5, if_true, if_false]
          have := hhi i (by omega) (by omega)
          simpa [new_file, h4] using this
        · have h5 : ¬ i < ins_pos u path := by omega
          simp only [h1, h3, h4, h5, if_false]
          have e : i + 1 - 1 = (i - 1) + 1 := by omega
          rw [e]
          exact hs (i - 1) (by omega)

theorem add_file_ptrs_ok (held : Bool) (u : uxfs_t) (path : List Nat) (mode now : Nat)
    (r : Int × uxfs_t) (hp : ptrs_ok u) (e : add_file held u path mode now = some r) :
    ptrs_ok r.2 := by
  rcases add_file_some held u path mode now r e with ⟨_, rfl⟩ | ⟨_, h, hf, rfl⟩ | ⟨_, h, hf, rfl⟩
  · exact hp
  · intro p hmem
    show p < (store _ _ _).heap.length
    rw [store_heap_length]
    exact hp p hmem
  · intro p hmem
    simp only [List.mem_append, List.mem_singleton, List.length_append,
      List.length_singleton] at hmem ⊢
    rcases hmem with (h1 | h1) | h1
    · have := hp p (List.mem_of_mem_take h1); omega
    · omega
    · have := hp p (List.mem_of_mem_drop h1); omega

/-- C2 (divergence): in the sorted table `/`, `/d`, `/d-x`, `/d/x` the directory `/d`
has the live child `/d/x`, yet `do_readdir("/d")` hands the filler only `.` and
`..`: the scan stops at `/d-x`, which sorts before `/d/x`. -/
theorem do_readdir_stops_before_child :
    sorted table_d_dash ∧ ptrs_ok table_d_dash ∧
    getfile table_d_dash (cs "/d") 0 = some 1 ∧ (deref table_d_dash 1).mode &&& M_DIR ≠ 0 ∧
    (do_readdir table_d_dash (cs "/d") ⟨[], 100⟩).1 = 0 ∧
    (do_readdir table_d_dash (cs "/d") ⟨[], 100⟩).2.2.names.map Prod.fst = [cs ".", cs ".."] ∧
    spec_readdir table_d_dash (cs "/d") = [cs "x"] := by
  decide

/-- C4 (divergence): in the sorted table `/`, `/d`, `/dx` no entry lies within `/d`,
yet `do_rmdir("/d")` returns `-ENOTEMPTY`: the scan takes `/dx` for a member
because the two tests are joined by `||`. -/
theorem do_rmdir_counts_sibling :
    sorted table_d_dx ∧ ptrs_ok table_d_dx ∧
    getfile table_d_dx (cs "/d") 0 = some 1 ∧ (deref table_d_dx 1).mode &&& M_DIR ≠ 0 ∧
    has_live_below table_d_dx (cs "/d") = false ∧
    do_rmdir table_d_dx (cs "/d") 0 = some (-ENOTEMPTY, table_d_dx) := by
  decide

/-- C5 (divergence): with the controller answering `-ERR`, `do_unlink` and `do_rename`
still return 0 and mark the entry deleted, and `do_rmdir` returns `-EPERM` only
after it has marked the directory deleted. -/
theorem fileop_err_still_mutates :
    (do_unlink table_err (cs "/f") 0).map Prod.fst = some 0 ∧
    (do_unlink table_err (cs "/f") 0).map (fun r => (deref r.2 2).deleted) = some 1 ∧
    (do_rename table_err (cs "/f") (cs "/g") 0).map Prod.fst = some 0 ∧
    (do_rename table_err (cs "/f") (cs "/g") 0).map (fun r => (deref r.2 2).deleted) = some 1 ∧
    (do_rmdir table_err (cs "/d") 0).map Prod.fst = some (-EPERM) ∧
    (do_rmdir table_err (cs "/d") 0).map (fun r => (deref r.2 1).deleted) = some 1 ∧
    (deref table_err 1).deleted = 0 ∧ (deref table_err 2).deleted = 0 := by
  decide

theorem d_search_file_one (u : uxfs_t) (path : List Nat) (h1 : u.dir.length = 1) :
    d_search_file u path =
      if strcmp path (file_at u 0).path = 0 then (0, 0)
      else (strcmp path (file_at u 0).path, 0) := by
  unfold d_search_file
  simp only [h1, one_ne_zero, if_false]
  simp only [d_search_loop]
  by_cases h : strcmp path (file_at u 0).path = 0
  · simp [h]
  · by_cases h2 : strcmp path (file_at u 0).path < 0 <;> simp [h, h2]

theorem strcmp_eq_zero_comm (a b : List Nat) : strcmp a b = 0 ↔ strcmp b a = 0 := by
  rw [strcmp_eq_zero, strcmp_eq_zero]
  exact eq_comm

theorem getfile_eq_lookup (u : uxfs_t) (path : List Nat) (del : Int) :
    getfile u path del =
      match lookup u path with
      | some p => if del = 0 ∧ (deref u p).deleted ≠ 0 then none else some p
      | none => none := by
  unfold getfile lookup
  by_cases h0 : u.dir.length = 0
  · have : d_search_file u path = (1, 0) := by simp [d_search_file, h0]
    simp [h0, this]
  · by_cases h1 : u.dir.length = 1
    · rw [d_search_file_one u path h1]
      simp only [h1, one_ne_zero, if_false, if_true]
      by_cases h : strcmp path (file_at u 0).path = 0
      · have h' := (strcmp_eq_zero_comm _ _).1 h
        simp [h, h']
      · have h' : ¬ strcmp (file_at u 0).path path = 0 :=
          fun e => h ((strcmp_eq_zero_comm _ _).1 e)
        simp [h, h']
    · simp only [h0, h1, if_false]

theorem d_search_file_found (u : uxfs_t) (path : List Nat) (hs : sorted u)
    (hf : (d_search_file u path).1 = 0) :
    (d_search_file u path).2 < u.dir.length ∧
    (file_at u (d_search_file u path).2).path = path := by
  by_cases h0 : u.dir.length = 0
  · have : d_search_file u path = (1, 0) := by simp [d_search_file, h0]
    rw [this] at hf
    simp at hf
  · rcases d_search_file_spec u path hs h0 with h | h
    · exact ⟨h.2.1, h.2.2⟩
    · exact absurd hf h.1

theorem d_search_file_complete (u : uxfs_t) (path : List Nat) (hs : sorted u) (k : Nat)
    (hk : k < u.dir.length) (hp : (file_at u k).path = path) :
    (d_search_file u path).1 = 0 := by
  have h0 : u.dir.length ≠ 0 := by omega
  rcases d_search_file_spec u path hs h0 with h | h
  · exact h.1
  · exfalso
    obtain ⟨_, _, hlo, hhi⟩ := h
    by_cases hlt : k < (if (d_search_file u path).1 > 0 then (d_search_file u path).2 + 1
        else (d_search_file u path).2)
    · have := hlo k hlt
      simp only at this
      rw [hp, strcmp_self] at this
      omega
    · have := hhi k (by omega) hk
      simp only at this
      rw [hp, strcmp_self] at this
      omega

theorem sorted_index_unique (u : uxfs_t) (hs : sorted u) (i j : Nat)
    (hi : i < u.dir.length) (hj : j < u.dir.length)
    (he : (file_at u i).path = (file_at u j).path) : i = j := by
  by_contra hne
  rcases Nat.lt_or_gt_of_ne hne with h | h
  · have := sorted_lt u hs i j h hj
    rw [he, strcmp_self] at this
    omega
  · have := sorted_lt u hs j i h hi
    rw [he, strcmp_self] at this
    omega

theorem file_at_eq_deref (u : uxfs_t) (k : Nat) (hk : k < u.dir.length) :
    file_at u k = deref u u.dir[k] ∧ u.dir.getD k u.heap.length = u.dir[k] := by
  unfold file_at
  simp [List.getD_eq_getElem?_getD, List.getElem?_eq_getElem hk]

theorem lookup_iff (u : uxfs_t) (hs : sorted u) (path : List Nat) (p : Nat) :
    lookup u path = some p ↔ entry_of u path p := by
  unfold lookup entry_of
  constructor
  · intro h
    by_cases hf : (d_search_file u path).1 = 0
    · simp only [hf, if_true, Option.some.injEq] at h
      obtain ⟨hk, hp⟩ := d_search_file_found u path hs hf
      obtain ⟨e1, e2⟩ := file_at_eq_deref u _ hk
      rw [e2] at h
      rw [e1, h] at hp
      refine ⟨?_, hp⟩
      rw [← h]
      exact List.getElem_mem hk
    · simp [hf] at h
  · rintro ⟨hmem, hp⟩
    obtain ⟨k, hk, hkp⟩ := List.getElem_of_mem hmem
    obtain ⟨e1, e2⟩ := file_at_eq_deref u k hk
    have hpk : (file_at u k).path = path := by rw [e1, hkp, hp]
    have hf := d_search_file_complete u path hs k hk hpk
    obtain ⟨hk2, hp2⟩ := d_search_file_found u path hs hf
    have := sorted_index_unique u hs _ _ hk2 hk (by rw [hp2, hpk])
    simp only [hf, if_true, Option.some.injEq]
    rw [this, e2, hkp]

theorem getfile_incl_iff (u : uxfs_t) (hs : sorted u) (path : List Nat) (p : Nat) :
    getfile u path 1 = some p ↔ entry_of u path p := by
  rw [getfile_eq_lookup, ← lookup_iff u hs]
  cases lookup u path <;> simp

theorem getfile_live_iff (u : uxfs_t) (hs : sorted u) (path : List Nat) (p : Nat) :
    getfile u path 0 = some p ↔ entry_of u path p ∧ (deref u p).deleted = 0 := by
  rw [getfile_eq_lookup, ← lookup_iff u hs]
  cases h : lookup u path with
  | none => simp
  | some q =>
    by_cases hd : (deref u q).deleted = 0
    · simp only [hd, ne_eq, not_true_eq_false, and_false, if_false, Option.some.injEq]
      constructor
      · intro e; subst e; exact ⟨rfl, hd⟩
      · intro e; exact e.1
    · simp only [ne_eq, hd, not_false_eq_true, and_self, if_true, Option.some.injEq]
      constructor
      · intro e; cases e
      · rintro ⟨e, h2⟩; subst e; exact absurd h2 hd

theorem entry_of_unique (u : uxfs_t) (hs : sorted u) (path : List Nat) (p q : Nat)
    (hp : entry_of u path p) (hq : entry_of u path q) : p = q := by
  have h1 := (lookup_iff u hs path p).2 hp
  have h2 := (lookup_iff u hs path q).2 hq
  rw [h1] at h2
  exact Option.some.inj h2

theorem present_iff_entry (u : uxfs_t) (path : List Nat) :
    present u path ↔ ∃ p, entry_of u path p := by
  unfold present entry_of
  constructor
  · rintro ⟨p, h1, h2⟩; exact ⟨p, h1, h2⟩
  · rintro ⟨p, h1, h2⟩; exact ⟨p, h1, h2⟩

theorem search_found_iff_present (u : uxfs_t) (hs : sorted u) (path : List Nat) :
    (d_search_file u path).1 = 0 ↔ present u path := by
  rw [present_iff_entry]
  constructor
  · intro h
    refine ⟨u.dir.getD (d_search_file u path).2 u.heap.length, ?_⟩
    rw [← lookup_iff u hs]
    simp [lookup, h]
  · rintro ⟨p, hp⟩
    have := (lookup_iff u hs path p).2 hp
    unfold lookup at this
    by_contra hne
    simp [hne] at this

theorem search_found_entry (u : uxfs_t) (hs : sorted u) (path : List Nat) (p : Nat)
    (hp : entry_of u path p) :
    (d_search_file u path).1 = 0 ∧
    u.dir.getD (d_search_file u path).2 u.heap.length = p ∧
    file_at u (d_search_file u path).2 = deref u p ∧
    (d_search_file u path).2 < u.dir.length := by
  have h := (lookup_iff u hs path p).2 hp
  unfold lookup at h
  by_cases hf : (d_search_file u path).1 = 0
  · simp only [hf, if_true, Option.some.injEq] at h
    refine ⟨hf, h, ?_, (d_search_file_found u path hs hf).1⟩
    unfold file_at
    rw [h]
  · simp [hf] at h

theorem frame_refl (u : uxfs_t) : frame u u :=
  ⟨le_refl _, fun _ _ => ⟨rfl, rfl, rfl, rfl⟩, fun _ h => h⟩

theorem frame_trans (u v w : uxfs_t) (h1 : frame u v) (h2 : frame v w) : frame u w := by
  obtain ⟨a1, b1, c1⟩ := h1
  obtain ⟨a2, b2, c2⟩ := h2
  refine ⟨le_trans a1 a2, ?_, fun p hp => c2 p (c1 p hp)⟩
  intro p hp
  obtain ⟨x1, x2, x3, x4⟩ := b1 p hp
  obtain ⟨y1, y2, y3, y4⟩ := b2 p (by omega)
  exact ⟨y1.trans x1, y2.trans x2, y3.trans x3, y4.trans x4⟩

theorem deref_append (u : uxfs_t) (f : file_t) (d : List Nat) (ic : Nat) (p : Nat) :
    deref { u with heap := u.heap ++ [f], dir := d, inode_count := ic } p
      = if p < u.heap.length then deref u p else if p = u.heap.length then f else f_alloc := by
  unfold deref
  simp only [List.getD_eq_getElem?_getD]
  by_cases h1 : p < u.heap.length
  · simp [h1, List.getElem?_append_left h1]
  · by_cases h2 : p = u.heap.length
    · subst h2
      simp
    · have h3 : (u.heap ++ [f]).length ≤ p := by simp; omega
      simp [h1, h2, List.getElem?_eq_none h3]

theorem add_file_frame (held : Bool) (u : uxfs_t) (path : List Nat) (mode now : Nat)
    (r : Int × uxfs_t) (e : add_file held u path mode now = some r) : frame u r.2 := by
  rcases add_file_some held u path mode now r e with ⟨_, rfl⟩ | ⟨_, h, hf, rfl⟩ | ⟨_, h, hf, rfl⟩
  · exact frame_refl u
  · refine ⟨by simp [store], ?_, fun p hp => hp⟩
    intro p _
    show (deref (store _ _ _) p).path = _ ∧ (deref (store _ _ _) p).buf = _ ∧
      (deref (store _ _ _) p).inode = _ ∧ (deref (store _ _ _) p).used = _
    rw [deref_store]
    split
    · next hq => rw [hq.1]; exact ⟨rfl, rfl, rfl, rfl⟩
    · exact ⟨rfl, rfl, rfl, rfl⟩
  · refine ⟨by simp, ?_, ?_⟩
    · intro p hp
      simp only [deref_append, hp, if_true, and_self]
    · intro p hp
      simp only [List.mem_append, List.mem_singleton]
      have := (List.take_append_drop (ins_pos u path) u.dir).symm
      rw [this] at hp
      rcases List.mem_append.1 hp with h1 | h1
      · exact Or.inl (Or.inl h1)
      · exact Or.inr h1

theorem add_file_entry (held : Bool) (u : uxfs_t) (path : List Nat) (mode now : Nat)
    (r : Int × uxfs_t) (hp : ptrs_ok u) (hs : sorted u) (h : ¬ path.length > FILENAME_MAX)
    (e : add_file held u path mode now = some r) :
    ∃ q, file_ptr r.2 r.1 = some q ∧ entry_of r.2 path q ∧
      (deref r.2 q).mode = fix_mode mode ∧ (deref r.2 q).deleted = 0 := by
  rcases add_file_some held u path mode now r e with ⟨h1, _⟩ | ⟨_, _, hf, rfl⟩ | ⟨_, _, hf, rfl⟩
  · exact absurd h1 h
  · obtain ⟨hk, hpath⟩ := d_search_file_found u path hs hf
    obtain ⟨e1, e2⟩ := file_at_eq_deref u _ hk
    have hmem : u.dir[(d_search_file u path).2] ∈ u.dir := List.getElem_mem hk
    have hv := hp _ hmem
    refine ⟨u.dir[(d_search_file u path).2], ?_, ⟨hmem, ?_⟩, ?_, ?_⟩
    · simp [file_ptr, store, List.get?_eq_getElem?, List.getElem?_eq_getElem hk]
    · show (deref (store _ _ _) _).path = path
      rw [deref_store, e2]
      simp only [hv, and_self, if_true]
      rw [← e1]; exact hpath
    · show (deref (store _ _ _) _).mode = _
      rw [deref_store, e2]
      simp only [hv, and_self, if_true]
    · show (deref (store _ _ _) _).deleted = _
      rw [deref_store, e2]
      simp only [hv, and_self, if_true]
  · obtain ⟨hk, _, _⟩ := ins_pos_spec u path hs hf
    have hlen : (u.dir.take (ins_pos u path)).length = ins_pos u path := by simp [hk]
    refine ⟨u.heap.length, ?_, ⟨?_, ?_⟩, ?_, ?_⟩
    · simp only [file_ptr, Int.natCast_nonneg, if_true, Int.toNat_ofNat, List.get?_eq_getElem?,
        List.append_assoc]
      rw [List.getElem?_append_right (by omega), hlen]
      simp
    · simp
    · simp [deref_append, new_file]
    · simp [deref_append, new_file]
    · simp [deref_append, new_file]

theorem step_refl (u : uxfs_t) : step u u := ⟨frame_refl u, fun h => h⟩

theorem step_trans (u v w : uxfs_t) (h1 : step u v) (h2 : step v w) : step u w :=
  ⟨frame_trans u v w h1.1 h2.1, fun h => h2.2 (h1.2 h)⟩

theorem step_of_tbl (u v : uxfs_t) (h1 : v.heap = u.heap) (h2 : v.dir = u.dir) : step u v := by
  have hd : ∀ p, deref v p = deref u p := fun p => by unfold deref; rw [h1]
  have hf : ∀ k, file_at v k = file_at u k := fun k => by
    unfold file_at; rw [hd, h1, h2]
  refine ⟨⟨by rw [h1], fun p _ => by rw [hd p]; exact ⟨rfl, rfl, rfl, rfl⟩,
    fun p hp => by rw [h2]; exact hp⟩, ?_⟩
  rintro ⟨a, b⟩
  refine ⟨?_, ?_⟩
  · intro p hp; rw [h1]; rw [h2] at hp; exact a p hp
  · intro i hi; rw [hf, hf]; rw [h2] at hi; exact b i hi

theorem add_file_step (held : Bool) (u : uxfs_t) (path : List Nat) (mode now : Nat)
    (r : Int × uxfs_t) (e : add_file held u path mode now = some r) : step u r.2 :=
  ⟨add_file_frame held u path mode now r e,
    fun h => ⟨add_file_ptrs_ok held u path mode now r h.1 e,
      add_file_sorted_aux held u path mode now r h.1 h.2 e⟩⟩

theorem add_file_from_definition_step (held : Bool) (u : uxfs_t) (line : List Nat) (now : Nat)
    (r : Int × uxfs_t) (e : add_file_from_definition held u line now = some r) :
    step u r.2 := by
  unfold add_file_from_definition at e
  simp only at e
  split at e
  · cases e; exact step_refl u
  · split at e
    · cases e; exact step_refl u
    · split at e
      · exact add_file_step _ _ _ _ _ _ e
      · split at e
        · exact add_file_step _ _ _ _ _ _ e
        · exact add_file_step _ _ _ _ _ _ e

theorem c_gets_tbl (u : uxfs_t) (size : Nat) :
    (c_gets u size).2.heap = u.heap ∧ (c_gets u size).2.dir = u.dir ∧
    (c_gets u size).2.co_in.length ≤ u.co_in.length := by
  unfold c_gets
  split
  · simp
  · next l rest h =>
    simp only [true_and]
    have : ∀ (s : List Nat) l rest, split_line s = some (l, rest) → rest.length ≤ s.length := by
      intro s
      induction s with
      | nil => intro l rest h; simp [split_line] at h
      | cons c cs ih =>
        intro l rest h
        simp only [split_line] at h
        by_cases hc : c = LF
        · simp only [hc, if_true, Option.some.injEq, Prod.mk.injEq] at h
          rw [← h.2]; simp
        · simp only [hc, if_false, Option.map_eq_some'] at h
          obtain ⟨⟨l1, r1⟩, h1, h2⟩ := h
          simp only [Prod.mk.injEq] at h2
          have := ih l1 r1 h1
          rw [← h2.2]
          simp only [List.length_cons]
          omega
    exact this _ _ _ h

theorem c_gets_step (u : uxfs_t) (size : Nat) : step u (c_gets u size).2 :=
  step_of_tbl _ _ (c_gets_tbl u size).1 (c_gets_tbl u size).2.1

theorem c_puts_tbl (u : uxfs_t) (text : List Nat) :
    (c_puts u text).2.heap = u.heap ∧ (c_puts u text).2.dir = u.dir ∧
    (c_puts u text).2.co_in = u.co_in ∧ (c_puts u text).2.inode_count = u.inode_count ∧
    (c_puts u text).2.n_open = u.n_open ∧ (c_puts u text).2.n_close = u.n_close ∧
    (c_puts u text).2.other_users = u.other_users := by
  unfold c_puts
  split <;> simp

theorem c_send_data_tbl (fuel : Nat) (u : uxfs_t) (d : buf_t) :
    (c_send_data fuel u d).2.heap = u.heap ∧ (c_send_data fuel u d).2.dir = u.dir ∧
    (c_send_data fuel u d).2.co_in = u.co_in ∧
    (c_send_data fuel u d).2.inode_count = u.inode_count ∧
    (c_send_data fuel u d).2.n_open = u.n_open ∧ (c_send_data fuel u d).2.n_close = u.n_close ∧
    (c_send_data fuel u d).2.other_users = u.other_users := by
  induction fuel generalizing u d with
  | zero => simp [c_send_data]
  | succ n ih =>
    unfold c_send_data
    split
    · simp
    · split
      · obtain ⟨a1, a2, a3, a4, a5, a6, a7⟩ := ih (c_puts u (DOT :: c_str _ ++ [LF])).2 ‹buf_t›
        obtain ⟨b1, b2, b3, b4, b5, b6, b7⟩ := c_puts_tbl u (DOT :: c_str ‹List Nat› ++ [LF])
        exact ⟨a1.trans b1, a2.trans b2, a3.trans b3, a4.trans b4, a5.trans b5, a6.trans b6,
          a7.trans b7⟩
      · obtain ⟨a1, a2, a3, a4, a5, a6, a7⟩ := ih (c_puts u (c_str _ ++ [LF])).2 ‹buf_t›
        obtain ⟨b1, b2, b3, b4, b5, b6, b7⟩ := c_puts_tbl u (c_str ‹List Nat› ++ [LF])
        exact ⟨a1.trans b1, a2.trans b2, a3.trans b3, a4.trans b4, a5.trans b5, a6.trans b6,
          a7.trans b7⟩

theorem c_recv_data_step (fuel : Nat) (u : uxfs_t) (r : buf_t) :
    step u (c_recv_data fuel u r).2 := by
  induction fuel generalizing u r with
  | zero => exact step_refl u
  | succ n ih =>
    unfold c_recv_data
    have hg := c_gets_step u LINE_MAX
    split
    · next u1 h => rw [h] at hg; exact hg
    · next rbuf u1 h =>
      rw [h] at hg
      split
      · exact hg
      · split
        · exact step_trans _ _ _ hg (ih _ _)
        · exact step_trans _ _ _ hg (ih _ _)

theorem c_dir_data_step (held : Bool) (now fuel : Nat) (u v : uxfs_t)
    (e : c_dir_data held now fuel u = some v) : step u v := by
  induction fuel generalizing u with
  | zero =>
    unfold c_dir_data at e
    cases e
    exact step_refl _
  | succ n ih =>
    unfold c_dir_data at e
    have hg := c_gets_step u LINE_MAX
    split at e
    · next u1 h => rw [h] at hg; cases e; exact hg
    · next data u1 h =>
      rw [h] at hg
      split at e
      · cases e; exact hg
      · split at e
        · exact absurd e (by simp)
        · next r hr =>
          exact step_trans _ _ _ hg
            (step_trans _ _ _ (add_file_from_definition_step held u1 data now r hr) (ih _ e))

theorem c_directives_step (held : Bool) (now fuel : Nat) (u : uxfs_t) (p : List Nat) (rc : Int)
    (r : Int × uxfs_t) (e : c_directives held now fuel u p rc = some r) : step u r.2 := by
  induction fuel generalizing u p with
  | zero =>
    unfold c_directives at e
    cases e
    exact step_refl u
  | succ n ih =>
    unfold c_directives at e
    simp only at e
    split at e
    · cases e; exact step_refl u
    · split at e
      · cases e; exact step_of_tbl _ _ rfl rfl
      · split at e
        · split at e
          · exact absurd e (by simp)
          · next v hv => exact step_trans _ _ _ (c_dir_data_step held now _ u v hv) (ih _ _ e)
        · cases e; exact step_of_tbl _ _ rfl rfl

theorem step_ite_snd {α : Type} (c : Prop) [Decidable c] (u x y : uxfs_t) (a b : α)
    (hx : step u x) (hy : step u y) : step u (if c then (a, x) else (b, y)).2 := by
  split <;> assumption

theorem c_response_step (held : Bool) (u : uxfs_t) (flags : Nat) (reply : Option buf_t)
    (now : Nat) (r : Int × Option buf_t × uxfs_t)
    (e : c_response held u flags reply now = some r) : step u r.2.2 := by
  unfold c_response at e
  have hg := c_gets_step u LINE_MAX
  split at e
  · next u1 h => rw [h] at hg; cases e; exact hg
  · next line u1 h =>
    rw [h] at hg
    simp only at e
    split at e
    · cases e; exact step_trans _ _ _ hg (step_of_tbl _ _ rfl rfl)
    · rw [Option.map_eq_some'] at e
      obtain ⟨dr, hdr, rfl⟩ := e
      refine step_trans _ _ _ hg (step_trans _ _ _ ?_ (c_directives_step _ _ _ _ _ _ _ hdr))
      cases reply with
      | none =>
        simp only [ite_self]
        exact step_refl _
      | some r =>
        exact step_ite_snd _ _ _ _ _ _ (c_recv_data_step _ _ _) (step_refl _)

theorem c_request_data_tbl (u : uxfs_t) (data : Option buf_t) :
    (c_request_data u data).2.heap = u.heap ∧ (c_request_data u data).2.dir = u.dir ∧
    (c_request_data u data).2.co_in = u.co_in ∧
    (c_request_data u data).2.inode_count = u.inode_count ∧
    (c_request_data u data).2.n_open = u.n_open ∧
    (c_request_data u data).2.n_close = u.n_close ∧
    (c_request_data u data).2.other_users = u.other_users := by
  cases data with
  | none => simp [c_request_data]
  | some d =>
    simp only [c_request_data]
    obtain ⟨b1, b2, b3, b4, b5, b6, b7⟩ := c_send_data_tbl (d.fin + 1) u { d with here := 0 }
    obtain ⟨c1, c2, c3, c4, c5, c6, c7⟩ :=
      c_puts_tbl (c_send_data (d.fin + 1) u { d with here := 0 }).2 (cs ".\n")
    exact ⟨c1.trans b1, c2.trans b2, c3.trans b3, c4.trans b4, c5.trans b5, c6.trans b6,
      c7.trans b7⟩

theorem c_putc_step (held : Bool) (u : uxfs_t) (cmd par : Option (List Nat)) (flags : Nat)
    (data reply : Option buf_t) (now : Nat) (r : Int × Option buf_t × Option buf_t × uxfs_t)
    (e : c_putc held u cmd par flags data reply now = some r) : step u r.2.2.2 := by
  have h1 := fun t => step_of_tbl u (c_puts u t).2 (c_puts_tbl u t).1 (c_puts_tbl u t).2.1
  have h2 := fun v d => step_of_tbl v (c_request_data v d).2 (c_request_data_tbl v d).1
    (c_request_data_tbl v d).2.1
  cases cmd with
  | none =>
    simp only [c_putc] at e
    split at e
    · rw [Option.map_eq_some'] at e
      obtain ⟨x, hx, rfl⟩ := e
      exact c_response_step _ _ _ _ _ _ hx
    · cases e; exact step_refl u
  | some c =>
    simp only [c_putc] at e
    split at e
    · cases e; exact h1 _
    · split at e
      · rw [Option.map_eq_some'] at e
        obtain ⟨x, hx, rfl⟩ := e
        exact step_trans _ _ _ (h1 _) (step_trans _ _ _ (h2 _ _) (c_response_step _ _ _ _ _ _ hx))
      · cases e; exact step_trans _ _ _ (h1 _) (h2 _ _)

theorem fileop_step (held : Bool) (u : uxfs_t) (lines : List (List Nat)) (now : Nat)
    (r : Int × uxfs_t) (e : fileop held u lines now = some r) : step u r.2 := by
  unfold fileop at e
  rw [Option.map_eq_some'] at e
  obtain ⟨x, hx, rfl⟩ := e
  exact c_putc_step held u _ _ _ _ _ now x hx

theorem map_returns {α β : Type} (o : Option α) (f : α → β) (h : ∃ a, o = some a) :
    ∃ b, o.map f = some b := by
  obtain ⟨a, rfl⟩ := h
  exact ⟨f a, rfl⟩

theorem add_file_returns (u : uxfs_t) (path : List Nat) (mode now : Nat)
    (h : path.length ≠ FILENAME_MAX) : ∃ r, add_file false u path mode now = some r := by
  by_cases hl : path.length > FILENAME_MAX
  · exact ⟨_, add_file_long false u path mode now hl⟩
  · by_cases hf : (d_search_file u path).1 = 0
    · exact ⟨_, add_file_found u path mode now hl hf⟩
    · exact ⟨_, add_file_new u path mode now (by omega) hf⟩

theorem m_getword_fst_length (src : List Nat) (delim max : Nat) :
    (m_getword src delim max).1.length ≤ max - 2 := by
  unfold m_getword
  simp only [List.length_take]
  omega

theorem m_trim_end_length (s : List Nat) : (m_trim_end s).length ≤ s.length := by
  unfold m_trim_end
  split
  · split
    · simp
    · exact le_refl _
  · exact le_refl _

theorem add_file_from_definition_returns (u : uxfs_t) (line : List Nat) (now : Nat) :
    ∃ r, add_file_from_definition false u line now = some r := by
  have h0 : 2 < FILENAME_MAX := by decide
  have h1 := m_getword_fst_length line 32 FILENAME_MAX
  have h2 := m_trim_end_length (m_getword line 32 FILENAME_MAX).1
  unfold add_file_from_definition
  simp only
  split
  · exact ⟨_, rfl⟩
  · split
    · exact ⟨_, rfl⟩
    · split
      · exact add_file_returns _ _ _ _ (by omega)
      · split
        · apply add_file_returns
          rw [List.length_dropLast]
          omega
        · exact add_file_returns _ _ _ _ (by omega)

theorem c_dir_data_returns (now fuel : Nat) (u : uxfs_t) :
    ∃ v, c_dir_data false now fuel u = some v := by
  induction fuel generalizing u with
  | zero => exact ⟨u, rfl⟩
  | succ n ih =>
    unfold c_dir_data
    split
    · exact ⟨_, rfl⟩
    · next data u1 h =>
      split
      · exact ⟨_, rfl⟩
      · obtain ⟨r, hr⟩ := add_file_from_definition_returns u1 data now
        rw [hr]
        exact ih r.2

theorem c_directives_returns (now fuel : Nat) (u : uxfs_t) (p : List Nat) (rc : Int) :
    ∃ r, c_directives false now fuel u p rc = some r := by
  induction fuel generalizing u p with
  | zero => exact ⟨_, rfl⟩
  | succ n ih =>
    unfold c_directives
    simp only
    split
    · exact ⟨_, rfl⟩
    · split
      · exact ⟨_, rfl⟩
      · split
        · obtain ⟨v, hv⟩ := c_dir_data_returns now (u.co_in.length + 1) u
          rw [hv]
          exact ih _ _
        · exact ⟨_, rfl⟩

theorem c_response_returns (u : uxfs_t) (flags : Nat) (reply : Option buf_t) (now : Nat) :
    ∃ r, c_response false u flags reply now = some r := by
  unfold c_response
  split
  · exact ⟨_, rfl⟩
  · simp only
    split
    · exact ⟨_, rfl⟩
    · exact map_returns _ _ (c_directives_returns _ _ _ _ _)

theorem c_putc_returns (u : uxfs_t) (cmd par : Option (List Nat)) (flags : Nat)
    (data reply : Option buf_t) (now : Nat) :
    ∃ r, c_putc false u cmd par flags data reply now = some r := by
  cases cmd with
  | none =>
    simp only [c_putc]
    split
    · exact map_returns _ _ (c_response_returns _ _ _ _)
    · exact ⟨_, rfl⟩
  | some c =>
    simp only [c_putc]
    split
    · exact ⟨_, rfl⟩
    · split
      · exact map_returns _ _ (c_response_returns _ _ _ _)
      · exact ⟨_, rfl⟩

theorem fileop_returns (u : uxfs_t) (lines : List (List Nat)) (now : Nat) :
    ∃ r, fileop false u lines now = some r := by
  unfold fileop
  exact map_returns _ _ (c_putc_returns _ _ _ _ _ _ _)

/-- C1 (divergence): wherever `add_file` returns, the table is again strictly increasing
and its paths are distinct.  But it does not return for every path: for a path of
exactly `FILENAME_MAX` bytes that is not present, and for no other, the call passes
the length test and reaches the `strcpy` that has no room for the terminator in
`file_t.path`, so that there is no table the claim could speak of. -/
theorem add_file_order_unless_overrun (u : uxfs_t) (path : List Nat) (mode now : Nat)
    (hp : ptrs_ok u) (hs : sorted u) :
    (∀ r, add_file false u path mode now = some r →
      sorted r.2 ∧
      ∀ i j, i < j → j < r.2.dir.length → (file_at r.2 i).path ≠ (file_at r.2 j).path) ∧
    (add_file false u path mode now = none ↔
      path.length = FILENAME_MAX ∧ ¬ present u path) := by
  refine ⟨fun r e => ?_, ⟨fun e => ?_, fun h => ?_⟩⟩
  · have h1 := add_file_sorted_aux false u path mode now r hp hs e
    refine ⟨h1, ?_⟩
    intro i j hij hj heq
    have h2 := sorted_lt _ h1 i j hij hj
    rw [heq, strcmp_self] at h2
    omega
  · by_cases hl : path.length = FILENAME_MAX
    · refine ⟨hl, fun hpr => ?_⟩
      have hf := (search_found_iff_present u hs path).2 hpr
      rw [add_file_found u path mode now (by omega) hf] at e
      exact absurd e (by simp)
    · obtain ⟨r, hr⟩ := add_file_returns u path mode now hl
      rw [hr] at e
      exact absurd e (by simp)
  · exact add_file_overrun u path mode now h.1
      (fun hf => h.2 ((search_found_iff_present u hs path).1 hf))

/-- C1, witness: in the table that holds `/` and `/b`, `add_file` does not return for the
absent path `/aaa...a` of `FILENAME_MAX` bytes. -/
theorem add_file_order_unless_overrun_witness :
    ptrs_ok table_root_b ∧ sorted table_root_b ∧ full_path.length = FILENAME_MAX ∧
    ¬ present table_root_b full_path ∧ add_file false table_root_b full_path M_READ 0 = none :=
  ⟨by decide, by decide, by decide!, by decide!,
    (add_file_order_unless_overrun table_root_b full_path M_READ 0 (by decide) (by decide)).2.2
      ⟨by decide!, by decide!⟩⟩

theorem d_get_parent_short (u : uxfs_t) (path : List Nat)
    (hlen : path.length ≤ FILENAME_MAX - MIN_FREE) :
    d_get_parent u path =
      match parent_path path with
      | none => (-1, 0)
      | some d => d_search_file u d := by
  unfold d_get_parent parent_path m_copy
  rw [List.take_of_length_le hlen]
  cases h : strrchr path SLASH <;> simp [h]

/-- C10 (counterexample): for the path `/aaa...a/b` of `FILENAME_MAX - 2` bytes,
`f_create` returns 0 in a table that holds only a writable root, although the
parent path `/aaa...a` is not present: `d_get_parent` looks up the parent of
the first `FILENAME_MAX - MIN_FREE` bytes, which is `/`. -/
theorem f_create_long_path_parent :
    table_ok table_root_rw ∧ parent_path long_path = some long_dir ∧
    ¬ present table_root_rw long_dir ∧
    (f_create table_root_rw long_path 0).map Prod.fst = some 0 := by
  refine ⟨by decide, by decide!, by decide, by decide!⟩

theorem f_create_enoent (u : uxfs_t) (path : List Nat) (now : Nat)
    (h : (d_get_parent u path).1 ≠ 0) : f_create u path now = some (-ENOENT, none, u) := by
  unfold f_create
  rw [if_pos h]

theorem f_create_eacces (u : uxfs_t) (path : List Nat) (now : Nat)
    (h1 : (d_get_parent u path).1 = 0)
    (h2 : (file_at u (d_get_parent u path).2).mode &&& M_WRITE = 0) :
    f_create u path now = some (-EACCES, none, u) := by
  unfold f_create
  rw [if_neg (by rw [h1]; exact fun h => h rfl), if_pos h2]

theorem f_create_add (u : uxfs_t) (path : List Nat) (now : Nat)
    (h1 : (d_get_parent u path).1 = 0)
    (h2 : (file_at u (d_get_parent u path).2).mode &&& M_WRITE ≠ 0) :
    f_create u path now =
      (add_file false u path (M_READ ||| M_WRITE ||| M_USER) now).map
        (fun r => (0, file_ptr r.2 r.1, r.2)) := by
  unfold f_create
  rw [if_neg (by rw [h1]; exact fun h => h rfl), if_neg h2]

theorem f_create_some (u : uxfs_t) (path : List Nat) (now : Nat) (c : Int × Option Nat × uxfs_t)
    (e : f_create u path now = some c) :
    ((d_get_parent u path).1 ≠ 0 ∧ c = (-ENOENT, none, u)) ∨
    ((d_get_parent u path).1 = 0 ∧ (file_at u (d_get_parent u path).2).mode &&& M_WRITE = 0 ∧
      c = (-EACCES, none, u)) ∨
    ((d_get_parent u path).1 = 0 ∧ (file_at u (d_get_parent u path).2).mode &&& M_WRITE ≠ 0 ∧
      ∃ r, add_file false u path (M_READ ||| M_WRITE ||| M_USER) now = some r ∧
        c = (0, file_ptr r.2 r.1, r.2)) := by
  by_cases h1 : (d_get_parent u path).1 ≠ 0
  · rw [f_create_enoent u path now h1] at e
    exact Or.inl ⟨h1, (Option.some.inj e).symm⟩
  · have h1' : (d_get_parent u path).1 = 0 := by simpa using h1
    by_cases h2 : (file_at u (d_get_parent u path).2).mode &&& M_WRITE = 0
    · rw [f_create_eacces u path now h1' h2] at e
      exact Or.inr (Or.inl ⟨h1', h2, (Option.some.inj e).symm⟩)
    · rw [f_create_add u path now h1' h2, Option.map_eq_some'] at e
      obtain ⟨r, hr, hc⟩ := e
      exact Or.inr (Or.inr ⟨h1', h2, r, hr, hc.symm⟩)

/-- C10 (amended): for a sorted table and a path of at most `FILENAME_MAX - MIN_FREE`
bytes, `f_create` returns; it returns `-ENOENT` exactly when the parent path is not
present, leaving the state unchanged; it returns `-EACCES`, leaving the state
unchanged, when the parent is present without WRITE; and otherwise it returns 0 and
hands back a non-deleted entry of the new table for the path whose mode is exactly
`READ|WRITE|USER`. -/
theorem f_create_contract (u : uxfs_t) (path : List Nat) (now : Nat) (hok : table_ok u)
    (hlen : path.length ≤ FILENAME_MAX - MIN_FREE) :
    (∃ r, f_create u path now = some r ∧
      (r.1 = -ENOENT ↔ ¬ ∃ d, parent_path path = some d ∧ present u d) ∧
      (r.1 = -ENOENT → r.2.2 = u)) ∧
    (∀ d p, parent_path path = some d → entry_of u d p → (deref u p).mode &&& M_WRITE = 0 →
      f_create u path now = some (-EACCES, none, u)) ∧
    (∀ d p, parent_path path = some d → entry_of u d p → (deref u p).mode &&& M_WRITE ≠ 0 →
      ∃ q v, f_create u path now = some (0, some q, v) ∧
        entry_of v path q ∧ (deref v q).deleted = 0 ∧
        (deref v q).mode = M_READ ||| M_WRITE ||| M_USER) := by
  obtain ⟨hp, hs⟩ := hok
  have hgp := d_get_parent_short u path hlen
  have hnl : path.length < FILENAME_MAX := by
    simp only [FILENAME_MAX, MIN_FREE] at hlen ⊢
    omega
  have hcase : (d_get_parent u path).1 ≠ 0 ↔
      ¬ ∃ d, parent_path path = some d ∧ present u d := by
    rw [hgp]
    cases hpp : parent_path path with
    | none => simp
    | some d =>
      simp only [Option.some.injEq, exists_eq_left']
      rw [← search_found_iff_present u hs d]
  have hpar : ∀ d p, parent_path path = some d → entry_of u d p →
      (d_get_parent u path).1 = 0 ∧ file_at u (d_get_parent u path).2 = deref u p := by
    intro d p hpp he
    obtain ⟨h1, _, h3, _⟩ := search_found_entry u hs d p he
    rw [hgp, hpp]
    exact ⟨h1, h3⟩
  have hadd : ∀ r, add_file false u path (M_READ ||| M_WRITE ||| M_USER) now = some r →
      ∃ q, file_ptr r.2 r.1 = some q ∧ entry_of r.2 path q ∧ (deref r.2 q).deleted = 0 ∧
        (deref r.2 q).mode = M_READ ||| M_WRITE ||| M_USER := by
    intro r hr
    obtain ⟨q, a1, a2, a3, a4⟩ :=
      add_file_entry false u path (M_READ ||| M_WRITE ||| M_USER) now r hp hs (by omega) hr
    exact ⟨q, a1, a2, a4, by rw [a3]; decide⟩
  refine ⟨?_, ?_, ?_⟩
  · by_cases c1 : (d_get_parent u path).1 ≠ 0
    · refine ⟨_, f_create_enoent u path now c1, ⟨fun _ => hcase.1 c1, fun _ => rfl⟩,
        fun _ => rfl⟩
    · have c1' : (d_get_parent u path).1 = 0 := by simpa using c1
      have hpres : ¬ ¬ ∃ d, parent_path path = some d ∧ present u d := fun h => c1 (hcase.2 h)
      by_cases c2 : (file_at u (d_get_parent u path).2).mode &&& M_WRITE = 0
      · refine ⟨_, f_create_eacces u path now c1' c2, ⟨fun h => ?_, fun h => absurd h hpres⟩,
          fun _ => rfl⟩
        exact absurd h (show ¬ (-EACCES : Int) = -ENOENT by decide)
      · obtain ⟨r, hr⟩ := add_file_returns u path (M_READ ||| M_WRITE ||| M_USER) now
          (by omega)
        refine ⟨(0, file_ptr r.2 r.1, r.2), ?_, ⟨fun h => ?_, fun h => absurd h hpres⟩,
          fun h => ?_⟩
        · rw [f_create_add u path now c1' c2, hr]
          rfl
        · exact absurd h (show ¬ (0 : Int) = -ENOENT by decide)
        · exact absurd h (show ¬ (0 : Int) = -ENOENT by decide)
  · intro d p hpp he hm
    obtain ⟨h1, h3⟩ := hpar d p hpp he
    exact f_create_eacces u path now h1 (by rw [h3]; exact hm)
  · intro d p hpp he hm
    obtain ⟨h1, h3⟩ := hpar d p hpp he
    obtain ⟨r, hr⟩ := add_file_returns u path (M_READ ||| M_WRITE ||| M_USER) now (by omega)
    obtain ⟨q, a1, a2, a3, a4⟩ := hadd r hr
    refine ⟨q, r.2, ?_, a2, a3, a4⟩
    rw [f_create_add u path now h1 (by rw [h3]; exact hm), hr]
    show some ((0 : Int), file_ptr r.2 r.1, r.2) = _
    rw [a1]

theorem f_create_contract_witness :
    table_ok table_root_rw ∧ (cs "/note").length ≤ FILENAME_MAX - MIN_FREE ∧
    ∃ q v, f_create table_root_rw (cs "/note") 0 = some (0, some q, v) ∧
      entry_of v (cs "/note") q ∧ (deref v q).deleted = 0 ∧
      (deref v q).mode = M_READ ||| M_WRITE ||| M_USER :=
  ⟨by decide, by decide,
    (f_create_contract table_root_rw (cs "/note") 0 (by decide) (by decide)).2.2
      (cs "/") 0 (by decide) (by decide) (by decide)⟩

theorem getfile_live_none (u : uxfs_t) (hs : sorted u) (path : List Nat)
    (h : ¬ ∃ p, entry_of u path p ∧ (deref u p).deleted = 0) : getfile u path 0 = none := by
  cases hg : getfile u path 0 with
  | none => rfl
  | some p => exact absurd ⟨p, (getfile_live_iff u hs path p).1 hg⟩ h

theorem cs_ok_line : cs "+OK\n" = [43, 79, 75, 10] := by decide

theorem c_response_ok (held : Bool) (v : uxfs_t) (flags : Nat) (reply : Option buf_t)
    (now : Nat) (rest : List Nat) (hin : v.co_in = cs "+OK\n" ++ rest)
    (hf : flags &&& C_STATUS ≠ R_MULTI) :
    c_response held v flags reply now = some (0, reply, { v with co_in := rest }) := by
  have e1 : c_gets v LINE_MAX = (some [43, 79, 75], { v with co_in := rest }) := by
    unfold c_gets
    rw [hin, cs_ok_line]
    simp [split_line, LF, m_copy, c_str, LINE_MAX, MIN_FREE]
  have e2 : m_getword [43, 79, 75] 59 200 = ([43, 79, 75], []) := by decide
  have e3 : (m_getword [43, 79, 75] 32 40).1 = [43, 79, 75] := by decide
  have e4 : strcmp [43, 79, 75] (cs "+OK") = 0 := by decide
  unfold c_response
  rw [e1]
  simp only [e2, e3, e4, ne_eq, not_true_eq_false, false_and, if_false, if_true, hf, and_false,
    List.length_nil, zero_add]
  simp [c_directives, m_getword]

theorem fileop_eq (held : Bool) (u : uxfs_t) (lines : List (List Nat)) (now : Nat) :
    ∃ v : uxfs_t, v.heap = u.heap ∧ v.dir = u.dir ∧ v.co_in = u.co_in ∧
      v.inode_count = u.inode_count ∧ v.n_open = u.n_open ∧ v.n_close = u.n_close ∧
      v.other_users = u.other_users ∧
      fileop held u lines now =
        (c_response held v (C_TEMP_DATA ||| R_STATUS) none now).map (fun r => (r.1, r.2.2)) := by
  have hh : ¬ (c_puts u (c_command (cs "FILEOP") none)).1 ≤ 0 := by
    unfold c_puts
    have : (c_command (cs "FILEOP") none).length = 7 := by decide
    simp [this, LINE_MAX]
  have hflag : (C_TEMP_DATA ||| R_STATUS) &&& C_STATUS ≠ R_NONE := by decide
  obtain ⟨a1, a2, a3, a4, a5, a6, a7⟩ := c_puts_tbl u (c_command (cs "FILEOP") none)
  obtain ⟨b1, b2, b3, b4, b5, b6, b7⟩ :=
    c_request_data_tbl (c_puts u (c_command (cs "FILEOP") none)).2 (some (b_from_strings lines))
  refine ⟨(c_request_data (c_puts u (c_command (cs "FILEOP") none)).2
      (some (b_from_strings lines))).2,
    b1.trans a1, b2.trans a2, b3.trans a3, b4.trans a4, b5.trans a5, b6.trans a6,
    b7.trans a7, ?_⟩
  unfold fileop c_putc
  simp only [hh, if_false]
  rw [if_pos hflag, Option.map_map]
  rfl

theorem fileop_ok (held : Bool) (u : uxfs_t) (lines : List (List Nat)) (now : Nat)
    (rest : List Nat) (hin : u.co_in = cs "+OK\n" ++ rest) :
    ∃ w, fileop held u lines now = some (0, w) ∧ w.heap = u.heap ∧
      w.dir = u.dir ∧ w.co_in = rest ∧ w.inode_count = u.inode_count ∧
      w.n_open = u.n_open ∧ w.n_close = u.n_close ∧ w.other_users = u.other_users := by
  obtain ⟨v, h1, h2, h3, h4, h5, h6, h7, he⟩ := fileop_eq held u lines now
  rw [he, c_response_ok held v _ none now rest (h3.trans hin) (by decide)]
  exact ⟨_, rfl, h1, h2, rfl, h4, h5, h6, h7⟩

theorem deref_congr (u v : uxfs_t) (h : v.heap = u.heap) (p : Nat) : deref v p = deref u p := by
  unfold deref; rw [h]

theorem file_at_paths (u v : uxfs_t) (hd : v.dir = u.dir) (hl : v.heap.length = u.heap.length)
    (hp : ∀ p, (deref v p).path = (deref u p).path) (k : Nat) :
    (file_at v k).path = (file_at u k).path := by
  unfold file_at
  rw [hd, hl, hp]

theorem sorted_of_paths (u v : uxfs_t) (hd : v.dir = u.dir)
    (hl : v.heap.length = u.heap.length)
    (hp : ∀ p, (deref v p).path = (deref u p).path) (hs : sorted u) : sorted v := by
  intro i hi
  rw [file_at_paths u v hd hl hp, file_at_paths u v hd hl hp]
  rw [hd] at hi
  exact hs i hi

theorem getfile_live_deleted (v : uxfs_t) (hs : sorted v) (path : List Nat) (p : Nat)
    (he : entry_of v path p) (hdel : (deref v p).deleted ≠ 0) : getfile v path 0 = none := by
  cases hg : getfile v path 0 with
  | none => rfl
  | some q =>
    obtain ⟨hq, hq0⟩ := (getfile_live_iff v hs path q).1 hg
    have := entry_of_unique v hs path q p hq he
    subst this
    exact absurd hq0 hdel

theorem do_unlink_success (u : uxfs_t) (path : List Nat) (now : Nat) (p : Nat)
    (hs : sorted u) (he : entry_of u path p) (hl : (deref u p).deleted = 0)
    (hu : (deref u p).mode &&& M_USER ≠ 0) (hd : (deref u p).mode &&& M_DIR = 0) :
    do_unlink u path now =
      (fileop false u [cs "unlink", path] now).map
        (fun w => (0, store w.2 p { deref w.2 p with deleted := 1 })) := by
  have hg : getfile u path 0 = some p := (getfile_live_iff u hs path p).2 ⟨he, hl⟩
  unfold do_unlink
  rw [hg]
  simp only [hu, hd, ne_eq, not_true_eq_false, if_false]

/-- C9: with the controller replying `+OK`, `do_unlink(path)` returns, and it returns 0
exactly when the path is a non-deleted entry with USER set and DIR clear; then that
entry alone becomes deleted (the array and every other record are unchanged, the
entry stays in the table, and `getfile(path, 0)` finds nothing).  Otherwise it
returns `-ENOENT` (absent or deleted), `-EPERM` (no USER) or `-EISDIR` (DIR) and
leaves the whole state, table and channel, as it was. -/
theorem do_unlink_contract (u : uxfs_t) (path : List Nat) (now : Nat) (rest : List Nat)
    (hok : table_ok u) (hin : u.co_in = cs "+OK\n" ++ rest) :
    (∃ r, do_unlink u path now = some r ∧
      (r.1 = 0 ↔
        ∃ p, entry_of u path p ∧ (deref u p).deleted = 0 ∧
          (deref u p).mode &&& M_USER ≠ 0 ∧ (deref u p).mode &&& M_DIR = 0) ∧
      (∀ p, entry_of u path p → (deref u p).deleted = 0 →
        (deref u p).mode &&& M_USER ≠ 0 → (deref u p).mode &&& M_DIR = 0 →
        r.2.dir = u.dir ∧ r.2.heap.length = u.heap.length ∧
        deref r.2 p = { deref u p with deleted := 1 } ∧
        (∀ q, q ≠ p → deref r.2 q = deref u q) ∧
        entry_of r.2 path p ∧ getfile r.2 path 0 = none)) ∧
    ((¬ ∃ p, entry_of u path p ∧ (deref u p).deleted = 0) →
      do_unlink u path now = some (-ENOENT, u)) ∧
    (∀ p, entry_of u path p → (deref u p).deleted = 0 →
      ((deref u p).mode &&& M_USER = 0 → do_unlink u path now = some (-EPERM, u)) ∧
      ((deref u p).mode &&& M_USER ≠ 0 → (deref u p).mode &&& M_DIR ≠ 0 →
        do_unlink u path now = some (-EISDIR, u))) := by
  obtain ⟨hp, hs⟩ := hok
  have herr1 : (¬ ∃ p, entry_of u path p ∧ (deref u p).deleted = 0) →
      do_unlink u path now = some (-ENOENT, u) := by
    intro h
    unfold do_unlink
    rw [getfile_live_none u hs path h]
  have herr2 : ∀ p, entry_of u path p → (deref u p).deleted = 0 →
      ((deref u p).mode &&& M_USER = 0 → do_unlink u path now = some (-EPERM, u)) ∧
      ((deref u p).mode &&& M_USER ≠ 0 → (deref u p).mode &&& M_DIR ≠ 0 →
        do_unlink u path now = some (-EISDIR, u)) := by
    intro p he hl
    have hg : getfile u path 0 = some p := (getfile_live_iff u hs path p).2 ⟨he, hl⟩
    refine ⟨?_, ?_⟩
    · intro hu
      unfold do_unlink
      rw [hg]
      simp only [hu, if_true]
    · intro hu hd
      unfold do_unlink
      rw [hg]
      simp only [hu, hd, ne_eq, not_true_eq_false, not_false_eq_true, if_false, if_true]
  refine ⟨?_, herr1, herr2⟩
  by_cases hlive : ∃ p, entry_of u path p ∧ (deref u p).deleted = 0
  · obtain ⟨p, he, hl⟩ := hlive
    have huniq : ∀ q, entry_of u path q → q = p := fun q hq => entry_of_unique u hs path q p hq he
    by_cases hu : (deref u p).mode &&& M_USER = 0
    · refine ⟨_, (herr2 p he hl).1 hu,
        ⟨fun h => absurd h (show ¬ (-EPERM : Int) = 0 by decide), ?_⟩, ?_⟩
      · rintro ⟨q, hq, _, hqu, _⟩
        rw [huniq q hq] at hqu
        exact absurd hu hqu
      · intro q hq _ hqu _
        rw [huniq q hq] at hqu
        exact absurd hu hqu
    · by_cases hd : (deref u p).mode &&& M_DIR = 0
      · obtain ⟨w, hw, h1, h2, _⟩ := fileop_ok false u [cs "unlink", path] now rest hin
        refine ⟨(0, store w p { deref w p with deleted := 1 }), ?_,
          ⟨fun _ => ⟨p, he, hl, hu, hd⟩, fun _ => rfl⟩, ?_⟩
        · rw [do_unlink_success u path now p hs he hl hu hd, hw]
          rfl
        · intro q hq _ _ _
          rw [huniq q hq]
          have hpv : p < u.heap.length := hp p he.1
          have hdr := deref_congr u w h1
          have hpv' : p < w.heap.length := by rw [h1]; exact hpv
          have hpaths : ∀ q, (deref (store w p { deref w p with deleted := 1 }) q).path
              = (deref u q).path := by
            intro q
            rw [deref_store]
            split
            · next hq => rw [hq.1, hdr]
            · rw [hdr]
          have hsv : sorted (store w p { deref w p with deleted := 1 }) :=
            sorted_of_paths u _ (by rw [store_dir, h2]) (by rw [store_heap_length, h1]) hpaths hs
          have hev : entry_of (store w p { deref w p with deleted := 1 }) path p := by
            refine ⟨?_, ?_⟩
            · rw [store_dir, h2]; exact he.1
            · rw [hpaths]; exact he.2
          refine ⟨by rw [store_dir, h2], by rw [store_heap_length, h1], ?_, ?_, hev, ?_⟩
          · show deref (store w p _) p = _
            rw [deref_store]
            simp only [hpv', and_self, if_true, hdr]
          · intro q hq
            show deref (store w p _) q = _
            rw [deref_store]
            simp only [hq, false_and, if_false, hdr]
          · apply getfile_live_deleted _ hsv path p hev
            rw [deref_store]
            simp [hpv']
      · refine ⟨_, (herr2 p he hl).2 hu hd,
          ⟨fun h => absurd h (show ¬ (-EISDIR : Int) = 0 by decide), ?_⟩, ?_⟩
        · rintro ⟨q, hq, _, _, hqd⟩
          rw [huniq q hq] at hqd
          exact absurd hqd hd
        · intro q hq _ _ hqd
          rw [huniq q hq] at hqd
          exact absurd hqd hd
  · refine ⟨_, herr1 hlive, ⟨fun h => absurd h (show ¬ (-ENOENT : Int) = 0 by decide), ?_⟩, ?_⟩
    · rintro ⟨q, hq, hql, _⟩
      exact absurd ⟨q, hq, hql⟩ hlive
    · intro q hq hql _ _
      exact absurd ⟨q, hq, hql⟩ hlive

theorem do_unlink_contract_witness :
    table_ok table_mixed_ok ∧ table_mixed_ok.co_in = cs "+OK\n" ++ [] ∧
    ∃ r, do_unlink table_mixed_ok (cs "/a") 0 = some r ∧
      (r.1 = 0 ↔
        ∃ p, entry_of table_mixed_ok (cs "/a") p ∧ (deref table_mixed_ok p).deleted = 0 ∧
          (deref table_mixed_ok p).mode &&& M_USER ≠ 0 ∧
          (deref table_mixed_ok p).mode &&& M_DIR = 0) :=
  ⟨by decide, by decide,
    (do_unlink_contract table_mixed_ok (cs "/a") 0 [] (by decide) (by decide)).1.imp
      (fun _ h => ⟨h.1, h.2.1⟩)⟩

theorem store_path (u : uxfs_t) (p : Nat) (f : file_t) (hf : f.path = (deref u p).path)
    (q : Nat) : (deref (store u p f) q).path = (deref u q).path := by
  rw [deref_store]
  split
  · next h => rw [hf, h.1]
  · rfl

theorem store_table_ok (u : uxfs_t) (p : Nat) (f : file_t) (hf : f.path = (deref u p).path)
    (hok : table_ok u) : table_ok (store u p f) := by
  refine ⟨?_, sorted_of_paths u _ (store_dir u p f) (store_heap_length u p f)
    (store_path u p f hf) hok.2⟩
  intro q hq
  rw [store_heap_length]
  exact hok.1 q hq

theorem store_entry_of (u : uxfs_t) (p : Nat) (f : file_t) (hf : f.path = (deref u p).path)
    (path : List Nat) (q : Nat) (h : entry_of u path q) : entry_of (store u p f) path q :=
  ⟨h.1, by rw [store_path u p f hf]; exact h.2⟩

theorem deref_store_same (u : uxfs_t) (p : Nat) (f : file_t) (hp : p < u.heap.length) :
    deref (store u p f) p = f := by
  rw [deref_store]; simp [hp]

theorem deref_store_other (u : uxfs_t) (p q : Nat) (f : file_t) (h : q ≠ p) :
    deref (store u p f) q = deref u q := by
  rw [deref_store]; simp [h]

theorem frame_entry_of (u v : uxfs_t) (hp : ptrs_ok u) (hf : frame u v) (path : List Nat)
    (p : Nat) (h : entry_of u path p) : entry_of v path p :=
  ⟨hf.2.2 p h.1, by rw [(hf.2.1 p (hp p h.1)).1]; exact h.2⟩

theorem rename_move_spec (w : uxfs_t) (s d : Nat) (src dst : List Nat) (now : Nat)
    (r : Int × uxfs_t) (hok : table_ok w) (hs : entry_of w src s) (hd : entry_of w dst d)
    (hne : s ≠ d) (e : rename_move w s d src dst now = some r) :
    r.1 = 0 ∧ table_ok r.2 ∧ entry_of r.2 src s ∧ entry_of r.2 dst d ∧
    (deref r.2 s).deleted = 1 ∧ (deref r.2 s).buf = none ∧
    (deref r.2 d).deleted = 0 ∧ (deref r.2 d).buf = (deref w s).buf := by
  unfold rename_move at e
  rw [Option.map_eq_some'] at e
  obtain ⟨x, hx, rfl⟩ := e
  have hst := fileop_step true w [cs "rename", src, dst] now x hx
  simp only [move_entry]
  generalize x.2 = u2 at hst
  have hok2 := hst.2 hok
  have hs2 := frame_entry_of w u2 hok.1 hst.1 src s hs
  have hd2 := frame_entry_of w u2 hok.1 hst.1 dst d hd
  have hbuf : (deref u2 s).buf = (deref w s).buf := (hst.1.2.1 s (hok.1 s hs.1)).2.1
  -- first store: f_clear(dst)
  generalize hf3 : ({ deref u2 d with buf := none } : file_t) = f3
  have hp3 : f3.path = (deref u2 d).path := by rw [← hf3]
  have hok3 := store_table_ok u2 d f3 hp3 hok2
  have hs3 := store_entry_of u2 d f3 hp3 src s hs2
  have hd3 := store_entry_of u2 d f3 hp3 dst d hd2
  have hbuf3 : (deref (store u2 d f3) s).buf = (deref w s).buf := by
    rw [deref_store_other _ _ _ _ hne]; exact hbuf
  generalize store u2 d f3 = u3 at hok3 hs3 hd3 hbuf3
  have hd3v : d < u3.heap.length := hok3.1 d hd3.1
  -- second store: the fields copied from the source
  generalize hf4 : ({ deref u3 d with mode := (deref u3 s).mode, mtime := now, deleted := 0, buf := (deref u3 s).buf } : file_t) = f4
  have hp4 : f4.path = (deref u3 d).path := by rw [← hf4]
  have hdel4 : f4.deleted = 0 := by rw [← hf4]
  have hbuf4 : f4.buf = (deref w s).buf := by rw [← hf4]; exact hbuf3
  have hok4 := store_table_ok u3 d f4 hp4 hok3
  have hs4 := store_entry_of u3 d f4 hp4 src s hs3
  have hd4 := store_entry_of u3 d f4 hp4 dst d hd3
  have hdd4 : deref (store u3 d f4) d = f4 := deref_store_same _ _ _ hd3v
  generalize store u3 d f4 = u4 at hok4 hs4 hd4 hdd4
  have hs4v : s < u4.heap.length := hok4.1 s hs4.1
  -- third store: the source loses its buffer and is marked deleted
  generalize hf5 : ({ deref u4 s with buf := none, deleted := 1 } : file_t) = f5
  have hp5 : f5.path = (deref u4 s).path := by rw [← hf5]
  have hok5 := store_table_ok u4 s f5 hp5 hok4
  have hs5 := store_entry_of u4 s f5 hp5 src s hs4
  have hd5 := store_entry_of u4 s f5 hp5 dst d hd4
  have hss5 := deref_store_same u4 s f5 hs4v
  have hds5 := deref_store_other u4 s d f5 (fun e => hne e.symm)
  refine ⟨trivial, hok5, hs5, hd5, ?_, ?_, ?_, ?_⟩
  · rw [hss5, ← hf5]
  · rw [hss5, ← hf5]
  · rw [hds5, hdd4, hdel4]
  · rw [hds5, hdd4, hbuf4]

theorem f_create_step (u : uxfs_t) (path : List Nat) (now : Nat) (c : Int × Option Nat × uxfs_t)
    (e : f_create u path now = some c) : step u c.2.2 := by
  rcases f_create_some u path now c e with ⟨_, rfl⟩ | ⟨_, _, rfl⟩ | ⟨_, _, r, hr, rfl⟩
  · exact step_refl u
  · exact step_refl u
  · exact add_file_step _ _ _ _ _ _ hr

theorem f_create_ok (u : uxfs_t) (path : List Nat) (now : Nat) (d : Nat)
    (c : Int × Option Nat × uxfs_t) (hok : table_ok u) (e : f_create u path now = some c)
    (h1 : c.1 = 0) (h2 : c.2.1 = some d) :
    entry_of c.2.2 path d ∧
    (deref c.2.2 d).mode = M_READ ||| M_WRITE ||| M_USER ∧
    (deref c.2.2 d).deleted = 0 := by
  rcases f_create_some u path now c e with ⟨_, rfl⟩ | ⟨_, _, rfl⟩ | ⟨_, _, r, hr, rfl⟩
  · exact absurd h1 (show ¬ (-ENOENT : Int) = 0 by decide)
  · exact absurd h1 (show ¬ (-EACCES : Int) = 0 by decide)
  · by_cases hl : path.length > FILENAME_MAX
    · rw [add_file_long false u path _ now hl] at hr
      cases hr
      simp [file_ptr] at h2
    · obtain ⟨q, a1, a2, a3, a4⟩ :=
        add_file_entry false u path (M_READ ||| M_WRITE ||| M_USER) now r hok.1 hok.2 hl hr
      have h2' : file_ptr r.2 r.1 = some d := h2
      rw [a1] at h2'
      have : q = d := Option.some.inj h2'
      subst this
      exact ⟨a2, by rw [a3]; decide, a4⟩

theorem entry_of_ne (u : uxfs_t) (a b : List Nat) (p q : Nat) (hp : entry_of u a p)
    (hq : entry_of u b q) (hne : a ≠ b) : p ≠ q := by
  intro e
  subst e
  exact hne (hp.2.symm.trans hq.2)

/-- C3 (counterexample): renaming `/a` onto itself returns 0 and leaves `/a` deleted,
so `getfile("/a", 0)` finds no entry for the destination. -/
theorem do_rename_same_path :
    table_ok table_mixed_ok ∧
    (do_rename table_mixed_ok (cs "/a") (cs "/a") 0).map Prod.fst = some 0 ∧
    (do_rename table_mixed_ok (cs "/a") (cs "/a") 0).map (fun r => getfile r.2 (cs "/a") 0)
      = some none := by
  decide

/-- C3 (amended): for a sorted table and two different paths, the destination of fewer
than `FILENAME_MAX` bytes, whenever `do_rename(from, to)` returns 0, `getfile(from, 0)`
finds nothing afterwards, `getfile(to, 0)` finds an entry whose retained buffer is
the one the source entry held before, and the source entry is still in the table,
deleted and without a buffer. -/
theorem do_rename_moves (u : uxfs_t) (src dst : List Nat) (now : Nat) (v : uxfs_t)
    (hok : table_ok u) (hne : src ≠ dst) (_hdst : dst.length < FILENAME_MAX)
    (hr : do_rename u src dst now = some (0, v)) :
    getfile v src 0 = none ∧
    ∃ s d, entry_of u src s ∧ getfile v dst 0 = some d ∧
      (deref v d).buf = (deref u s).buf ∧
      entry_of v src s ∧ (deref v s).deleted ≠ 0 ∧ (deref v s).buf = none := by
  have key : ∀ (w : uxfs_t) (s d : Nat), table_ok w → entry_of w src s → entry_of w dst d →
      (deref w s).buf = (deref u s).buf → entry_of u src s →
      rename_move w s d src dst now = some (0, v) →
      getfile v src 0 = none ∧
      ∃ s d, entry_of u src s ∧ getfile v dst 0 = some d ∧
        (deref v d).buf = (deref u s).buf ∧
        entry_of v src s ∧ (deref v s).deleted ≠ 0 ∧ (deref v s).buf = none := by
    intro w s d hw hs hd hb hus he
    obtain ⟨_, r2, r3, r4, r5, r6, r7, r8⟩ :=
      rename_move_spec w s d src dst now (0, v) hw hs hd (entry_of_ne w src dst s d hs hd hne) he
    refine ⟨getfile_live_deleted v r2.2 src s r3 (by rw [r5]; decide), s, d, hus,
      (getfile_live_iff v r2.2 dst d).2 ⟨r4, r7⟩, by rw [r8, hb], r3, by rw [r5]; decide, r6⟩
  unfold do_rename at hr
  cases hg : getfile u src 0 with
  | none =>
    rw [hg] at hr
    simp [ENOENT] at hr
  | some s =>
    obtain ⟨hs, _⟩ := (getfile_live_iff u hok.2 src s).1 hg
    rw [hg] at hr
    simp only at hr
    by_cases c1 : (deref u s).mode &&& M_DIR ≠ 0
    · simp [c1, EISDIR] at hr
    · by_cases c2 : (deref u s).mode &&& M_USER = 0
      · simp [c1, c2, EACCES] at hr
      · simp only [c1, c2, if_false] at hr
        cases hgd : getfile u dst 1 with
        | some d =>
          have hd := (getfile_incl_iff u hok.2 dst d).1 hgd
          rw [hgd] at hr
          simp only at hr
          by_cases c3 : (deref u d).mode &&& M_DIR ≠ 0
          · simp [c3, EISDIR] at hr
          · by_cases c4 : (deref u d).mode &&& M_USER = 0
            · simp [c3, c4, EPERM] at hr
            · simp only [c3, c4, if_false] at hr
              exact key u s d hok hs hd rfl hs hr
        | none =>
          rw [hgd] at hr
          simp only at hr
          cases hfc : f_create u dst now with
          | none =>
            rw [hfc] at hr
            simp at hr
          | some c =>
            rw [hfc] at hr
            simp only at hr
            by_cases c5 : c.1 = 0
            · simp only [c5, if_true] at hr
              have hst := f_create_step u dst now c hfc
              have hokc := hst.2 hok
              have hsc := frame_entry_of u _ hok.1 hst.1 src s hs
              cases hg2 : getfile c.2.2 src 0 with
              | none =>
                rw [hg2] at hr
                simp [EACCES] at hr
              | some s1 =>
                rw [hg2] at hr
                simp only at hr
                obtain ⟨hs1, _⟩ := (getfile_live_iff _ hokc.2 src s1).1 hg2
                have e := entry_of_unique _ hokc.2 src s1 s hs1 hsc
                subst e
                cases hcd : c.2.1 with
                | none =>
                  rw [hcd] at hr
                  simp at hr
                | some d =>
                  rw [hcd] at hr
                  simp only at hr
                  obtain ⟨hd, _, _⟩ := f_create_ok u dst now d c hok hfc c5 hcd
                  exact key _ s1 d hokc hsc hd (hst.1.2.1 s1 (hok.1 s1 hs.1)).2.1 hs hr
            · simp [c5] at hr

theorem do_rename_moves_witness :
    table_ok table_user ∧ cs "/a" ≠ cs "/b" ∧ (cs "/b").length < FILENAME_MAX ∧
    do_rename table_user (cs "/a") (cs "/b") 0 = some (0, table_user_renamed) ∧
    getfile table_user_renamed (cs "/a") 0 = none :=
  ⟨by decide, by decide, by decide, by decide,
    (do_rename_moves table_user (cs "/a") (cs "/b") 0 table_user_renamed
      (by decide) (by decide) (by decide) (by decide)).1⟩

theorem mem_write_length (m : List Nat) (off : Nat) (data : List Nat)
    (h : off + data.length ≤ m.length) : (mem_write m off data).length = m.length := by
  unfold mem_write
  simp only [List.length_append, List.length_take, List.length_drop]
  omega

theorem mem_write_take (m : List Nat) (off : Nat) (data : List Nat) (k : Nat)
    (h : off ≤ m.length) (hk : k ≤ data.length) :
    (mem_write m off data).take (off + k) = m.take off ++ data.take k := by
  unfold mem_write
  have hl : (m.take off).length = off := by simp [h]
  rw [List.append_assoc, List.take_append_eq_append_take, hl]
  have e1 : List.take (off + k) (List.take off m) = List.take off m := by
    apply List.take_of_length_le; rw [hl]; omega
  rw [e1]
  have e2 : off + k - off = k := by omega
  rw [e2, List.take_append_eq_append_take]
  have e3 : k - data.length = 0 := by omega
  rw [e3]
  simp

theorem realloc_grow (m : List Nat) (n : Nat) (h : m.length ≤ n) :
    realloc (some m) n = m ++ List.replicate (n - m.length) 0 ∧
    (realloc (some m) n).length = n := by
  unfold realloc malloc
  simp only [Option.getD_some]
  rw [List.take_of_length_le h]
  refine ⟨rfl, ?_⟩
  simp only [List.length_append, List.length_replicate]
  omega

theorem b_append_line_contents (b : buf_t) (l : List Nat) (m : List Nat)
    (hb : b.buffer = some m) (hm : m.length = b.size) (hf : b.fin ≤ b.size) :
    (∃ m1, (b_append_line b l).buffer = some m1 ∧ m1.length = (b_append_line b l).size) ∧
    (b_append_line b l).fin ≤ (b_append_line b l).size ∧
    contents (b_append_line b l) = contents b ++ l ++ [LF] := by
  have hc : contents b = m.take b.fin := by simp [contents, hb]
  have e5 : (l ++ [LF, 0]).take (l.length + 1) = l ++ [LF] := by
    rw [List.take_append_eq_append_take]
    simp
  by_cases hg : b.fin + l.length + MIN_FREE > b.size
  · obtain ⟨r1, r2⟩ := realloc_grow m (b.size + (l.length + MIN_FREE + LINE_MAX)) (by omega)
    have hbl : b_append_line b l =
        { b with size := b.size + (l.length + MIN_FREE + LINE_MAX),
                 buffer := some (mem_write (realloc (some m)
                    (b.size + (l.length + MIN_FREE + LINE_MAX))) b.fin (l ++ [LF, 0])),
                 fin := b.fin + l.length + 1 } := by
      unfold b_append_line
      simp [hg, hb]
    rw [hbl]
    have hlen : (mem_write (realloc (some m) (b.size + (l.length + MIN_FREE + LINE_MAX)))
        b.fin (l ++ [LF, 0])).length = b.size + (l.length + MIN_FREE + LINE_MAX) := by
      rw [mem_write_length _ _ _ (by rw [r2]; simp [MIN_FREE]; omega), r2]
    refine ⟨⟨_, rfl, hlen⟩, ?_, ?_⟩
    · simp only [MIN_FREE]; omega
    · simp only [contents, Option.getD_some]
      rw [Nat.add_assoc b.fin, mem_write_take _ _ _ _ (by rw [r2]; omega) (by simp), e5, r1,
        List.take_append_of_le_length (by omega), ← hc]
      simp [contents, hb]
  · have hbl : b_append_line b l =
        { b with buffer := some (mem_write m b.fin (l ++ [LF, 0])),
                 fin := b.fin + l.length + 1 } := by
      unfold b_append_line
      simp [hg, hb]
    rw [hbl]
    have hlen : (mem_write m b.fin (l ++ [LF, 0])).length = b.size := by
      rw [mem_write_length _ _ _ (by simp [MIN_FREE] at hg ⊢; omega), hm]
    refine ⟨⟨_, rfl, hlen⟩, ?_, ?_⟩
    · simp only [MIN_FREE] at hg ⊢; omega
    · simp only [contents, Option.getD_some]
      rw [Nat.add_assoc b.fin, mem_write_take _ _ _ _ (by omega) (by simp), e5, ← hc]
      simp [contents, hb]

theorem split_line_append (l X : List Nat) (h : LF ∉ l) :
    split_line (l ++ LF :: X) = some (l, X) := by
  induction l with
  | nil => simp [split_line]
  | cons c cs ih =>
    have hc : c ≠ LF := fun e => h (by simp [e])
    have hcs : LF ∉ cs := fun e => h (by simp [e])
    simp [split_line, hc, ih hcs]

theorem c_str_id (l : List Nat) (h : 0 ∉ l) : c_str l = l := by
  unfold c_str
  rw [List.takeWhile_eq_self_iff]
  intro x hx
  have : x ≠ 0 := fun e => h (e ▸ hx)
  simpa using this

theorem c_gets_line (v : uxfs_t) (l X : List Nat) (size : Nat) (hv : v.co_in = l ++ LF :: X)
    (h1 : LF ∉ l) (h2 : 0 ∉ l) (h3 : l.length ≤ size - MIN_FREE) :
    c_gets v size = (some l, { v with co_in := X }) := by
  unfold c_gets
  rw [hv, split_line_append l X h1]
  simp only [c_str_id l h2, m_copy, List.take_of_length_le h3]

theorem cs_dot : cs "." = [DOT] := by decide

theorem c_recv_data_lines (lines : List (List Nat)) (hl : ∀ l ∈ lines, wire_ok l) :
    ∀ (fuel : Nat) (v : uxfs_t) (r : buf_t) (rest m : List Nat),
      v.co_in = wire_block lines ++ rest → lines.length + 1 ≤ fuel →
      r.buffer = some m → m.length = r.size → r.fin ≤ r.size →
      contents (c_recv_data fuel v r).1 = contents r ++ unlines lines ∧
      (c_recv_data fuel v r).2 = { v with co_in := rest } := by
  induction lines with
  | nil =>
    intro fuel v r rest m hv hfuel _ _ _
    obtain ⟨n, rfl⟩ : ∃ n, fuel = n + 1 := ⟨fuel - 1, by simp at hfuel; omega⟩
    have hg := c_gets_line v [DOT] rest LINE_MAX (by simpa [wire_block] using hv)
      (by decide) (by decide) (by decide)
    unfold c_recv_data
    rw [hg]
    simp [cs_dot, strcmp_self, unlines]
  | cons l ls ih =>
    intro fuel v r rest m hv hfuel hb hm hf
    obtain ⟨n, rfl⟩ : ∃ n, fuel = n + 1 := ⟨fuel - 1, by simp at hfuel; omega⟩
    obtain ⟨w1, w2, w3⟩ := hl l (by simp)
    have hls : ∀ x ∈ ls, wire_ok x := fun x hx => hl x (by simp [hx])
    obtain ⟨⟨m1, a1, a2⟩, a3, a4⟩ := b_append_line_contents r l m hb hm hf
    by_cases hdot : l.getD 0 0 = DOT
    · have hne : l ≠ [] := by
        intro e; rw [e] at hdot; simp [DOT] at hdot
      have hv2 : v.co_in = (DOT :: l) ++ LF :: (wire_block ls ++ rest) := by
        rw [hv]
        simp only [wire_block, hdot, if_true, List.cons_append, List.append_assoc]
      have hg := c_gets_line v (DOT :: l) (wire_block ls ++ rest) LINE_MAX hv2
        (by simp only [List.mem_cons, not_or]; exact ⟨by decide, w1⟩)
        (by simp only [List.mem_cons, not_or]; exact ⟨by decide, w2⟩)
        (by simp only [hdot, if_true] at w3; simp only [List.length_cons]; omega)
      have hs : ¬ strcmp (DOT :: l) (cs ".") = 0 := by
        rw [strcmp_eq_zero, cs_dot]
        simp [hne]
      unfold c_recv_data
      rw [hg]
      simp only [hs, if_false, List.getD_cons_zero, if_true, List.drop_succ_cons, List.drop_zero]
      obtain ⟨i1, i2⟩ := ih hls n { v with co_in := wire_block ls ++ rest } (b_append_line r l)
        rest m1 rfl (by simp at hfuel; omega) a1 a2 a3
      refine ⟨?_, by rw [i2]⟩
      rw [i1, a4]
      simp [unlines]
    · have hv2 : v.co_in = l ++ LF :: (wire_block ls ++ rest) := by
        rw [hv]
        simp only [wire_block, hdot, if_false, List.cons_append, List.append_assoc]
      have hg := c_gets_line v l (wire_block ls ++ rest) LINE_MAX hv2 w1 w2
        (by simp only [hdot, if_false] at w3; omega)
      have hs : ¬ strcmp l (cs ".") = 0 := by
        rw [strcmp_eq_zero, cs_dot]
        intro e; rw [e] at hdot; simp at hdot
      unfold c_recv_data
      rw [hg]
      simp only [hs, if_false, hdot]
      obtain ⟨i1, i2⟩ := ih hls n { v with co_in := wire_block ls ++ rest } (b_append_line r l)
        rest m1 rfl (by simp at hfuel; omega) a1 a2 a3
      refine ⟨?_, by rw [i2]⟩
      rw [i1, a4]
      simp [unlines]

theorem b_getline_loop_line (mem : List Nat) (fin size : Nat) (t : List Nat) :
    ∀ (l acc : List Nat) (here fuel : Nat),
      mem.drop here = l ++ LF :: t → LF ∉ l → here + l.length < fin →
      acc.length + l.length ≤ size → l.length + 1 ≤ fuel →
      b_getline_loop mem fin size fuel here acc = (acc ++ l, here + l.length + 1) := by
  intro l
  induction l with
  | nil =>
    intro acc here fuel hd _ hf _ hfuel
    obtain ⟨n, rfl⟩ : ∃ n, fuel = n + 1 := ⟨fuel - 1, by simp at hfuel; omega⟩
    have hc : mem.getD here 0 = LF := by
      have := congrArg (fun x => x.getD 0 0) hd
      simpa [List.getD_eq_getElem?_getD, List.getElem?_drop] using this
    simp only [List.length_nil, Nat.add_zero] at hf
    simp only [b_getline_loop, hf, if_true, hc, List.append_nil, List.length_nil, Nat.add_zero]
  | cons c cs ih =>
    intro acc here fuel hd hlf hf hsz hfuel
    obtain ⟨n, rfl⟩ : ∃ n, fuel = n + 1 := ⟨fuel - 1, by omega⟩
    have hc : mem.getD here 0 = c := by
      have := congrArg (fun x => x.getD 0 0) hd
      simpa [List.getD_eq_getElem?_getD, List.getElem?_drop] using this
    have hcl : c ≠ LF := fun e => hlf (by simp [e])
    have hcs : LF ∉ cs := fun e => hlf (by simp [e])
    have hd2 : mem.drop (here + 1) = cs ++ LF :: t := by
      have := congrArg (fun x => x.drop 1) hd
      simpa [List.drop_drop, Nat.add_comm] using this
    simp only [List.length_cons] at hf hsz hfuel
    have hlt : here < fin := by omega
    have hal : acc.length < size := by omega
    simp only [b_getline_loop, hlt, if_true, hc, hcl, if_false, hal]
    rw [ih (acc ++ [c]) (here + 1) n hd2 hcs (by omega) (by simp; omega) (by omega)]
    simp only [List.append_assoc, List.singleton_append, List.length_cons, Prod.mk.injEq,
      true_and]
    omega

theorem unlines_length_ge (lines : List (List Nat)) : lines.length ≤ (unlines lines).length := by
  induction lines with
  | nil => simp [unlines]
  | cons l ls ih => simp only [unlines, List.length_cons, List.length_append]; omega

theorem c_send_data_lines (lines : List (List Nat)) (hl : ∀ l ∈ lines, wire_ok l) :
    ∀ (fuel : Nat) (u : uxfs_t) (d : buf_t) (mem t : List Nat),
      d.buffer = some mem → mem.drop d.here = unlines lines ++ t →
      d.here + (unlines lines).length = d.fin → lines.length + 1 ≤ fuel →
      (c_send_data fuel u d).2.co_out ++ [DOT, LF] = u.co_out ++ wire_block lines ∧
      (c_send_data fuel u d).2.exited = u.exited ∧
      (c_send_data fuel u d).1 = { d with here := d.fin } := by
  induction lines with
  | nil =>
    intro fuel u d mem t _ _ hfin hfuel
    obtain ⟨n, rfl⟩ : ∃ n, fuel = n + 1 := ⟨fuel - 1, by simp at hfuel; omega⟩
    simp only [unlines, List.length_nil, Nat.add_zero] at hfin
    have hg : b_getline d LINE_MAX = (none, d) := by
      unfold b_getline
      simp [hfin]
    unfold c_send_data
    rw [hg]
    simp only [wire_block, true_and]
    cases d
    simp only at hfin
    subst hfin
    rfl
  | cons l ls ih =>
    intro fuel u d mem t hb hd hfin hfuel
    obtain ⟨n, rfl⟩ : ∃ n, fuel = n + 1 := ⟨fuel - 1, by simp at hfuel; omega⟩
    obtain ⟨w1, w2, w3⟩ := hl l (by simp)
    have hls : ∀ x ∈ ls, wire_ok x := fun x hx => hl x (by simp [hx])
    simp only [unlines, List.length_append, List.length_cons] at hfin
    have hd1 : mem.drop d.here = l ++ LF :: (unlines ls ++ t) := by
      rw [hd]; simp only [unlines, List.append_assoc, List.cons_append]
    have hl1020 : l.length ≤ LINE_MAX - MIN_FREE := by omega
    have hloop := b_getline_loop_line mem d.fin (LINE_MAX - MIN_FREE) (unlines ls ++ t) l []
      d.here (d.fin - d.here) hd1 w1 (by omega) (by simpa using hl1020) (by omega)
    have hg : b_getline d LINE_MAX = (some l, { d with here := d.here + l.length + 1 }) := by
      unfold b_getline
      have : ¬ d.here ≥ d.fin := by omega
      simp only [this, if_false, hb, Option.getD_some, hloop, List.nil_append]
    have hd2 : mem.drop (d.here + l.length + 1) = unlines ls ++ t := by
      have := congrArg (fun x => x.drop (l.length + 1)) hd1
      simp only [List.drop_drop, Nat.add_comm, Nat.add_left_comm] at this
      simp only [Nat.add_comm, Nat.add_left_comm, Nat.add_assoc]
      rw [this, List.drop_append_eq_append_drop]
      simp
    have hlen := unlines_length_ge ls
    unfold c_send_data
    rw [hg]
    simp only
    by_cases hdot : l.getD 0 0 = DOT
    · simp only [hdot, if_true] at w3 ⊢
      have hp : (c_puts u (DOT :: c_str l ++ [LF])).2 =
          { u with co_out := u.co_out ++ (DOT :: l ++ [LF]) } := by
        unfold c_puts
        rw [c_str_id l w2]
        have : (DOT :: l ++ [LF]).length ≤ LINE_MAX - 3 := by
          simp only [List.cons_append, List.length_cons, List.length_append, List.length_nil,
            LINE_MAX, MIN_FREE] at w3 ⊢
          omega
        simp only [this, if_true]
      rw [hp]
      obtain ⟨i1, i2, i3⟩ := ih hls n { u with co_out := u.co_out ++ (DOT :: l ++ [LF]) }
        { d with here := d.here + l.length + 1 } mem t hb hd2 (by simp only; omega)
        (by simp at hfuel; omega)
      refine ⟨?_, i2, i3⟩
      rw [i1]
      simp only [wire_block, hdot, if_true, List.append_assoc, List.cons_append,
        List.singleton_append, List.nil_append]
    · simp only [hdot, if_false] at w3 ⊢
      have hp : (c_puts u (c_str l ++ [LF])).2 =
          { u with co_out := u.co_out ++ (l ++ [LF]) } := by
        unfold c_puts
        rw [c_str_id l w2]
        have : (l ++ [LF]).length ≤ LINE_MAX - 3 := by
          simp only [List.length_cons, List.length_append, List.length_nil,
            LINE_MAX, MIN_FREE] at w3 ⊢
          omega
        simp only [this, if_true]
      rw [hp]
      obtain ⟨i1, i2, i3⟩ := ih hls n { u with co_out := u.co_out ++ (l ++ [LF]) }
        { d with here := d.here + l.length + 1 } mem t hb hd2 (by simp only; omega)
        (by simp at hfuel; omega)
      refine ⟨?_, i2, i3⟩
      rw [i1]
      simp only [wire_block, hdot, if_false, List.append_assoc, List.cons_append,
        List.singleton_append, List.nil_append]

theorem wire_block_length_ge (lines : List (List Nat)) :
    lines.length + 1 ≤ (wire_block lines).length := by
  induction lines with
  | nil => simp [wire_block]
  | cons l ls ih =>
    simp only [wire_block, List.length_cons, List.length_append]
    omega

theorem b_clear_wf (r : buf_t) (hr : buf_wf r) :
    ∃ m, (b_clear r).buffer = some m ∧ m.length = (b_clear r).size ∧ (b_clear r).fin = 0 := by
  unfold b_clear
  cases hb : r.buffer with
  | none => exact ⟨malloc LINE_MAX, by simp [hb], by simp [hb, malloc], by simp [hb]⟩
  | some m => exact ⟨m, by simp [hb], by simp [hb, (hr m hb).1], by simp [hb]⟩

theorem c_request_data_wire (u : uxfs_t) (d : buf_t) (lines : List (List Nat)) (mem : List Nat)
    (hl : ∀ l ∈ lines, wire_ok l) (hd : d.buffer = some mem) (hfin : d.fin ≤ mem.length)
    (hB : contents d = unlines lines) :
    (c_request_data u (some d)).2.co_out = u.co_out ++ wire_block lines := by
  have hlen : (unlines lines).length = d.fin := by
    rw [← hB]; simp [contents, hd, hfin]
  have hdrop : mem.drop 0 = unlines lines ++ mem.drop d.fin := by
    rw [← hB]; simp [contents, hd]
  obtain ⟨s1, _, _⟩ := c_send_data_lines lines hl (d.fin + 1) u { d with here := 0 } mem
    (mem.drop d.fin) hd hdrop (by simp only; omega)
    (by have := unlines_length_ge lines; omega)
  unfold c_request_data
  simp only
  have hp : ∀ x : uxfs_t, (c_puts x (cs ".\n")).2.co_out = x.co_out ++ [DOT, LF] := by
    intro x
    unfold c_puts
    have e : cs ".\n" = [DOT, LF] := by decide
    rw [e]
    simp [LINE_MAX]
  rw [hp, s1]

/-- C7 (counterexample): for the one byte `X` (no line is a lone `.`) the sending loop
emits `X`, line feed, `.`, line feed, and the receiving loop fed with these bytes
builds a reply holding `X` and a line feed: one byte more than was sent. -/
theorem data_block_adds_line_feed :
    contents (buf_holding (cs "X")) = cs "X" ∧
    (c_request_data table_empty (some (buf_holding (cs "X")))).2.co_out = cs "X\n.\n" ∧
    contents (c_recv_data 5 { table_empty with co_in := cs "X\n.\n" } (b_clear b_alloc)).1
      = cs "X\n" := by
  decide

/-- C7 (amended): when the buffer holds lines that each end in a line feed, have no NUL
byte and with their escaping `.` are at most `LINE_MAX - MIN_FREE` bytes long
(lines that begin with `.`, a lone `.` included, are allowed), the bytes `w`
the sending loop of `c_putc` emits are the escaped lines and a lone `.`, and
the `R_MULTI` receive loop fed with `w` yields a reply whose contents are the
bytes of the buffer, leaving what follows `w` unread. -/
theorem data_block_round_trip (u v : uxfs_t) (d r : buf_t) (lines : List (List Nat))
    (mem w rest : List Nat) (hl : ∀ l ∈ lines, wire_ok l)
    (hd : d.buffer = some mem) (hfin : d.fin ≤ mem.length) (hB : contents d = unlines lines)
    (hr : buf_wf r) (hw : (c_request_data u (some d)).2.co_out = u.co_out ++ w)
    (hv : v.co_in = w ++ rest) :
    w = wire_block lines ∧
    contents (c_recv_data (v.co_in.length + 1) v (b_clear r)).1 = contents d ∧
    (c_recv_data (v.co_in.length + 1) v (b_clear r)).2.co_in = rest := by
  have hw2 := c_request_data_wire u d lines mem hl hd hfin hB
  rw [hw2] at hw
  have hwe : w = wire_block lines := (List.append_cancel_left hw).symm
  subst hwe
  obtain ⟨m, b1, b2, b3⟩ := b_clear_wf r hr
  have hfuel : lines.length + 1 ≤ v.co_in.length + 1 := by
    have := wire_block_length_ge lines
    rw [hv, List.length_append]
    omega
  obtain ⟨c1, c2⟩ := c_recv_data_lines lines hl (v.co_in.length + 1) v (b_clear r) rest m hv
    hfuel b1 b2 (by rw [b3]; omega)
  refine ⟨rfl, ?_, by rw [c2]⟩
  rw [c1, hB]
  simp [contents, b3]

theorem data_block_round_trip_witness :
    (∀ l ∈ [cs ".hidden", cs "."], wire_ok l) ∧
    contents (buf_holding (cs ".hidden\n.\n")) = unlines [cs ".hidden", cs "."] ∧
    contents (c_recv_data ({ table_empty with co_in := cs "..hidden\n..\n.\n" }.co_in.length + 1)
      { table_empty with co_in := cs "..hidden\n..\n.\n" } (b_clear b_alloc)).1
      = contents (buf_holding (cs ".hidden\n.\n")) :=
  ⟨by decide, by decide,
    (data_block_round_trip table_empty { table_empty with co_in := cs "..hidden\n..\n.\n" }
      (buf_holding (cs ".hidden\n.\n")) b_alloc [cs ".hidden", cs "."]
      (cs ".hidden\n.\n" ++ [0, 0, 0, 0]) (cs "..hidden\n..\n.\n") []
      (by decide) (by decide) (by decide) (by decide) (fun m h => by cases h)
      (by decide) (by decide)).2.1⟩

theorem f_open_wronly (u1 : uxfs_t) (f now : Nat) (hm : (deref u1 f).mode = 11) :
    f_open u1 f O_WRONLY now =
      some (0, some { mode := 10, here := 0, fin := 0, size := 512, buffer := some (malloc 512) },
        { store u1 f { deref u1 f with used := (deref u1 f).used + 1 } with
          n_open := u1.n_open + 1 }) := by
  unfold f_open
  simp [hm, O_WRONLY, O_ACCMODE, O_RDWR, O_RDONLY, M_READ, M_WRITE, M_USER, b_alloc]
  decide

theorem f_open_rdonly_user (u2 : uxfs_t) (f now : Nat) (fb : buf_t)
    (hm : (deref u2 f).mode = 11) (hb : (deref u2 f).buf = some fb) :
    f_open u2 f (O_RDONLY &&& O_ACCMODE) now =
      some (0, some { b_copy fb with mode := 9 },
        { store u2 f { deref u2 f with used := (deref u2 f).used + 1 } with
          n_open := u2.n_open + 1 }) := by
  unfold f_open
  simp [hm, hb, O_WRONLY, O_ACCMODE, O_RDWR, O_RDONLY, M_READ, M_WRITE, M_USER, b_alloc]
  decide

theorem to_int_id (x : Int) (h0 : -2147483648 ≤ x) (h1 : x ≤ 2147483647) : to_int x = x := by
  unfold to_int
  omega

theorem mem_write_getD_out (m : List Nat) (off : Nat) (data : List Nat) (i : Nat)
    (h : off + data.length ≤ m.length) (hi : i < off ∨ off + data.length ≤ i) :
    (mem_write m off data).getD i 0 = m.getD i 0 := by
  unfold mem_write
  have hl : (m.take off).length = off := by simp only [List.length_take]; omega
  rw [List.getD_eq_getElem?_getD, List.getD_eq_getElem?_getD]
  congr 1
  rcases hi with hi | hi
  · rw [List.getElem?_append_left (by simp only [List.length_append, hl]; omega),
      List.getElem?_append_left (by rw [hl]; exact hi), List.getElem?_take_of_lt hi]
  · rw [List.getElem?_append_right (by simp only [List.length_append, hl]; omega)]
    simp only [List.length_append, hl, List.getElem?_drop]
    congr 1
    omega

theorem mem_write_data (m : List Nat) (off : Nat) (data : List Nat)
    (h : off + data.length ≤ m.length) :
    ((mem_write m off data).drop off).take data.length = data := by
  unfold mem_write
  have hl : (m.take off).length = off := by simp only [List.length_take]; omega
  rw [List.append_assoc, List.drop_append_eq_append_drop, hl, Nat.sub_self,
    List.drop_of_length_le (by rw [hl]), List.nil_append, List.drop_zero,
    List.take_append_eq_append_take, Nat.sub_self, List.take_zero, List.append_nil,
    List.take_of_length_le (le_refl _)]

theorem do_write_spec (b : buf_t) (m data : List Nat) (offset : Nat)
    (hmode : ¬ b.mode &&& M_WRITE = 0) (hb : b.buffer = some m) (hm : m.length = b.size)
    (hr : b.size < offset + data.length + 4 →
      b.size + (offset + data.length + 4 + 2048) ≤ INT_MAX) :
    ∃ h2 m2, do_write b data offset = some ((data.length : Int), none, h2) ∧
      h2.mode = b.mode ∧ h2.here = b.here ∧
      h2.fin = max b.fin (offset + data.length) ∧
      h2.buffer = some m2 ∧ m2.length = h2.size ∧ b.size ≤ h2.size ∧
      offset + data.length + 4 ≤ h2.size ∧
      (m2.drop offset).take data.length = data ∧
      ∀ i, i < m.length → (i < offset ∨ offset + data.length ≤ i) →
        m2.getD i 0 = m.getD i 0 := by
  have hguard : ¬ (b.size < offset + data.length + 4 ∧
      INT_MAX < b.size + (offset + data.length + 4 + 2048)) := by
    intro h
    have := hr h.1
    omega
  unfold do_write
  rw [if_neg hmode]
  simp only
  rw [if_neg hguard]
  generalize hb1 : (if b.size < offset + data.length + 4 then
      ({ b with size := b.size + (offset + data.length + 4 + 2048), buffer := some (realloc b.buffer (b.size + (offset + data.length + 4 + 2048))) } : buf_t)
    else b) = b1
  have h1 : b1.mode = b.mode ∧ b1.here = b.here ∧ b1.fin = b.fin ∧ b.size ≤ b1.size ∧
      ∃ m1, b1.buffer = some m1 ∧ m1.length = b1.size ∧
        offset + data.length + 4 ≤ m1.length ∧
        ∀ i, i < m.length → m1.getD i 0 = m.getD i 0 := by
    rw [← hb1]
    by_cases hg : b.size < offset + data.length + 4
    · simp only [hg, if_true, true_and]
      rw [hb]
      obtain ⟨r1, r2⟩ := realloc_grow m (b.size + (offset + data.length + 4 + 2048)) (by omega)
      refine ⟨by omega, _, rfl, r2, by rw [r2]; omega, ?_⟩
      intro i hi
      rw [r1, List.getD_eq_getElem?_getD, List.getD_eq_getElem?_getD,
        List.getElem?_append_left hi]
    · simp only [hg, if_false, true_and]
      exact ⟨le_refl _, m, hb, hm, by omega, fun _ _ => rfl⟩
  obtain ⟨a1, a2, a3, a4, m1, a5, a6, a7, a8⟩ := h1
  have hlen : (mem_write m1 offset data).length = m1.length :=
    mem_write_length m1 offset data (by omega)
  have hdat := mem_write_data m1 offset data (by omega)
  have hout : ∀ i, i < m.length → (i < offset ∨ offset + data.length ≤ i) →
      (mem_write m1 offset data).getD i 0 = m.getD i 0 := by
    intro i hi ho
    rw [mem_write_getD_out m1 offset data i (by omega) ho, a8 i hi]
  simp only [a5, Option.map_some']
  by_cases hB : b1.fin < offset + data.length
  · simp only [hB, if_true]
    refine ⟨_, _, rfl, a1, a2, ?_, rfl, by rw [hlen]; exact a6, a4, by rw [← a6]; exact a7,
      hdat, hout⟩
    show offset + data.length = max b.fin (offset + data.length)
    rw [a3] at hB
    omega
  · simp only [hB, if_false]
    refine ⟨_, _, rfl, a1, a2, ?_, rfl, by rw [hlen]; exact a6, a4, by rw [← a6]; exact a7,
      hdat, hout⟩
    show b1.fin = max b.fin (offset + data.length)
    rw [a3] at hB ⊢
    omega

theorem do_write_at_zero (b : buf_t) (m B : List Nat) (hmode : ¬ b.mode &&& M_WRITE = 0)
    (hb : b.buffer = some m) (hm : m.length = b.size) (hf : b.fin = 0)
    (hr : b.size + (B.length + 4 + 2048) ≤ INT_MAX) :
    ∃ h2, do_write b B 0 = some ((B.length : Int), none, h2) ∧ h2.mode = b.mode ∧
    h2.fin = B.length ∧
    ∃ m2, h2.buffer = some m2 ∧ m2.take B.length = B ∧
      B.length + 4 ≤ m2.length ∧ h2.size = m2.length := by
  obtain ⟨h2, m2, w1, w2, _, w4, w5, w6, _, w8, w9, _⟩ := do_write_spec b m B 0 hmode hb hm
    (by intro _; omega)
  refine ⟨h2, w1, w2, by rw [w4, hf]; omega, m2, w5, ?_, by rw [w6]; omega, w6.symm⟩
  simpa using w9

theorem do_read_all (h3 : buf_t) (m : List Nat) (B : List Nat) (size : Nat)
    (hb : h3.buffer = some m) (hc : m.take h3.fin = B) (hlen : h3.fin = B.length)
    (hs : B.length ≤ size) (hr : B.length ≤ INT_MAX) :
    do_read h3 size 0 = ((B.length : Int), B) := by
  have hi : to_int ((h3.fin : Int) - ((0 : Nat) : Int)) = (B.length : Int) := by
    rw [hlen]
    apply to_int_id
    · omega
    · unfold INT_MAX at hr
      omega
  unfold do_read
  simp only [hi]
  by_cases h0 : B.length = 0
  · have hB : B = [] := List.length_eq_zero.1 h0
    rw [if_pos (by rw [h0]; simp), hB]
    rfl
  · have h1 : ¬ ((B.length : Int) ≤ 0) := by omega
    have h2 : ¬ ((size : Int) < (B.length : Int)) := by omega
    rw [if_neg h1, if_neg h2]
    simp only [hb, Option.getD_some, List.drop_zero, Int.toNat_ofNat]
    rw [← hlen, hc]

theorem b_getline_same (d : buf_t) (size : Nat) : same_data (b_getline d size).2 d := by
  unfold b_getline
  split <;> exact ⟨rfl, rfl, rfl, rfl⟩

theorem same_data_trans (a b c : buf_t) (h1 : same_data a b) (h2 : same_data b c) :
    same_data a c :=
  ⟨h1.1.trans h2.1, h1.2.1.trans h2.2.1, h1.2.2.1.trans h2.2.2.1, h1.2.2.2.trans h2.2.2.2⟩

theorem c_send_data_same (fuel : Nat) (u : uxfs_t) (d : buf_t) :
    same_data (c_send_data fuel u d).1 d := by
  induction fuel generalizing u d with
  | zero => exact ⟨rfl, rfl, rfl, rfl⟩
  | succ n ih =>
    have hg := b_getline_same d LINE_MAX
    unfold c_send_data
    split
    · next d1 h => rw [h] at hg; exact hg
    · next p d1 h =>
      rw [h] at hg
      split
      · exact same_data_trans _ _ _ (ih _ _) hg
      · exact same_data_trans _ _ _ (ih _ _) hg

theorem c_putc_status_ok (held : Bool) (u : uxfs_t) (cmd : List Nat) (par : Option (List Nat))
    (b : buf_t) (now : Nat) (rest : List Nat) (hin : u.co_in = cs "+OK\n" ++ rest) :
    ∃ r, c_putc held u (some cmd) par R_STATUS (some b) none now = some r ∧
      r.2.2.2.heap = u.heap ∧ r.2.2.2.dir = u.dir ∧ r.2.2.2.other_users = u.other_users ∧
      ∃ b1, r.2.1 = some b1 ∧ same_data b1 b := by
  obtain ⟨a1, a2, a3, _, _, _, a7⟩ := c_puts_tbl u (c_command cmd par)
  obtain ⟨b1, b2, b3, _, _, _, b7⟩ := c_request_data_tbl (c_puts u (c_command cmd par)).2 (some b)
  have hf1 : ¬ R_STATUS &&& C_TEMP_DATA ≠ 0 := by decide
  have hf2 : R_STATUS &&& C_STATUS ≠ R_NONE := by decide
  by_cases hc : (c_puts u (c_command cmd par)).1 ≤ 0
  · refine ⟨(1, some b, none, (c_puts u (c_command cmd par)).2), ?_, a1, a2, a7, b, rfl, rfl,
      rfl, rfl, rfl⟩
    unfold c_putc
    simp only [hc, if_true]
  · have e := c_response_ok held (c_request_data (c_puts u (c_command cmd par)).2 (some b)).2
      R_STATUS none now rest ((b3.trans a3).trans hin) (by decide)
    refine ⟨(0, (c_request_data (c_puts u (c_command cmd par)).2 (some b)).1, none,
      { (c_request_data (c_puts u (c_command cmd par)).2 (some b)).2 with co_in := rest }), ?_,
      b1.trans a1, b2.trans a2, b7.trans a7, ?_⟩
    · unfold c_putc
      simp only [hc, if_false]
      rw [if_pos hf2, if_neg hf1, e]
      rfl
    · have hsame := c_send_data_same (b.fin + 1) (c_puts u (c_command cmd par)).2
        { b with here := 0 }
      exact ⟨_, rfl, same_data_trans _ _ _ hsame ⟨rfl, rfl, rfl, rfl⟩⟩

theorem do_release_user (u1 : uxfs_t) (path : List Nat) (b : buf_t) (now : Nat) (f : Nat)
    (m rest : List Nat) (hok : table_ok u1) (he : entry_of u1 path f)
    (hb : b.buffer = some m) (hmode : b.mode = 10) (hin : u1.co_in = cs "+OK\n" ++ rest) :
    ∃ u2 b1, do_release u1 path b now = some (0, u2) ∧ u2.dir = u1.dir ∧
      u2.heap.length = u1.heap.length ∧ u2.other_users = u1.other_users ∧
      (∀ q, (deref u2 q).path = (deref u1 q).path ∧ (deref u2 q).mode = (deref u1 q).mode ∧
            (deref u2 q).deleted = (deref u1 q).deleted) ∧
      (deref u2 f).buf = some b1 ∧ b1.fin = b.fin ∧
      b1.buffer = some (mem_write m b.fin [0]) ∧ b1.size = b.size := by
  have hg : getfile u1 path 1 = some f := (getfile_incl_iff u1 hok.2 path f).2 he
  have hfv : f < u1.heap.length := hok.1 f he.1
  have hw : ¬ ¬ (10 &&& M_WRITE ≠ 0) := by decide
  have hu : (10 &&& M_USER ≠ 0) := by decide
  generalize hfa : ({ deref u1 f with mtime := now, used := (deref u1 f).used - 1 } : file_t) = fa
  have hu1a : ∀ q, (deref (store u1 f fa) q).path = (deref u1 q).path ∧
      (deref (store u1 f fa) q).mode = (deref u1 q).mode ∧
      (deref (store u1 f fa) q).deleted = (deref u1 q).deleted := by
    intro q
    rw [deref_store]
    split
    · next h => rw [h.1, ← hfa]; exact ⟨rfl, rfl, rfl⟩
    · exact ⟨rfl, rfl, rfl⟩
  obtain ⟨r, hr, c1, c2, c3, bx, c4, c5⟩ := c_putc_status_ok true (store u1 f fa) (cs "WRITE")
    (some (deref (store u1 f fa) f).path)
    { mode := 10, here := b.here, fin := b.fin, size := b.size,
      buffer := some (mem_write m b.fin [0]) }
    now rest hin
  have hd : ∀ q, deref r.2.2.2 q = deref (store u1 f fa) q := deref_congr _ _ c1
  have hlen : r.2.2.2.heap.length = u1.heap.length := by rw [c1, store_heap_length]
  generalize hfz : ({ deref r.2.2.2 f with buf := r.2.1 } : file_t) = fz
  have hz : fz.path = (deref r.2.2.2 f).path ∧ fz.mode = (deref r.2.2.2 f).mode ∧
      fz.deleted = (deref r.2.2.2 f).deleted ∧ fz.buf = r.2.1 := by
    rw [← hfz]; exact ⟨rfl, rfl, rfl, rfl⟩
  have hrel : do_release u1 path b now =
      some (0, { store r.2.2.2 f fz with n_close := (store r.2.2.2 f fz).n_close + 1 }) := by
    unfold do_release
    rw [hg]
    simp only [hb, hfa, hmode]
    rw [if_pos (by decide), hr]
    simp only [Option.map_some']
    rw [if_pos hu, hfz]
  refine ⟨_, bx, hrel, ?_, ?_, ?_, ?_, ?_, c5.2.1, c5.2.2.2, c5.2.2.1⟩
  · show (store r.2.2.2 f fz).dir = u1.dir
    rw [store_dir, c2, store_dir]
  · show (store r.2.2.2 f fz).heap.length = u1.heap.length
    rw [store_heap_length, hlen]
  · show (store r.2.2.2 f fz).other_users = u1.other_users
    exact c3
  · intro q
    show (deref (store r.2.2.2 f fz) q).path = _ ∧ (deref (store r.2.2.2 f fz) q).mode = _ ∧
      (deref (store r.2.2.2 f fz) q).deleted = _
    rw [deref_store]
    split
    · next h => rw [h.1, hz.1, hz.2.1, hz.2.2.1, hd]; exact hu1a f
    · rw [hd]; exact hu1a q
  · show (deref (store r.2.2.2 f fz) f).buf = some bx
    rw [deref_store_same _ _ _ (by rw [hlen]; exact hfv), hz.2.2.2, c4]

theorem add_file_co_in (held : Bool) (u : uxfs_t) (path : List Nat) (mode now : Nat)
    (r : Int × uxfs_t) (e : add_file held u path mode now = some r) :
    r.2.co_in = u.co_in := by
  rcases add_file_some held u path mode now r e with ⟨_, rfl⟩ | ⟨_, _, _, rfl⟩ | ⟨_, _, _, rfl⟩
  · rfl
  · rfl
  · rfl

theorem f_create_co_in (u : uxfs_t) (path : List Nat) (now : Nat)
    (c : Int × Option Nat × uxfs_t) (e : f_create u path now = some c) :
    c.2.2.co_in = u.co_in := by
  rcases f_create_some u path now c e with ⟨_, rfl⟩ | ⟨_, _, rfl⟩ | ⟨_, _, r, hr, rfl⟩
  · rfl
  · rfl
  · exact add_file_co_in _ _ _ _ _ _ hr

theorem d_getattr_user_size (u : uxfs_t) (f : file_t) (b : buf_t) (hp : f.path ≠ cs "/")
    (hm : f.mode = 11) (hb : f.buf = some b) :
    (d_getattr u f stat_zero).st_size = b.fin := by
  have h1 : ¬ strcmp f.path (cs "/") = 0 := by rw [strcmp_eq_zero]; exact hp
  have h2 : (11 &&& M_DIR ≠ 0) = False := eq_false (by decide)
  have h3 : (11 &&& (M_STATIC ||| M_USER) ≠ 0) = True := eq_true (by decide)
  unfold d_getattr
  simp only [h1, if_false, hm, hb, h2, h3, if_true]
  split <;> rfl

/-- C6: USER write/read round trip.  In a sorted table, when `do_create` succeeds for a
path other than the root, of fewer than `FILENAME_MAX` bytes, the bytes `B` (of a
length one `do_write` can take: the grown buffer size `|B| + 2564` fits an `int`) are
written at offset 0 and the handle is released with the controller replying a plain
`+OK`, then the entry retains a buffer of length `|B|` holding `B`, `do_getattr`
reports the size `|B|`, and a read-only `do_open` followed by `do_read` of at least
`|B|` bytes at offset 0 returns exactly `B`. -/
theorem user_write_read_round_trip (u : uxfs_t) (path B : List Nat) (now size : Nat)
    (rest : List Nat) (h : buf_t) (u1 : uxfs_t) (hok : table_ok u) (hpath : path ≠ cs "/")
    (_hlen : path.length < FILENAME_MAX) (hin : u.co_in = cs "+OK\n" ++ rest)
    (hc : do_create u path now = some (0, some h, u1)) (hsize : B.length ≤ size)
    (hB : B.length + 2564 ≤ INT_MAX) :
    ∃ h2 u2 f fb h3 u3,
      do_write h B 0 = some ((B.length : Int), none, h2) ∧
      do_release u1 path h2 now = some (0, u2) ∧
      getfile u2 path 0 = some f ∧ (deref u2 f).buf = some fb ∧
      fb.fin = B.length ∧ contents fb = B ∧
      (do_getattr u2 path stat_zero).1 = 0 ∧
      (do_getattr u2 path stat_zero).2.st_size = B.length ∧
      do_open u2 path O_RDONLY now = some (0, some h3, u3) ∧
      do_read h3 size 0 = ((B.length : Int), B) := by
  -- creation
  unfold do_create at hc
  cases hfc : f_create u path now with
  | none => rw [hfc] at hc; simp at hc
  | some c =>
    rw [hfc] at hc
    simp only at hc
    by_cases hc1 : c.1 ≠ 0
    · rw [if_pos hc1] at hc
      simp only [Option.some.injEq, Prod.mk.injEq] at hc
      exact absurd hc.1 hc1
    have hc1' : c.1 = 0 := by simpa using hc1
    rw [if_neg hc1] at hc
    cases hcf : c.2.1 with
    | none => rw [hcf] at hc; simp at hc
    | some f =>
      rw [hcf] at hc
      simp only at hc
      obtain ⟨e1, e2, e3⟩ := f_create_ok u path now f c hok hfc hc1' hcf
      have hst := f_create_step u path now c hfc
      have hoka := hst.2 hok
      have hco := f_create_co_in u path now c hfc
      generalize c.2.2 = ua at hc e1 e2 e3 hoka hco
      have hm11 : (deref ua f).mode = 11 := e2
      rw [f_open_wronly ua f now hm11] at hc
      simp only [Option.some.injEq, Prod.mk.injEq, true_and] at hc
      obtain ⟨hh, hu1⟩ := hc
      -- the state after the open
      generalize hfo : ({ deref ua f with used := (deref ua f).used + 1 } : file_t) = fo at hu1
      have hfo1 : fo.path = (deref ua f).path ∧ fo.mode = 11 ∧ fo.deleted = 0 := by
        rw [← hfo]; exact ⟨rfl, hm11, e3⟩
      have hfv : f < ua.heap.length := hoka.1 f e1.1
      have hok1 : table_ok u1 := by
        rw [← hu1]
        have := store_table_ok ua f fo hfo1.1 hoka
        exact ⟨this.1, sorted_of_paths (store ua f fo) _ rfl rfl (fun _ => rfl) this.2⟩
      have hd1 : ∀ q, deref u1 q = deref (store ua f fo) q := by
        intro q; rw [← hu1]; rfl
      have he1 : entry_of u1 path f := by
        have := store_entry_of ua f fo hfo1.1 path f e1
        refine ⟨by rw [← hu1]; exact this.1, by rw [hd1]; exact this.2⟩
      have hf1 : deref u1 f = fo := by rw [hd1, deref_store_same _ _ _ hfv]
      have hin1 : u1.co_in = cs "+OK\n" ++ rest := by
        rw [← hu1]; exact hco.trans hin
      -- the write
      have hml : (malloc 512).length = 512 := by simp only [malloc, List.length_replicate]
      obtain ⟨h2, w1, w2, w3, m2, w4, w5, w6, w7⟩ := do_write_at_zero h (malloc 512) B
        (by rw [← hh]; decide) (by rw [← hh]) (by rw [← hh]; exact hml) (by rw [← hh])
        (by rw [← hh]; show 512 + (B.length + 4 + 2048) ≤ INT_MAX; omega)
      have hmode2 : h2.mode = 10 := by rw [w2, ← hh]
      -- the release
      obtain ⟨u2, fb, r1, r2, r3, _, r5, r6, r7, r8, r9⟩ := do_release_user u1 path
        h2 now f m2 rest hok1 he1 w4 hmode2 hin1
      have hfbc : contents fb = B := by
        unfold contents
        rw [r8, r7, w3]
        have := mem_write_take m2 B.length [0] 0 (by omega) (by simp)
        simp only [Nat.add_zero, List.take_zero, List.append_nil] at this
        simp only [Option.getD_some]
        rw [this, w5]
      have hok2 : table_ok u2 := by
        refine ⟨?_, sorted_of_paths u1 u2 r2 r3 (fun q => (r5 q).1) hok1.2⟩
        intro q hq; rw [r3]; rw [r2] at hq; exact hok1.1 q hq
      have he2 : entry_of u2 path f := ⟨by rw [r2]; exact he1.1, by rw [(r5 f).1]; exact he1.2⟩
      have hm2 : (deref u2 f).mode = 11 := by rw [(r5 f).2.1, hf1]; exact hfo1.2.1
      have hdel2 : (deref u2 f).deleted = 0 := by rw [(r5 f).2.2, hf1]; exact hfo1.2.2
      have hg2 : getfile u2 path 0 = some f := (getfile_live_iff u2 hok2.2 path f).2 ⟨he2, hdel2⟩
      have hga : do_getattr u2 path stat_zero = (0, d_getattr u2 (deref u2 f) stat_zero) := by
        unfold do_getattr; rw [hg2]
      have hop : do_open u2 path O_RDONLY now =
          f_open u2 f (O_RDONLY &&& O_ACCMODE) now := by
        unfold do_open
        rw [hg2]
        simp only [hm2]
        rw [if_neg (by decide)]
      rw [f_open_rdonly_user u2 f now fb hm2 r6] at hop
      refine ⟨h2, u2, f, fb, _, _, w1, r1, hg2, r6, by rw [r7, w3], hfbc, by rw [hga], ?_, hop, ?_⟩
      · rw [hga]
        show (d_getattr u2 (deref u2 f) stat_zero).st_size = B.length
        rw [d_getattr_user_size u2 (deref u2 f) fb (by rw [he2.2]; exact hpath) hm2 r6, r7, w3]
      · have hmw : (mem_write m2 h2.fin [0]).length = m2.length :=
          mem_write_length _ _ _ (by rw [w3]; simp; omega)
        apply do_read_all _ (realloc fb.buffer fb.size) B size rfl _ (by
          show (b_copy fb).fin = B.length
          show fb.fin = B.length
          rw [r7, w3]) hsize (by omega)
        show (realloc fb.buffer fb.size).take fb.fin = B
        rw [r8, r9, w7]
        obtain ⟨g1, _⟩ := realloc_grow (mem_write m2 h2.fin [0]) m2.length
          (by rw [hmw])
        rw [g1, hmw, Nat.sub_self]
        simp only [List.replicate_zero, List.append_nil]
        have := hfbc
        unfold contents at this
        rw [r8] at this
        exact this

theorem user_write_read_round_trip_witness :
    table_ok table_root_ok ∧ cs "/note" ≠ cs "/" ∧ (cs "/note").length < FILENAME_MAX ∧
    do_create table_root_ok (cs "/note") 0 = some (0, some note_handle, note_created) ∧
    ∃ h2 u2 f fb h3 u3,
      do_write note_handle (cs "ok\n") 0 = some (((cs "ok\n").length : Int), none, h2) ∧
      do_release note_created (cs "/note") h2 0 = some (0, u2) ∧
      getfile u2 (cs "/note") 0 = some f ∧ (deref u2 f).buf = some fb ∧
      fb.fin = (cs "ok\n").length ∧ contents fb = cs "ok\n" ∧
      (do_getattr u2 (cs "/note") stat_zero).1 = 0 ∧
      (do_getattr u2 (cs "/note") stat_zero).2.st_size = (cs "ok\n").length ∧
      do_open u2 (cs "/note") O_RDONLY 0 = some (0, some h3, u3) ∧
      do_read h3 16 0 = (((cs "ok\n").length : Int), cs "ok\n") :=
  ⟨by decide, by decide, by decide, by decide!,
    user_write_read_round_trip table_root_ok (cs "/note") (cs "ok\n") 0 16 [] note_handle
      note_created (by decide) (by decide) (by decide) (by decide) (by decide!) (by decide)
      (by decide)⟩

theorem bootstrap_eq (inp : List Nat) (now : Nat) :
    bootstrap inp now =
      { heap := [{ f_alloc with path := cs "/", mode := 5, mtime := now, inode := 2 }],
        dir := [0], inode_count := 2, n_open := 0, n_close := 0, other_users := 0,
        co_in := inp, co_out := [], exited := false } := by
  rfl

theorem search_root (u : uxfs_t) (f : file_t) (hd : u.dir = [0]) (hh : u.heap = [f])
    (hp : f.path = [47]) : d_search_file u [47] = (0, 0) := by
  unfold d_search_file
  simp [d_search_loop, file_at, deref, strcmp, hd, hh, hp]

/-- C11, counterexample: the root of the bootstrap table has no WRITE bit, and
`f_create("/note")` returns `-EACCES` and creates no entry. -/
theorem bootstrap_root_lacks_write :
    (deref (bootstrap [] 0) 0).path = cs "/" ∧
    (deref (bootstrap [] 0) 0).mode &&& M_WRITE = 0 ∧
    (f_create (bootstrap [] 0) (cs "/note") 0).map Prod.fst = some (-EACCES) ∧
    (f_create (bootstrap [] 0) (cs "/note") 0).map
      (fun r => getfile r.2.2 (cs "/note") 1) = some none := by
  decide

/-- C11, amended: in the bootstrap table the root is the only entry and has DIR and
READ set but not WRITE, so `f_create("/note")` returns `-EACCES` and leaves the
table as it is; once a DIR directive has declared the root `rw`, the root has DIR,
READ and WRITE, and `f_create("/note")` returns 0 and yields an entry with USER. -/
theorem bootstrap_create_refused (inp : List Nat) (now t : Nat) :
    (bootstrap inp now).dir = [0] ∧
    (deref (bootstrap inp now) 0).path = cs "/" ∧
    (deref (bootstrap inp now) 0).mode = M_DIR ||| M_READ ∧
    f_create (bootstrap inp now) (cs "/note") t = some (-EACCES, none, bootstrap inp now) ∧
    ∃ w, add_file_from_definition false (bootstrap [] 0) (cs "/ rw") 0 = some w ∧
      (deref w.2 0).mode = M_DIR ||| M_READ ||| M_WRITE ∧
      ∃ f v, f_create w.2 (cs "/note") 0 = some (0, some f, v) ∧
        getfile v (cs "/note") 0 = some f ∧ (deref v f).mode &&& M_USER ≠ 0 := by
  have h1 : d_get_parent (bootstrap inp now) (cs "/note") = (0, 0) := by
    have e : cs "/note" = [47, 110, 111, 116, 101] := by decide
    have e2 : m_copy [47, 110, 111, 116, 101] FILENAME_MAX = [47, 110, 111, 116, 101] := by
      decide
    have e3 : strrchr [47, 110, 111, 116, 101] SLASH = some 0 := by decide
    rw [e]
    unfold d_get_parent
    simp only [e2, e3, if_true, List.take]
    exact search_root _ _ rfl rfl rfl
  have h2 : (file_at (bootstrap inp now) 0).mode = 5 := rfl
  refine ⟨rfl, rfl, rfl, ?_, _, rfl, by decide, 1, _, rfl, by decide, by decide⟩
  unfold f_create
  rw [h1, if_neg (by decide)]
  show (if (file_at (bootstrap inp now) 0).mode &&& M_WRITE = 0 then _ else _) = _
  rw [h2, if_pos (by decide)]

/-- C12: a handle holds the two bytes `ok` and a read of up to 10 bytes is made at
offset 2^32 + 1, which is not below `end`; the difference `end - offset` wraps to 1
in the `int n`, and `do_read` returns 1, not 0 (the byte it copies lies outside
the allocation and is not modelled). -/
theorem do_read_offset_wraps :
    (buf_holding (cs "ok")).fin ≤ 4294967297 ∧
    (do_read (buf_holding (cs "ok")) 10 4294967297).1 = 1 := by
  decide

/-- The contract of `do_read` where the arithmetic stays in range: for every handle
(its `end` an `int`), every size and every offset that is at most 2^31 above `end`,
so that `end - offset` fits the `int n`:
`do_read` returns 0 and copies nothing when `offset ≥ end`; otherwise it returns
`n = min(size, end - offset)` and copies out `n` bytes, the bytes
`buffer[offset .. offset + n)`.  The read takes the handle and gives back only the
result and the bytes: the handle is not changed. -/
theorem do_read_contract (b : buf_t) (m : List Nat) (size offset : Nat)
    (hb : b.buffer = some m) (hm : b.fin ≤ m.length) (hfin : b.fin ≤ INT_MAX)
    (hoff : offset ≤ b.fin + 2147483648) :
    (b.fin ≤ offset → do_read b size offset = (0, [])) ∧
    (offset < b.fin →
      (do_read b size offset).1 = ((min size (b.fin - offset) : Nat) : Int) ∧
      (do_read b size offset).2.length = min size (b.fin - offset) ∧
      ∀ i, i < min size (b.fin - offset) →
        (do_read b size offset).2.getD i 0 = m.getD (offset + i) 0) := by
  have hi : to_int ((b.fin : Int) - (offset : Int)) = (b.fin : Int) - (offset : Int) := by
    apply to_int_id
    · omega
    · unfold INT_MAX at hfin
      omega
  unfold do_read
  simp only [hi]
  constructor
  · intro h
    rw [if_pos (by omega)]
  · intro h
    rw [if_neg (by omega)]
    have hn : (if (size : Int) < (b.fin : Int) - (offset : Int) then (size : Int)
        else (b.fin : Int) - (offset : Int)) = ((min size (b.fin - offset) : Nat) : Int) := by
      by_cases hs : (size : Int) < (b.fin : Int) - (offset : Int)
      · rw [if_pos hs]
        have : min size (b.fin - offset) = size := by omega
        rw [this]
      · rw [if_neg hs]
        have : min size (b.fin - offset) = b.fin - offset := by omega
        rw [this]
        omega
    simp only [hn, hb, Option.getD_some, Int.toNat_ofNat, List.length_take, List.length_drop,
      true_and]
    refine ⟨by omega, ?_⟩
    intro i hi2
    rw [List.getD_eq_getElem?_getD, List.getD_eq_getElem?_getD,
      List.getElem?_take_of_lt hi2, List.getElem?_drop]

theorem do_read_contract_witness :
    do_read (buf_holding (cs "hello")) 3 1 = (3, cs "ell") ∧
    do_read (buf_holding (cs "hello")) 3 5 = (0, []) := by
  have h := do_read_contract (buf_holding (cs "hello")) (cs "hello" ++ [0, 0, 0, 0]) 3 5 rfl
    (by decide) (by decide) (by decide)
  exact ⟨by decide, h.1 (by decide)⟩

/-- C13: a fresh handle with WRITE (512 bytes allocated) takes one byte at offset
2^31; the grown `size` passes `INT_MAX`, so `do_write` has no defined result
instead of returning 1 with the byte stored. -/
theorem do_write_offset_overflows :
    (fresh_handle (M_WRITE ||| M_USER)).mode &&& M_WRITE ≠ 0 ∧
    do_write (fresh_handle (M_WRITE ||| M_USER)) [88] 2147483648 = none := by
  decide

/-- The contract of `do_write` where the arithmetic stays in range: for every handle
that has WRITE (its buffer allocated with `size` bytes, `end` inside it) and every
data block written at an offset for which the grown `size` still fits an `int`, `do_write` returns the length of the data;
afterwards `buffer[offset .. offset + size)` equals the data, `end` is the
maximum of the old `end` and `offset + size`, and every byte below the old `end`
outside the written range is unchanged. -/
theorem do_write_contract (b : buf_t) (m data : List Nat) (offset : Nat)
    (hmode : b.mode &&& M_WRITE ≠ 0) (hb : b.buffer = some m) (hm : m.length = b.size)
    (hfin : b.fin ≤ b.size)
    (hr : b.size < offset + data.length + 4 →
      b.size + (offset + data.length + 4 + 2048) ≤ INT_MAX) :
    ∃ h2 m2, do_write b data offset = some ((data.length : Int), none, h2) ∧
      h2.buffer = some m2 ∧ offset + data.length ≤ m2.length ∧
      (m2.drop offset).take data.length = data ∧
      h2.fin = max b.fin (offset + data.length) ∧
      ∀ i, i < b.fin → (i < offset ∨ offset + data.length ≤ i) →
        m2.getD i 0 = m.getD i 0 := by
  obtain ⟨h2, m2, w1, _, _, w4, w5, w6, _, w8, w9, w10⟩ :=
    do_write_spec b m data offset hmode hb hm hr
  exact ⟨h2, m2, w1, w5, by omega, w9, w4, fun i hi ho => w10 i (by omega) ho⟩

theorem do_write_contract_witness :
    ∃ h2 m2, do_write hello_handle (cs "ok") 3 = some (((cs "ok").length : Int), none, h2) ∧
      h2.buffer = some m2 ∧ 3 + (cs "ok").length ≤ m2.length ∧
      (m2.drop 3).take (cs "ok").length = cs "ok" ∧
      h2.fin = max hello_handle.fin (3 + (cs "ok").length) ∧
      ∀ i, i < hello_handle.fin → (i < 3 ∨ 3 + (cs "ok").length ≤ i) →
        m2.getD i 0 = (cs "hello" ++ [0, 0, 0, 0]).getD i 0 :=
  do_write_contract hello_handle (cs "hello" ++ [0, 0, 0, 0]) (cs "ok") 3 (by decide) rfl
    (by decide) (by decide) (by decide)

/-- C14 (divergence): on a handle opened read-only `do_write` returns -1, which is
not `-EBADF` (-9) and which the dispatcher reads as `-EPERM`; `EBADF` is only what
`do_write` stores in `errno`.  The handle is left as it was. -/
theorem do_write_read_only_result :
    (fresh_handle M_READ).mode &&& M_WRITE = 0 ∧
    do_write (fresh_handle M_READ) (cs "x") 0 = some (-1, some EBADF, fresh_handle M_READ) ∧
    (-1 : Int) ≠ -EBADF ∧ (-1 : Int) = -EPERM := by
  refine ⟨by decide, ?_, by decide, by decide⟩
  unfold do_write
  rw [if_pos (by decide)]

/-- What `do_write` does on every handle whose mode lacks WRITE: it stores `EBADF` in
`errno`, returns -1 and leaves the handle, its buffer and `end` included, unchanged. -/
theorem do_write_without_write_bit (b : buf_t) (data : List Nat) (offset : Nat)
    (hmode : b.mode &&& M_WRITE = 0) :
    do_write b data offset = some (-1, some EBADF, b) := by
  unfold do_write
  rw [if_pos hmode]

theorem do_write_without_write_bit_witness :
    do_write (fresh_handle M_READ) (cs "x") 7 = some (-1, some EBADF, fresh_handle M_READ) :=
  do_write_without_write_bit (fresh_handle M_READ) (cs "x") 7 (by decide)

theorem c_recv_data_reply (P : buf_t → Prop) (ha : ∀ b l, P b → P (b_append_line b l))
    (fuel : Nat) (u : uxfs_t) (r : buf_t) (h : P r) : P (c_recv_data fuel u r).1 := by
  induction fuel generalizing u r with
  | zero => exact h
  | succ n ih =>
    unfold c_recv_data
    split
    · exact h
    · split
      · exact h
      · split
        · exact ih _ _ (ha _ _ h)
        · exact ih _ _ (ha _ _ h)

theorem ite_fst_some (c : Prop) [Decidable c] (a b : buf_t) (x y : uxfs_t) (P : buf_t → Prop)
    (ha : P a) (hb : P b) :
    ∃ b2, (if c then (some a, x) else (some b, y)).1 = some b2 ∧ P b2 := by
  split
  · exact ⟨a, rfl, ha⟩
  · exact ⟨b, rfl, hb⟩

theorem c_response_reply (P : buf_t → Prop) (hc : ∀ b, P b → P (b_clear b))
    (ha : ∀ b l, P b → P (b_append_line b l)) (held : Bool) (u : uxfs_t) (flags : Nat)
    (b1 : buf_t) (now : Nat) (h : P b1) (r : Int × Option buf_t × uxfs_t)
    (e : c_response held u flags (some b1) now = some r) :
    ∃ b2, r.2.1 = some b2 ∧ P b2 := by
  unfold c_response at e
  split at e
  · cases e
    exact ⟨b1, rfl, h⟩
  · simp only at e
    split at e
    · cases e
      exact ⟨b1, rfl, h⟩
    · rw [Option.map_eq_some'] at e
      obtain ⟨x, _, rfl⟩ := e
      exact ite_fst_some _ _ _ _ _ P (c_recv_data_reply P ha _ _ _ (hc _ h)) h

theorem c_putc_reply (P : buf_t → Prop) (hc : ∀ b, P b → P (b_clear b))
    (ha : ∀ b l, P b → P (b_append_line b l)) (held : Bool) (u : uxfs_t)
    (cmd par : Option (List Nat)) (flags : Nat) (data : Option buf_t) (b1 : buf_t) (now : Nat)
    (h : P b1) (r : Int × Option buf_t × Option buf_t × uxfs_t)
    (e : c_putc held u cmd par flags data (some b1) now = some r) :
    ∃ b2, r.2.2.1 = some b2 ∧ P b2 := by
  cases cmd with
  | none =>
    simp only [c_putc] at e
    split at e
    · rw [Option.map_eq_some'] at e
      obtain ⟨x, hx, rfl⟩ := e
      exact c_response_reply P hc ha held _ _ _ _ h x hx
    · cases e
      exact ⟨b1, rfl, h⟩
  | some c =>
    simp only [c_putc] at e
    split at e
    · cases e
      exact ⟨b1, rfl, h⟩
    · split at e
      · rw [Option.map_eq_some'] at e
        obtain ⟨x, hx, rfl⟩ := e
        exact c_response_reply P hc ha held _ _ _ _ h x hx
      · cases e
        exact ⟨b1, rfl, h⟩

theorem b_clear_mode (b : buf_t) : (b_clear b).mode = b.mode := by
  cases b with
  | mk mode here fin size buffer => cases buffer <;> rfl

theorem b_append_line_mode (b : buf_t) (l : List Nat) : (b_append_line b l).mode = b.mode := by
  unfold b_append_line
  simp only
  split <;> rfl

theorem land_one (x : Nat) : x &&& 1 = 0 ∨ x &&& 1 = 1 := by
  rw [Nat.and_one_is_mod]
  omega

theorem land_bits (x : Nat) :
    x &&& 3 = x % 4 ∧ x &&& 1 = (x % 4) &&& 1 ∧ x &&& 2 = (x % 4) &&& 2 := by
  have h3 : x &&& 3 = x % 4 := Nat.and_pow_two_sub_one_eq_mod x 2
  have e1 : (3 : Nat) &&& 1 = 1 := by decide
  have e2 : (3 : Nat) &&& 2 = 2 := by decide
  have a1 : x &&& 1 = (x &&& 3) &&& 1 := by rw [Nat.and_assoc, e1]
  have a2 : x &&& 2 = (x &&& 3) &&& 2 := by rw [Nat.and_assoc, e2]
  rw [h3] at a1 a2
  exact ⟨h3, a1, a2⟩

theorem land_cases (x : Nat) :
    (x &&& 1 = 0 ∧ x &&& 2 = 0 ∧ x &&& 3 = 0) ∨ (x &&& 1 = 1 ∧ x &&& 2 = 0 ∧ x &&& 3 = 1) ∨
    (x &&& 1 = 0 ∧ x &&& 2 = 2 ∧ x &&& 3 = 2) ∨ (x &&& 1 = 1 ∧ x &&& 2 = 2 ∧ x &&& 3 = 3) := by
  obtain ⟨h3, h1, h2⟩ := land_bits x
  rw [h1, h2, h3]
  have : x % 4 = 0 ∨ x % 4 = 1 ∨ x % 4 = 2 ∨ x % 4 = 3 := by omega
  rcases this with h | h | h | h <;> rw [h] <;> decide

theorem land_eight (x : Nat) : x &&& 8 = 0 ∨ x &&& 8 = 8 := by
  have h15 : x &&& 15 = x % 16 := Nat.and_pow_two_sub_one_eq_mod x 4
  have e : (15 : Nat) &&& 8 = 8 := by decide
  have a : x &&& 8 = (x &&& 15) &&& 8 := by rw [Nat.and_assoc, e]
  rw [h15] at a
  rw [a]
  have : x % 16 < 16 := Nat.mod_lt _ (by decide)
  generalize x % 16 = y at this
  interval_cases y <;> decide

theorem f_open_handle (P : buf_t → Prop) (hc : ∀ b, P b → P (b_clear b))
    (ha : ∀ b l, P b → P (b_append_line b l)) (u : uxfs_t) (f acc now : Nat)
    (hacc : acc = O_RDONLY ∨ acc = O_WRONLY ∨ acc = O_RDWR)
    (hfresh : P { b_alloc with mode := needed_bits acc ||| ((deref u f).mode &&& M_USER),
                               size := 512, buffer := some (malloc 512) })
    (hcopy : ∀ fb, (deref u f).buf = some fb →
      P { b_copy fb with mode := needed_bits acc ||| ((deref u f).mode &&& M_USER) })
    (hgrant : (deref u f).mode &&& needed_bits acc = needed_bits acc)
    (r : Int × Option buf_t × uxfs_t) (e : f_open u f acc now = some r) :
    ∃ h w, frame u w ∧ P h ∧
      r = (0, some h,
        { store w f { deref w f with used := (deref w f).used + 1 } with
          n_open := w.n_open + 1 }) := by
  have hex : ∀ (b1 : buf_t) (x : buf_t × uxfs_t), P b1 →
      (c_putc true u (some (cs "READ")) (some (deref u f).path) R_MULTI none (some b1)
        now).map (fun r => (r.2.2.1.getD b1, r.2.2.2)) = some x → frame u x.2 ∧ P x.1 := by
    intro b1 x hb hx
    rw [Option.map_eq_some'] at hx
    obtain ⟨y, hy, rfl⟩ := hx
    obtain ⟨b2, e2, hP⟩ := c_putc_reply P hc ha true
      u (some (cs "READ")) (some (deref u f).path) R_MULTI none b1 now hb y hy
    refine ⟨(c_putc_step true u _ _ _ _ _ now y hy).1, ?_⟩
    show P (y.2.2.1.getD b1)
    rw [e2]
    exact hP
  have hid : ∀ (b1 : buf_t) (x : buf_t × uxfs_t), P b1 → some (b1, u) = some x →
      frame u x.2 ∧ P x.1 := by
    intro b1 x hb hx
    cases hx
    exact ⟨frame_refl u, hb⟩
  have n0 : needed_bits O_RDONLY = 1 := by decide
  have n1 : needed_bits O_WRONLY = 2 := by decide
  have n2 : needed_bits O_RDWR = 3 := by decide
  have hu8 : (deref u f).mode &&& M_USER = 0 ∨ (deref u f).mode &&& M_USER = 8 :=
    land_eight _
  have k1 : ¬ (acc &&& O_ACCMODE = O_RDWR ∧
      (deref u f).mode &&& (M_WRITE ||| M_READ) ≠ (M_WRITE ||| M_READ)) := by
    rcases hacc with ha | ha | ha
    all_goals subst ha
    · intro h; exact absurd h.1 (by decide)
    · intro h; exact absurd h.1 (by decide)
    · intro h; exact h.2 hgrant
  have k2 : ¬ (acc &&& O_ACCMODE = O_WRONLY ∧ (deref u f).mode &&& M_WRITE = 0) := by
    rcases hacc with ha | ha | ha
    all_goals subst ha
    · intro h; exact absurd h.1 (by decide)
    · intro h; have := h.2; simp only [n1, M_WRITE] at this hgrant; omega
    · intro h; exact absurd h.1 (by decide)
  have k3 : ¬ (acc &&& O_ACCMODE = O_RDONLY ∧ (deref u f).mode &&& M_READ = 0) := by
    rcases hacc with ha | ha | ha
    all_goals subst ha
    · intro h; have := h.2; simp only [n0, M_READ] at this hgrant; omega
    · intro h; exact absurd h.1 (by decide)
    · intro h; exact absurd h.1 (by decide)
  unfold f_open at e
  simp only [] at e
  rw [if_neg k1, if_neg k2, if_neg k3, Option.map_eq_some'] at e
  obtain ⟨x, hx, rfl⟩ := e
  suffices hs : frame u x.2 ∧ P x.1 from ⟨x.1, x.2, hs.1, hs.2, rfl⟩
  rcases hacc with ha | ha | ha
  all_goals subst ha
  all_goals simp only [n0, n1, n2] at hgrant hfresh hcopy
  all_goals rcases hu8 with hu | hu
  all_goals cases hbuf : (deref u f).buf
  all_goals simp only [hu, hbuf] at hfresh hcopy hx
  all_goals simp +decide only [] at hx
  all_goals first
    | exact hex _ x hfresh hx
    | exact hex _ x (hcopy _ rfl) hx
    | exact hid _ x hfresh hx
    | exact hid _ x (hcopy _ rfl) hx

theorem f_open_denied (u : uxfs_t) (f acc now : Nat)
    (hacc : acc = O_RDONLY ∨ acc = O_WRONLY ∨ acc = O_RDWR)
    (hlack : (deref u f).mode &&& needed_bits acc ≠ needed_bits acc) :
    f_open u f acc now = some (-EACCES, none, u) := by
  have n0 : needed_bits O_RDONLY = 1 := by decide
  have n1 : needed_bits O_WRONLY = 2 := by decide
  have n2 : needed_bits O_RDWR = 3 := by decide
  have o21 : (2 ||| 1 : Nat) = 3 := by decide
  obtain ⟨c1, c2, c3⟩ | ⟨c1, c2, c3⟩ | ⟨c1, c2, c3⟩ | ⟨c1, c2, c3⟩ :=
    land_cases (deref u f).mode
  all_goals rcases hacc with ha | ha | ha
  all_goals subst ha
  all_goals simp only [n0, n1, n2, c1, c2, c3] at hlack
  all_goals first | exact absurd rfl hlack | skip
  all_goals unfold f_open
  all_goals simp +decide only [M_READ, M_WRITE, o21, c1, c2, c3, false_and, true_and, if_false,
    if_true, ne_eq, not_false_eq_true, not_true_eq_false]

/-- The contract of `f_open` for an entry (a valid pointer) and an access mode among
read-only, write-only and read-write.  When the entry's mode lacks a bit the request
needs, `f_open` returns `-EACCES`, hands out no handle and leaves the state, the
open count included, as it is.  Otherwise every result it returns is 0 with the
open count one higher and the handle's mode the requested READ/WRITE bits together
with the USER bit of the entry; and it returns whenever no `READ` exchange takes
place, that is unless the open is read-only and the entry lacks USER. -/
theorem f_open_contract (u : uxfs_t) (f acc now : Nat) (hf : f < u.heap.length)
    (hacc : acc = O_RDONLY ∨ acc = O_WRONLY ∨ acc = O_RDWR) :
    ((deref u f).mode &&& needed_bits acc ≠ needed_bits acc →
      f_open u f acc now = some (-EACCES, none, u)) ∧
    ((deref u f).mode &&& needed_bits acc = needed_bits acc →
      (∀ r, f_open u f acc now = some r →
        ∃ h v, r = (0, some h, v) ∧ (deref v f).used = (deref u f).used + 1 ∧
          h.mode = needed_bits acc ||| ((deref u f).mode &&& M_USER)) ∧
      (acc ≠ O_RDONLY ∨ (deref u f).mode &&& M_USER ≠ 0 →
        ∃ r, f_open u f acc now = some r)) := by
  -- the state left by the open: the record of `f` with one more user
  have key : ∀ w : uxfs_t, frame u w →
      (deref { store w f { deref w f with used := (deref w f).used + 1 } with
        n_open := w.n_open + 1 } f).used = (deref u f).used + 1 := by
    intro w hw
    have e : deref { store w f { deref w f with used := (deref w f).used + 1 } with
        n_open := w.n_open + 1 } f = { deref w f with used := (deref w f).used + 1 } := by
      exact (deref_congr (store w f { deref w f with used := (deref w f).used + 1 }) _ rfl
        f).trans (deref_store_same _ _ _ (by have := hw.1; omega))
    rw [e]
    show (deref w f).used + 1 = _
    rw [(hw.2.1 f hf).2.2.2]
  refine ⟨f_open_denied u f acc now hacc, fun hg => ⟨?_, ?_⟩⟩
  · intro r e
    obtain ⟨h, w, hw, hP, rfl⟩ := f_open_handle
      (fun b => b.mode = needed_bits acc ||| ((deref u f).mode &&& M_USER))
      (fun b h => (b_clear_mode b).trans h) (fun b l h => (b_append_line_mode b l).trans h)
      u f acc now hacc rfl (fun _ _ => rfl) hg r e
    exact ⟨h, _, rfl, key w hw, hP⟩
  · intro hno
    have ea : acc &&& O_ACCMODE = acc := by
      rcases hacc with ha | ha | ha <;> subst ha <;> decide
    have k : ¬ (acc = O_RDONLY ∧ (deref u f).mode &&& M_USER = 0) := by
      rintro ⟨h1, h2⟩
      rcases hno with h | h
      · exact h h1
      · exact h h2
    unfold f_open
    simp only [ea]
    rw [if_neg k]
    repeat' split
    all_goals exact ⟨_, rfl⟩

theorem f_open_contract_witness :
    ∃ h v, f_open table_mixed 1 O_RDWR 0 = some (0, some h, v) ∧
      (deref v 1).used = (deref table_mixed 1).used + 1 ∧
      h.mode = needed_bits O_RDWR ||| ((deref table_mixed 1).mode &&& M_USER) := by
  have c := (f_open_contract table_mixed 1 O_RDWR 0 (by decide) (by decide)).2 (by decide)
  obtain ⟨r, hr⟩ := c.2 (Or.inl (by decide))
  obtain ⟨h, v, rfl, a, b⟩ := c.1 r hr
  exact ⟨h, v, hr, a, b⟩

/-- C15 (divergence): the entry `/s` of `table_mixed_dir` has READ and WRITE and no USER, so
a read-only open is granted and, by the claim, `f_open` returns 0.  `f_open` locks the
mutex and sends the `READ` request; the controller answers `+OK;DIR`, an empty data
block and the directive line `/x r`; `add_file` for `/x` locks the same mutex, which
is not recursive, and `f_open` does not return.  Outside the lock the same answer is
taken: `c_putc` returns 0 and `/x` is in the table. -/
theorem f_open_read_exchange_relocks :
    (deref table_mixed_dir 3).path = cs "/s" ∧
    (deref table_mixed_dir 3).mode &&& needed_bits O_RDONLY = needed_bits O_RDONLY ∧
    f_open table_mixed_dir 3 O_RDONLY 0 = none ∧
    (c_putc false table_mixed_dir (some (cs "READ")) (some (cs "/s")) R_MULTI none
      (some (fresh_handle M_READ)) 0).map
        (fun r => (r.1, decide (present r.2.2.2 (cs "/x")))) = some (0, true) := by
  decide

theorem realloc_length (p : Option (List Nat)) (n : Nat) : (realloc p n).length = n := by
  unfold realloc malloc
  simp only [List.length_append, List.length_take, List.length_replicate]
  omega

theorem handle_ok_iff (b : buf_t) :
    handle_ok b ↔ ∃ m, b.buffer = some m ∧ m.length = b.size ∧ b.fin < b.size := by
  unfold handle_ok
  cases hb : b.buffer with
  | none => simp
  | some m => simp

theorem b_clear_handle_ok (b : buf_t) (h : handle_ok b) : handle_ok (b_clear b) := by
  obtain ⟨m, h1, h2, h3⟩ := (handle_ok_iff b).1 h
  cases b with
  | mk mode here fin size buffer =>
    simp only at h1 h2 h3
    subst h1
    exact (handle_ok_iff _).2 ⟨m, rfl, h2, by show 0 < size; omega⟩

theorem b_append_line_handle_ok (b : buf_t) (l : List Nat) (h : handle_ok b) :
    handle_ok (b_append_line b l) := by
  obtain ⟨m, h1, h2, h3⟩ := (handle_ok_iff b).1 h
  rw [handle_ok_iff]
  by_cases hg : b.fin + l.length + MIN_FREE > b.size
  · obtain ⟨r1, r2⟩ := realloc_grow m (b.size + (l.length + MIN_FREE + LINE_MAX)) (by omega)
    have hbl : b_append_line b l =
        { b with size := b.size + (l.length + MIN_FREE + LINE_MAX),
                 buffer := some (mem_write (realloc (some m)
                    (b.size + (l.length + MIN_FREE + LINE_MAX))) b.fin (l ++ [LF, 0])),
                 fin := b.fin + l.length + 1 } := by
      unfold b_append_line
      simp [hg, h1]
    rw [hbl]
    refine ⟨_, rfl, ?_, ?_⟩
    · rw [mem_write_length _ _ _ (by rw [r2]; simp [MIN_FREE]; omega), r2]
    · show b.fin + l.length + 1 < b.size + (l.length + MIN_FREE + LINE_MAX)
      simp only [MIN_FREE, LINE_MAX]
      omega
  · have hbl : b_append_line b l =
        { b with buffer := some (mem_write m b.fin (l ++ [LF, 0])),
                 fin := b.fin + l.length + 1 } := by
      unfold b_append_line
      simp [hg, h1]
    rw [hbl]
    simp only [MIN_FREE] at hg
    refine ⟨_, rfl, ?_, ?_⟩
    · rw [mem_write_length _ _ _ (by simp; omega)]
      exact h2
    · show b.fin + l.length + 1 < b.size
      omega

theorem do_write_handle_ok (b : buf_t) (data : List Nat) (offset : Nat)
    (r : Int × Option Int × buf_t) (hb : handle_ok b) (h : do_write b data offset = some r) :
    handle_ok r.2.2 ∧ (0 ≤ r.1 → offset + data.length ≤ r.2.2.size) := by
  by_cases hmode : b.mode &&& M_WRITE = 0
  · unfold do_write at h
    rw [if_pos hmode] at h
    simp only [Option.some.injEq] at h
    rw [← h]
    exact ⟨hb, fun h0 => absurd h0 (show ¬ (0 : Int) ≤ -1 by decide)⟩
  · obtain ⟨m, h1, h2, h3⟩ := (handle_ok_iff b).1 hb
    have hr : b.size < offset + data.length + 4 →
        b.size + (offset + data.length + 4 + 2048) ≤ INT_MAX := by
      intro hg
      by_contra hc
      unfold do_write at h
      rw [if_neg hmode] at h
      simp only at h
      rw [if_pos ⟨hg, by omega⟩] at h
      exact absurd h (by simp)
    obtain ⟨h2', m2, w1, _, _, w4, w5, w6, _, w8, _, _⟩ :=
      do_write_spec b m data offset hmode h1 h2 hr
    rw [w1] at h
    simp only [Option.some.injEq] at h
    rw [← h]
    refine ⟨(handle_ok_iff _).2 ⟨m2, w5, w6, ?_⟩, fun _ => by show _ ≤ h2'.size; omega⟩
    show h2'.fin < h2'.size
    rw [w4]
    omega

theorem do_writes_handle_ok (ws : List (List Nat × Nat)) (b h2 : buf_t) (hb : handle_ok b)
    (h : do_writes b ws = some h2) :
    handle_ok h2 ∧
    ∀ pre data offset post, ws = pre ++ (data, offset) :: post →
      ∃ c r, do_writes b pre = some c ∧ do_write c data offset = some r ∧
        handle_ok r.2.2 ∧ (0 ≤ r.1 → offset + data.length ≤ r.2.2.size) := by
  induction ws generalizing b with
  | nil =>
    simp only [do_writes, Option.some.injEq] at h
    subst h
    refine ⟨hb, ?_⟩
    intro pre data offset post he
    exact absurd he (by simp)
  | cons w rest ih =>
    simp only [do_writes] at h
    cases hw : do_write b w.1 w.2 with
    | none => rw [hw] at h; simp at h
    | some r =>
      rw [hw] at h
      simp only at h
      have hr := do_write_handle_ok b w.1 w.2 r hb hw
      obtain ⟨i1, i2⟩ := ih r.2.2 hr.1 h
      refine ⟨i1, ?_⟩
      intro pre data offset post he
      cases pre with
      | nil =>
        simp only [List.nil_append, List.cons.injEq] at he
        obtain ⟨e1, _⟩ := he
        subst e1
        exact ⟨b, r, rfl, hw, hr⟩
      | cons p pre2 =>
        simp only [List.cons_append, List.cons.injEq] at he
        obtain ⟨e1, e2⟩ := he
        subst e1
        obtain ⟨c, r2, j1, j2⟩ := i2 pre2 data offset post e2
        refine ⟨c, r2, ?_, j2⟩
        simp only [do_writes, hw]
        exact j1

/-- C16: for every handle that a successful `f_open` with read-only, write-only or
read-write access hands out (a retained buffer of the entry having its `end` below
its `size`), and after every sequence of `do_write` calls on it that stay in the
range of `int`: the buffer is allocated with `size` bytes and `end < size`, so
`end ≤ size` and the byte `buffer[end]` that `do_release` stores is in bounds;
and every write of the sequence that is carried out lands inside the `size` bytes
allocated after it. -/
theorem handle_stays_in_bounds (u : uxfs_t) (f acc now : Nat) (h : buf_t) (v : uxfs_t)
    (hacc : acc = O_RDONLY ∨ acc = O_WRONLY ∨ acc = O_RDWR)
    (hret : ∀ fb, (deref u f).buf = some fb → fb.fin < fb.size)
    (hopen : f_open u f acc now = some (0, some h, v)) :
    (∃ m, h.buffer = some m ∧ m.length = h.size ∧ h.fin < h.size) ∧
    ∀ (ws : List (List Nat × Nat)) (h2 : buf_t), do_writes h ws = some h2 →
      (∃ m2, h2.buffer = some m2 ∧ m2.length = h2.size ∧ h2.fin ≤ h2.size ∧
        h2.fin < m2.length) ∧
      ∀ pre data offset post, ws = pre ++ (data, offset) :: post →
        ∃ c r m3, do_writes h pre = some c ∧ do_write c data offset = some r ∧
          r.2.2.buffer = some m3 ∧ (0 ≤ r.1 → offset + data.length ≤ m3.length) := by
  have hg : (deref u f).mode &&& needed_bits acc = needed_bits acc := by
    by_contra hl
    rw [f_open_denied u f acc now hacc hl] at hopen
    simp only [Option.some.injEq, Prod.mk.injEq] at hopen
    exact absurd hopen.1 (by decide)
  obtain ⟨h1, w, _, hP, e⟩ := f_open_handle handle_ok b_clear_handle_ok b_append_line_handle_ok
    u f acc now hacc ((handle_ok_iff _).2 ⟨malloc 512, rfl, List.length_replicate 512 0,
      show (0 : Nat) < 512 by decide⟩)
    (fun fb hfb => (handle_ok_iff _).2 ⟨realloc fb.buffer fb.size, rfl, realloc_length _ _,
      hret fb hfb⟩) hg _ hopen
  simp only [Prod.mk.injEq, Option.some.injEq, true_and] at e
  have hh : handle_ok h := by rw [e.1]; exact hP
  refine ⟨(handle_ok_iff h).1 hh, ?_⟩
  intro ws h2 hw
  obtain ⟨a1, a2⟩ := do_writes_handle_ok ws h h2 hh hw
  obtain ⟨m2, b1, b2, b3⟩ := (handle_ok_iff h2).1 a1
  refine ⟨⟨m2, b1, b2, by omega, by omega⟩, ?_⟩
  intro pre data offset post he
  obtain ⟨c, r, c1, c2, c3, c4⟩ := a2 pre data offset post he
  obtain ⟨m3, d1, d2, _⟩ := (handle_ok_iff r.2.2).1 c3
  exact ⟨c, r, m3, c1, c2, d1, fun h0 => by rw [d2]; exact c4 h0⟩

theorem handle_stays_in_bounds_witness :
    f_open table_user 1 O_RDWR 0 = some (0, some user_handle, user_opened) ∧
    (∃ m, user_handle.buffer = some m ∧ m.length = user_handle.size ∧
      user_handle.fin < user_handle.size) ∧
    ∃ h2, do_writes user_handle [(cs "hello", 2)] = some h2 ∧
      ∃ m2, h2.buffer = some m2 ∧ m2.length = h2.size ∧ h2.fin ≤ h2.size ∧
        h2.fin < m2.length := by
  have hw := handle_stays_in_bounds table_user 1 O_RDWR 0 user_handle user_opened (by decide)
    (by
      intro fb hfb
      have e : (deref table_user 1).buf =
          some { mode := 10, here := 0, fin := 1, size := 4, buffer := some [88, 0, 0, 0] } := by
        decide
      rw [e] at hfb
      cases hfb
      decide)
    (by decide)
  have hd : do_writes user_handle [(cs "hello", 2)] =
      some ((do_writes user_handle [(cs "hello", 2)]).getD b_alloc) := by decide!
  exact ⟨by decide, hw.1, _, hd, (hw.2 _ _ hd).1⟩

theorem or_read_land (x c : Nat) (hc : c &&& 1 = 0) : (x ||| 1) &&& c = x &&& c := by
  rw [Nat.and_comm, Nat.and_or_distrib_left, hc, Nat.or_zero, Nat.and_comm]

theorem fix_mode_spec (mode : Nat) :
    fix_mode mode =
      if (mode &&& M_READ = 0 ∧ mode &&& M_WRITE = 0) ∨ mode &&& M_DIR ≠ 0 then mode ||| M_READ
      else mode := by
  have h4 : (mode ||| 1) &&& 4 = mode &&& 4 := or_read_land mode 4 (by decide)
  have h11 : (mode ||| 1) ||| 1 = mode ||| 1 := by
    rw [Nat.or_assoc, Nat.or_self]
  have h3 : mode &&& 3 = 0 ↔ (mode &&& 1 = 0 ∧ mode &&& 2 = 0) := by
    rcases land_cases mode with ⟨a, b, c⟩ | ⟨a, b, c⟩ | ⟨a, b, c⟩ | ⟨a, b, c⟩ <;>
      rw [a, b, c] <;> decide
  have e : (2 ||| 1 : Nat) = 3 := by decide
  unfold fix_mode
  simp only [M_READ, M_WRITE, M_DIR, e]
  by_cases c1 : mode &&& 1 = 0 ∧ mode &&& 2 = 0
  · rw [if_pos (h3.2 c1), if_pos (Or.inl c1), h4, h11]
    split <;> rfl
  · rw [if_neg (fun h => c1 (h3.1 h))]
    by_cases c2 : mode &&& 4 = 0
    · rw [if_neg (fun h => h c2), if_neg (by rintro (h | h); exact c1 h; exact h c2)]
    · rw [if_pos c2, if_pos (Or.inr c2)]

/-- C20: for a sorted table of valid pointers and a path present in it (as a path held
in `file_t.path` it has fewer than `FILENAME_MAX` bytes), `add_file(path, mode)`
returns the position of the entry, sets the entry's mode to the normalised mode, which
is the mode passed with READ added when DIR is set or neither READ nor WRITE is, and
its deleted flag to 0, and changes nothing else: the pointer array with its length
and order, the inode counter, the entry's path, inode, mtime, open count and retained
buffer, and every other record stay as they are. -/
theorem add_file_updates_in_place (u : uxfs_t) (path : List Nat) (mode now p : Nat)
    (hok : table_ok u) (hp : entry_of u path p) (hlen : path.length < FILENAME_MAX) :
    ∃ (k : Nat) (v : uxfs_t), add_file false u path mode now = some ((k : Int), v) ∧
      k < u.dir.length ∧ u.dir.getD k u.heap.length = p ∧
      v.dir = u.dir ∧ v.heap.length = u.heap.length ∧ v.inode_count = u.inode_count ∧
      (deref v p).mode =
        (if (mode &&& M_READ = 0 ∧ mode &&& M_WRITE = 0) ∨ mode &&& M_DIR ≠ 0
          then mode ||| M_READ else mode) ∧
      (deref v p).deleted = 0 ∧
      (deref v p).path = (deref u p).path ∧ (deref v p).inode = (deref u p).inode ∧
      (deref v p).mtime = (deref u p).mtime ∧ (deref v p).used = (deref u p).used ∧
      (deref v p).buf = (deref u p).buf ∧
      ∀ q, q ≠ p → deref v q = deref u q := by
  obtain ⟨s1, s2, _, s4⟩ := search_found_entry u hok.2 path p hp
  have e := add_file_found u path mode now (by omega) s1
  rw [s2] at e
  have hd : deref (store u p { deref u p with mode := fix_mode mode, deleted := 0 }) p =
      { deref u p with mode := fix_mode mode, deleted := 0 } :=
    deref_store_same _ _ _ (hok.1 p hp.1)
  refine ⟨(d_search_file u path).2, _, e, s4, s2, rfl, store_heap_length _ _ _, rfl, ?_, ?_, ?_,
    ?_, ?_, ?_, ?_, fun q hq => deref_store_other _ _ _ _ hq⟩
  all_goals rw [hd]
  exact fix_mode_spec mode

theorem add_file_updates_in_place_witness :
    ∃ (k : Nat) (v : uxfs_t), add_file false table_mixed (cs "/a") M_DIR 7 = some ((k : Int), v) ∧
      k < table_mixed.dir.length ∧ table_mixed.dir.getD k table_mixed.heap.length = 1 ∧
      v.dir = table_mixed.dir ∧ v.heap.length = table_mixed.heap.length ∧
      v.inode_count = table_mixed.inode_count ∧
      (deref v 1).mode =
        (if (M_DIR &&& M_READ = 0 ∧ M_DIR &&& M_WRITE = 0) ∨ M_DIR &&& M_DIR ≠ 0
          then M_DIR ||| M_READ else M_DIR) ∧
      (deref v 1).deleted = 0 ∧
      (deref v 1).path = (deref table_mixed 1).path ∧
      (deref v 1).inode = (deref table_mixed 1).inode ∧
      (deref v 1).mtime = (deref table_mixed 1).mtime ∧
      (deref v 1).used = (deref table_mixed 1).used ∧
      (deref v 1).buf = (deref table_mixed 1).buf ∧
      ∀ q, q ≠ 1 → deref v q = deref table_mixed q :=
  add_file_updates_in_place table_mixed (cs "/a") M_DIR 7 1 (by decide) (by decide) (by decide)

theorem add_file_inode_inv (held : Bool) (u : uxfs_t) (path : List Nat) (mode now : Nat)
    (r : Int × uxfs_t) (hok : table_ok u)
    (hc : u.inode_count = u.heap.length + 1)
    (hi : ∀ p, p < u.heap.length → (deref u p).inode = p + 2)
    (e : add_file held u path mode now = some r) :
    table_ok r.2 ∧ r.2.inode_count = r.2.heap.length + 1 ∧
    ∀ p, p < r.2.heap.length → (deref r.2 p).inode = p + 2 := by
  refine ⟨(add_file_step held u path mode now r e).2 hok, ?_⟩
  have hfr := add_file_frame held u path mode now r e
  rcases add_file_some held u path mode now r e with ⟨_, rfl⟩ | ⟨_, hl, hf, rfl⟩ | ⟨_, hl, hf, rfl⟩
  · exact ⟨hc, hi⟩
  · have e1 : (store u (u.dir.getD (d_search_file u path).2 u.heap.length)
        { deref u (u.dir.getD (d_search_file u path).2 u.heap.length) with
          mode := fix_mode mode, deleted := 0 }).heap.length = u.heap.length :=
      store_heap_length _ _ _
    refine ⟨by show u.inode_count = _; rw [e1]; exact hc, ?_⟩
    intro p hp
    simp only [] at hp
    rw [e1] at hp
    rw [(hfr.2.1 p hp).2.2.1]
    exact hi p hp
  · refine ⟨by simp [hc], ?_⟩
    intro p hp
    simp only [List.length_append, List.length_singleton] at hp
    by_cases hp2 : p < u.heap.length
    · rw [(hfr.2.1 p hp2).2.2.1]
      exact hi p hp2
    · have hp3 : p = u.heap.length := by omega
      have hd := deref_append u (new_file u path mode now)
        (u.dir.take (ins_pos u path) ++ [u.heap.length] ++ u.dir.drop (ins_pos u path))
        (u.inode_count + 1) p
      rw [if_neg hp2, if_pos hp3] at hd
      simp only []
      rw [hd, hp3]
      show u.inode_count + 1 = _
      omega

theorem add_files_inode_inv (calls : List (List Nat × Nat × Nat)) (u v : uxfs_t)
    (hok : table_ok u) (hc : u.inode_count = u.heap.length + 1)
    (hi : ∀ p, p < u.heap.length → (deref u p).inode = p + 2)
    (e : add_files u calls = some v) :
    table_ok v ∧ v.inode_count = v.heap.length + 1 ∧
    ∀ p, p < v.heap.length → (deref v p).inode = p + 2 := by
  induction calls generalizing u with
  | nil =>
    simp only [add_files, Option.some.injEq] at e
    subst e
    exact ⟨hok, hc, hi⟩
  | cons c rest ih =>
    simp only [add_files] at e
    cases hr : add_file false u c.1 c.2.1 c.2.2 with
    | none => rw [hr] at e; simp at e
    | some r =>
      rw [hr] at e
      simp only at e
      obtain ⟨a1, a2, a3⟩ := add_file_inode_inv false u c.1 c.2.1 c.2.2 r hok hc hi hr
      exact ih r.2 a1 a2 a3 e

theorem add_files_returns (calls : List (List Nat × Nat × Nat)) (u : uxfs_t)
    (hlen : ∀ c ∈ calls, c.1.length ≠ FILENAME_MAX) : ∃ v, add_files u calls = some v := by
  induction calls generalizing u with
  | nil => exact ⟨u, rfl⟩
  | cons c rest ih =>
    obtain ⟨r, hr⟩ := add_file_returns u c.1 c.2.1 c.2.2 (hlen c (List.mem_cons_self _ _))
    obtain ⟨v, hv⟩ := ih r.2 (fun d hd => hlen d (List.mem_cons_of_mem _ hd))
    refine ⟨v, ?_⟩
    simp only [add_files, hr]
    exact hv

theorem uxfs_init_inv (inp : List Nat) :
    table_ok (uxfs_init inp) ∧ (uxfs_init inp).inode_count = (uxfs_init inp).heap.length + 1 ∧
    ∀ p, p < (uxfs_init inp).heap.length → (deref (uxfs_init inp) p).inode = p + 2 := by
  refine ⟨⟨?_, ?_⟩, rfl, ?_⟩
  · intro p hp
    exact absurd hp (by simp [uxfs_init])
  · intro i hi
    exact absurd hi (by simp [uxfs_init])
  · intro p hp
    exact absurd hp (by simp [uxfs_init])

/-- C19: take any sequence of `add_file` calls on the empty table with
`inode_count = 1` (integer overflow left aside), no call with a path of exactly
`FILENAME_MAX` bytes, the length at which `strcpy` overruns `file_t.path`.  Every call
returns; let `v` be the table after them.  Every entry of `v` has an inode above 0 and
no two entries share one.  A further `add_file`, again for a path not of
`FILENAME_MAX` bytes, returns as well: for a path present in `v` it changes no inode
and leaves the counter; for a path not present (of fewer than `FILENAME_MAX` bytes) it
advances the counter by one and the new entry gets an inode greater than every inode
assigned before. -/
theorem inodes_positive_and_unique (inp : List Nat) (calls : List (List Nat × Nat × Nat))
    (hlen : ∀ c ∈ calls, c.1.length ≠ FILENAME_MAX) :
    ∃ v, add_files (uxfs_init inp) calls = some v ∧
      (∀ i, i < v.dir.length → 0 < (file_at v i).inode) ∧
      (∀ i j, i < v.dir.length → j < v.dir.length → i ≠ j →
        (file_at v i).inode ≠ (file_at v j).inode) ∧
      ∀ path mode now, path.length ≠ FILENAME_MAX →
        ∃ r, add_file false v path mode now = some r ∧
          (present v path →
            r.2.inode_count = v.inode_count ∧
            ∀ p, (deref r.2 p).inode = (deref v p).inode) ∧
          (¬ present v path → path.length < FILENAME_MAX →
            r.2.inode_count = v.inode_count + 1 ∧
            ∃ q, entry_of r.2 path q ∧
              ∀ p, p < v.heap.length → (deref v p).inode < (deref r.2 q).inode) := by
  obtain ⟨v, hv⟩ := add_files_returns calls (uxfs_init inp) hlen
  obtain ⟨hok, hc, hi⟩ := add_files_inode_inv calls (uxfs_init inp) v (uxfs_init_inv inp).1
    (uxfs_init_inv inp).2.1 (uxfs_init_inv inp).2.2 hv
  have hat : ∀ i (h : i < v.dir.length), (file_at v i).inode = v.dir.get ⟨i, h⟩ + 2 := by
    intro i h
    rw [(file_at_eq_deref v i h).1]
    exact hi _ (hok.1 _ (List.getElem_mem _))
  refine ⟨v, hv, fun i h => by rw [hat i h]; omega, ?_, ?_⟩
  · intro i j h1 h2 hne he
    rw [hat i h1, hat j h2] at he
    have hd : v.dir.get ⟨i, h1⟩ = v.dir.get ⟨j, h2⟩ := by omega
    apply hne
    apply sorted_index_unique v hok.2 i j h1 h2
    rw [(file_at_eq_deref v i h1).1, (file_at_eq_deref v j h2).1]
    show (deref v (v.dir.get ⟨i, h1⟩)).path = (deref v (v.dir.get ⟨j, h2⟩)).path
    rw [hd]
  · intro path mode now hne
    obtain ⟨r, hr⟩ := add_file_returns v path mode now hne
    refine ⟨r, hr, ?_, ?_⟩
    · intro hpr
      by_cases hl : path.length > FILENAME_MAX
      · rw [add_file_long false v path mode now hl] at hr
        cases hr
        exact ⟨rfl, fun _ => rfl⟩
      · have hf := (search_found_iff_present v hok.2 path).2 hpr
        rw [add_file_found v path mode now hl hf] at hr
        cases hr
        refine ⟨rfl, ?_⟩
        intro p
        show (deref (store _ _ _) p).inode = _
        rw [deref_store]
        split
        · next h => rw [h.1]
        · rfl
    · intro hnp hl
      have hf : (d_search_file v path).1 ≠ 0 := fun h =>
        hnp ((search_found_iff_present v hok.2 path).1 h)
      obtain ⟨q, _, a2, _⟩ := add_file_entry false v path mode now r hok.1 hok.2 (by omega) hr
      obtain ⟨b1, b2, b3⟩ := add_file_inode_inv false v path mode now r hok hc hi hr
      have hfr := add_file_frame false v path mode now r hr
      have e := add_file_new v path mode now hl hf
      rw [hr] at e
      simp only [Option.some.injEq] at e
      have e2 : r.2.inode_count = v.inode_count + 1 := by rw [e]
      have e1 : r.2.heap.length = v.heap.length + 1 := by
        rw [e]; simp
      refine ⟨e2, q, a2, ?_⟩
      intro p hp
      have hq : q < r.2.heap.length := b1.1 q a2.1
      have hqn : ¬ q < v.heap.length := by
        intro hq2
        apply hnp
        refine ⟨q, ?_, ?_⟩
        · have hm := a2.1
          rw [e] at hm
          simp only [List.mem_append, List.mem_singleton] at hm
          rcases hm with (hm | hm) | hm
          · exact List.mem_of_mem_take hm
          · omega
          · exact List.mem_of_mem_drop hm
        · rw [← (hfr.2.1 q hq2).1]; exact a2.2
      rw [b3 q hq, hi p hp]
      omega

theorem inodes_positive_and_unique_witness :
    (∀ c ∈ three_calls, c.1.length ≠ FILENAME_MAX) ∧
    ∃ v, add_files (uxfs_init []) three_calls = some v ∧
      (∀ i, i < v.dir.length → 0 < (file_at v i).inode) ∧
      (∀ i j, i < v.dir.length → j < v.dir.length → i ≠ j →
        (file_at v i).inode ≠ (file_at v j).inode) ∧
      ∀ path mode now, path.length ≠ FILENAME_MAX →
        ∃ r, add_file false v path mode now = some r ∧
          (present v path →
            r.2.inode_count = v.inode_count ∧
            ∀ p, (deref r.2 p).inode = (deref v p).inode) ∧
          (¬ present v path → path.length < FILENAME_MAX →
            r.2.inode_count = v.inode_count + 1 ∧
            ∃ q, entry_of r.2 path q ∧
              ∀ p, p < v.heap.length → (deref v p).inode < (deref r.2 q).inode) :=
  ⟨by decide, inodes_positive_and_unique [] three_calls (by decide)⟩

theorem c_gets_inv (I : uxfs_t → Prop) (hI : stable I) (u : uxfs_t) (size : Nat) (h : I u) :
    I (c_gets u size).2 :=
  hI.1 _ _ (c_gets_tbl u size).1 (c_gets_tbl u size).2.1 h

theorem c_recv_data_inv (I : uxfs_t → Prop) (hI : stable I) (fuel : Nat) (u : uxfs_t)
    (r : buf_t) (h : I u) : I (c_recv_data fuel u r).2 := by
  induction fuel generalizing u r with
  | zero => exact h
  | succ n ih =>
    unfold c_recv_data
    have hg := c_gets_inv I hI u LINE_MAX h
    split
    · next u1 e => rw [e] at hg; exact hg
    · next rbuf u1 e =>
      rw [e] at hg
      split
      · exact hg
      · split
        · exact ih _ _ hg
        · exact ih _ _ hg

theorem c_dir_data_inv (I : uxfs_t → Prop) (hI : stable I) (held : Bool) (now fuel : Nat)
    (u v : uxfs_t) (h : I u) (e : c_dir_data held now fuel u = some v) : I v := by
  induction fuel generalizing u with
  | zero =>
    unfold c_dir_data at e
    cases e
    exact h
  | succ n ih =>
    unfold c_dir_data at e
    have hg := c_gets_inv I hI u LINE_MAX h
    split at e
    · next u1 e1 => rw [e1] at hg; cases e; exact hg
    · next data u1 e1 =>
      rw [e1] at hg
      split at e
      · cases e; exact hg
      · split at e
        · exact absurd e (by simp)
        · next r hr => exact ih _ (hI.2 held _ _ _ r hg hr) e

theorem c_directives_inv (I : uxfs_t → Prop) (hI : stable I) (held : Bool) (now fuel : Nat)
    (u : uxfs_t) (p : List Nat) (rc : Int) (r : Int × uxfs_t) (h : I u)
    (e : c_directives held now fuel u p rc = some r) : I r.2 := by
  induction fuel generalizing u p with
  | zero =>
    unfold c_directives at e
    cases e
    exact h
  | succ n ih =>
    unfold c_directives at e
    simp only at e
    split at e
    · cases e; exact h
    · split at e
      · cases e; exact hI.1 u _ rfl rfl h
      · split at e
        · split at e
          · exact absurd e (by simp)
          · next v hv => exact ih _ _ (c_dir_data_inv I hI held now _ u v h hv) e
        · cases e; exact hI.1 u _ rfl rfl h

theorem inv_ite_snd {α : Type} (I : uxfs_t → Prop) (c : Prop) [Decidable c] (x y : uxfs_t)
    (a b : α) (hx : I x) (hy : I y) : I (if c then (a, x) else (b, y)).2 := by
  split <;> assumption

theorem c_response_inv (I : uxfs_t → Prop) (hI : stable I) (held : Bool) (u : uxfs_t)
    (flags : Nat) (reply : Option buf_t) (now : Nat) (r : Int × Option buf_t × uxfs_t)
    (h : I u) (e : c_response held u flags reply now = some r) : I r.2.2 := by
  unfold c_response at e
  have hg := c_gets_inv I hI u LINE_MAX h
  split at e
  · next u1 e1 => rw [e1] at hg; cases e; exact hg
  · next line u1 e1 =>
    rw [e1] at hg
    simp only at e
    split at e
    · cases e; exact hI.1 u1 _ rfl rfl hg
    · rw [Option.map_eq_some'] at e
      obtain ⟨dr, hdr, rfl⟩ := e
      refine c_directives_inv I hI held _ _ _ _ _ dr ?_ hdr
      cases reply with
      | none =>
        simp only [ite_self]
        exact hg
      | some r =>
        exact inv_ite_snd I _ _ _ _ _ (c_recv_data_inv I hI _ _ _ hg) hg

theorem c_putc_inv (I : uxfs_t → Prop) (hI : stable I) (held : Bool) (u : uxfs_t)
    (cmd par : Option (List Nat)) (flags : Nat) (data reply : Option buf_t) (now : Nat)
    (r : Int × Option buf_t × Option buf_t × uxfs_t) (h : I u)
    (e : c_putc held u cmd par flags data reply now = some r) : I r.2.2.2 := by
  have h1 : ∀ t, I (c_puts u t).2 := fun t =>
    hI.1 _ _ (c_puts_tbl u t).1 (c_puts_tbl u t).2.1 h
  have h2 : ∀ v d, I v → I (c_request_data v d).2 := fun v d hv =>
    hI.1 _ _ (c_request_data_tbl v d).1 (c_request_data_tbl v d).2.1 hv
  cases cmd with
  | none =>
    simp only [c_putc] at e
    split at e
    · rw [Option.map_eq_some'] at e
      obtain ⟨x, hx, rfl⟩ := e
      exact c_response_inv I hI held _ _ _ _ x h hx
    · cases e; exact h
  | some c =>
    simp only [c_putc] at e
    split at e
    · cases e; exact h1 _
    · split at e
      · rw [Option.map_eq_some'] at e
        obtain ⟨x, hx, rfl⟩ := e
        exact c_response_inv I hI held _ _ _ _ x (h2 _ _ (h1 _)) hx
      · cases e; exact h2 _ _ (h1 _)

theorem fileop_inv (I : uxfs_t → Prop) (hI : stable I) (held : Bool) (u : uxfs_t)
    (lines : List (List Nat)) (now : Nat) (r : Int × uxfs_t) (h : I u)
    (e : fileop held u lines now = some r) : I r.2 := by
  unfold fileop at e
  rw [Option.map_eq_some'] at e
  obtain ⟨x, hx, rfl⟩ := e
  exact c_putc_inv I hI held u _ _ _ _ _ now x h hx

theorem inv_ite_nested (I : uxfs_t → Prop) (c1 c2 c3 : Prop) [Decidable c1] [Decidable c2]
    [Decidable c3] (o : Option (buf_t × uxfs_t)) (a b c : buf_t) (u : uxfs_t)
    (x : buf_t × uxfs_t) (ho : ∀ y, o = some y → I y.2) (hu : I u)
    (hx : (if c1 then (if c2 then o else some (a, u))
      else if c3 then some (b, u) else some (c, u)) = some x) : I x.2 := by
  split_ifs at hx
  · exact ho x hx
  all_goals cases hx
  all_goals exact hu

theorem f_open_inv (I : uxfs_t → Prop) (hI : stable I) (u : uxfs_t) (f mode now : Nat)
    (r : Int × Option buf_t × uxfs_t)
    (hst : ∀ w, I w → I { store w f { deref w f with used := (deref w f).used + 1 } with
      n_open := w.n_open + 1 })
    (h : I u) (e : f_open u f mode now = some r) : I r.2.2 := by
  unfold f_open at e
  simp only [] at e
  by_cases k1 : mode &&& O_ACCMODE = O_RDWR ∧
      (deref u f).mode &&& (M_WRITE ||| M_READ) ≠ (M_WRITE ||| M_READ)
  · rw [if_pos k1] at e
    cases e
    exact h
  rw [if_neg k1] at e
  by_cases k2 : mode &&& O_ACCMODE = O_WRONLY ∧ (deref u f).mode &&& M_WRITE = 0
  · rw [if_pos k2] at e
    cases e
    exact h
  rw [if_neg k2] at e
  by_cases k3 : mode &&& O_ACCMODE = O_RDONLY ∧ (deref u f).mode &&& M_READ = 0
  · rw [if_pos k3] at e
    cases e
    exact h
  rw [if_neg k3, Option.map_eq_some'] at e
  obtain ⟨x, hx, rfl⟩ := e
  apply hst
  refine inv_ite_nested I _ _ _ _ _ _ _ u x ?_ h hx
  intro y hy
  rw [Option.map_eq_some'] at hy
  obtain ⟨z, hz, rfl⟩ := hy
  exact c_putc_inv I hI true u _ _ _ _ _ now z h hz

theorem root_inv_tbl (u v : uxfs_t) (h1 : v.heap = u.heap) (h2 : v.dir = u.dir)
    (h : root_inv u) : root_inv v := by
  obtain ⟨hok, r, he, hd, hm⟩ := h
  have hdr : ∀ p, deref v p = deref u p := fun p => deref_congr u v h1 p
  refine ⟨(step_of_tbl u v h1 h2).2 hok, r, ⟨by rw [h2]; exact he.1, by rw [hdr]; exact he.2⟩,
    by rw [hdr]; exact hd, by rw [hdr]; exact hm⟩

theorem store_root_inv (u : uxfs_t) (p : Nat) (g : file_t) (hpath : g.path = (deref u p).path)
    (hroot : entry_of u (cs "/") p → g.deleted = 0 ∧ g.mode &&& M_DIR ≠ 0)
    (h : root_inv u) : root_inv (store u p g) := by
  obtain ⟨hok, r, he, hd, hm⟩ := h
  refine ⟨store_table_ok u p g hpath hok, r, store_entry_of u p g hpath _ r he, ?_, ?_⟩
  · rw [deref_store]
    split
    · next hc => exact (hroot (hc.1 ▸ he)).1
    · exact hd
  · rw [deref_store]
    split
    · next hc => exact (hroot (hc.1 ▸ he)).2
    · exact hm

theorem store_root_inv_same (u : uxfs_t) (p : Nat) (g : file_t)
    (hpath : g.path = (deref u p).path) (hmode : g.mode = (deref u p).mode)
    (hdel : g.deleted = (deref u p).deleted) (h : root_inv u) : root_inv (store u p g) := by
  apply store_root_inv u p g hpath _ h
  intro hp
  obtain ⟨hok, r, he, hd, hm⟩ := h
  have e := entry_of_unique u hok.2 _ p r hp he
  rw [hmode, hdel, e]
  exact ⟨hd, hm⟩

theorem store_root_inv_other (u : uxfs_t) (p : Nat) (g : file_t)
    (hpath : g.path = (deref u p).path) (hne : (deref u p).path ≠ cs "/")
    (h : root_inv u) : root_inv (store u p g) :=
  store_root_inv u p g hpath (fun hp => absurd hp.2 hne) h

theorem land_dir_iff (x : Nat) : x &&& M_DIR ≠ 0 ↔ x.testBit 2 = true := by
  have h4 : Nat.testBit 4 2 = true := by decide
  constructor
  · intro h
    obtain ⟨i, hi⟩ := Nat.ne_zero_implies_bit_true h
    rw [Nat.testBit_and, Bool.and_eq_true] at hi
    have h2 : Nat.testBit (2 ^ 2) i = true := hi.2
    rw [Nat.testBit_two_pow] at h2
    have : 2 = i := of_decide_eq_true h2
    rw [this]
    exact hi.1
  · intro ht h0
    have := Nat.testBit_and x M_DIR 2
    rw [h0, ht] at this
    have h42 : Nat.testBit M_DIR 2 = true := by decide
    rw [h42] at this
    exact absurd this (by decide)

theorem lor_dir (x : Nat) : (x ||| M_DIR) &&& M_DIR ≠ 0 := by
  rw [land_dir_iff, Nat.testBit_or]
  have h42 : Nat.testBit M_DIR 2 = true := by decide
  rw [h42, Bool.or_true]

theorem fix_mode_dir (mode : Nat) (h : mode &&& M_DIR ≠ 0) : fix_mode mode &&& M_DIR ≠ 0 := by
  rw [land_dir_iff] at h
  unfold fix_mode
  simp only []
  split_ifs
  all_goals rw [land_dir_iff]
  all_goals simp only [Nat.testBit_or, h, Bool.true_or, Bool.or_true]

theorem add_file_root_inv (held : Bool) (u : uxfs_t) (path : List Nat) (mode now : Nat)
    (r : Int × uxfs_t) (hm : path = cs "/" → mode &&& M_DIR ≠ 0) (h : root_inv u)
    (e : add_file held u path mode now = some r) : root_inv r.2 := by
  have hfr := add_file_frame held u path mode now r e
  have hst := add_file_step held u path mode now r e
  rcases add_file_some held u path mode now r e with ⟨_, rfl⟩ | ⟨_, hl, hf, rfl⟩ | ⟨_, hl, hf, rfl⟩
  · exact h
  · refine store_root_inv u _ _ ?_ ?_ h
    · rfl
    intro hp
    have hpath : path = cs "/" := by
      rw [← (d_search_file_found u path h.1.2 hf).2]
      exact hp.2
    exact ⟨rfl, fix_mode_dir mode (hm hpath)⟩
  · obtain ⟨hok, r, he, hd, hmd⟩ := h
    refine ⟨hst.2 hok, r, frame_entry_of u _ hok.1 hfr _ r he, ?_⟩
    have hdr := deref_append u (new_file u path mode now)
      (u.dir.take (ins_pos u path) ++ [u.heap.length] ++ u.dir.drop (ins_pos u path))
      (u.inode_count + 1) r
    rw [if_pos (hok.1 r he.1)] at hdr
    simp only []
    rw [hdr]
    exact ⟨hd, hmd⟩

theorem root_inv_stable : stable root_inv := by
  refine ⟨fun u v h1 h2 h => root_inv_tbl u v h1 h2 h, ?_⟩
  intro held u line now r h e
  unfold add_file_from_definition at e
  simp only at e
  split at e
  · cases e; exact h
  · split at e
    · cases e; exact h
    · split at e
      · exact add_file_root_inv _ _ _ _ _ _ (fun _ => lor_dir _) h e
      · next hne =>
        split at e
        · exact add_file_root_inv _ _ _ _ _ _ (fun _ => lor_dir _) h e
        · apply add_file_root_inv _ _ _ _ _ _ _ h e
          intro hp
          exact absurd ((strcmp_eq_zero _ _).2 hp) hne

theorem f_create_root_inv (u : uxfs_t) (path : List Nat) (now : Nat)
    (c : Int × Option Nat × uxfs_t) (hp : path ≠ cs "/") (h : root_inv u)
    (e : f_create u path now = some c) : root_inv c.2.2 := by
  rcases f_create_some u path now c e with ⟨_, rfl⟩ | ⟨_, _, rfl⟩ | ⟨_, _, r, hr, rfl⟩
  · exact h
  · exact h
  · exact add_file_root_inv _ _ _ _ _ r (fun e => absurd e hp) h hr

theorem open_count_root_inv (f : Nat) (w : uxfs_t) (h : root_inv w) :
    root_inv { store w f { deref w f with used := (deref w f).used + 1 } with
      n_open := w.n_open + 1 } :=
  root_inv_tbl (store w f { deref w f with used := (deref w f).used + 1 }) _ rfl rfl
    (store_root_inv_same w f _ rfl rfl rfl h)

theorem f_open_root_inv (u : uxfs_t) (f mode now : Nat) (r : Int × Option buf_t × uxfs_t)
    (h : root_inv u) (e : f_open u f mode now = some r) : root_inv r.2.2 :=
  f_open_inv root_inv root_inv_stable u f mode now r (open_count_root_inv f) h e

theorem do_create_root_inv (u : uxfs_t) (path : List Nat) (now : Nat)
    (r : Int × Option buf_t × uxfs_t) (hp : path ≠ cs "/") (h : root_inv u)
    (e : do_create u path now = some r) : root_inv r.2.2 := by
  unfold do_create at e
  cases hc : f_create u path now with
  | none => rw [hc] at e; simp at e
  | some c =>
    rw [hc] at e
    simp only at e
    split at e
    · cases e; exact h
    · split at e
      · exact f_open_root_inv _ _ _ _ r (f_create_root_inv u path now c hp h hc) e
      · exact absurd e (by simp)

theorem do_open_root_inv (u : uxfs_t) (path : List Nat) (flags now : Nat)
    (r : Int × Option buf_t × uxfs_t) (h : root_inv u)
    (e : do_open u path flags now = some r) : root_inv r.2.2 := by
  unfold do_open at e
  cases hg : getfile u path 0 with
  | none =>
    rw [hg] at e
    simp only at e
    split at e
    · exact absurd e (by simp)
    · split at e
      · exact absurd e (by simp)
      · cases e; exact h
  | some f =>
    rw [hg] at e
    simp only at e
    split at e
    · cases e; exact h
    · exact f_open_root_inv _ _ _ _ r h e

theorem close_count_root_inv (w : uxfs_t) (h : root_inv w) :
    root_inv { w with n_close := w.n_close + 1 } :=
  root_inv_tbl w _ rfl rfl h

theorem do_release_root_inv (u : uxfs_t) (path : List Nat) (b : buf_t) (now : Nat)
    (r : Int × uxfs_t) (h : root_inv u) (e : do_release u path b now = some r) :
    root_inv r.2 := by
  unfold do_release at e
  cases hg : getfile u path 1 with
  | none =>
    rw [hg] at e
    simp only [Option.some.injEq] at e
    rw [← e]
    exact close_count_root_inv u h
  | some f =>
    rw [hg] at e
    simp only at e
    cases hb : b.buffer with
    | none => rw [hb] at e; simp at e
    | some m =>
      rw [hb] at e
      simp only at e
      generalize hf1 : ({ deref u f with mtime := now, used := (deref u f).used - 1 } : file_t) = f1 at e
      have h1 : root_inv (store u f f1) := by
        rw [← hf1]
        exact store_root_inv_same u f _ rfl rfl rfl h
      split at e
      · rw [Option.map_eq_some'] at e
        obtain ⟨x, hx, rfl⟩ := e
        have h2 := c_putc_inv root_inv root_inv_stable true (store u f f1) _ _ _ _ _ now x h1 hx
        apply close_count_root_inv
        split
        · exact store_root_inv_same _ f _ rfl rfl rfl h2
        · exact h2
      · simp only [Option.some.injEq] at e
        rw [← e]
        exact close_count_root_inv _ h1

theorem not_root_of_no_dir (u : uxfs_t) (path : List Nat) (f : Nat) (h : root_inv u)
    (he : entry_of u path f) (hd : (deref u f).mode &&& M_DIR = 0) : path ≠ cs "/" := by
  intro hp
  obtain ⟨hok, r, her, _, hm⟩ := h
  rw [hp] at he
  have := entry_of_unique u hok.2 _ f r he her
  rw [this] at hd
  exact hm hd

theorem do_unlink_root_inv (u : uxfs_t) (path : List Nat) (now : Nat) (r : Int × uxfs_t)
    (h : root_inv u) (e : do_unlink u path now = some r) : root_inv r.2 := by
  unfold do_unlink at e
  cases hg : getfile u path 0 with
  | none => rw [hg] at e; cases e; exact h
  | some f =>
    rw [hg] at e
    simp only at e
    obtain ⟨he, _⟩ := (getfile_live_iff u h.1.2 path f).1 hg
    split at e
    · cases e; exact h
    · split at e
      · cases e; exact h
      · next hnd =>
        have hd : (deref u f).mode &&& M_DIR = 0 := by simpa using hnd
        have hp := not_root_of_no_dir u path f h he hd
        rw [Option.map_eq_some'] at e
        obtain ⟨w, hw, rfl⟩ := e
        have hfr := (fileop_step false u [cs "unlink", path] now w hw).1
        have h1 := fileop_inv root_inv root_inv_stable false u [cs "unlink", path] now w h hw
        refine store_root_inv_other _ f _ rfl ?_ h1
        rw [(hfr.2.1 f (h.1.1 f he.1)).1, he.2]
        exact hp

theorem inv_ite_pair {α : Type} (I : uxfs_t → Prop) (c : Prop) [Decidable c] (a : α)
    (x : uxfs_t) (rest : α × uxfs_t) (hx : I x) (hr : I rest.2) :
    I (if c then (a, x) else rest).2 := by
  split <;> assumption

theorem do_rmdir_root_inv (u : uxfs_t) (path : List Nat) (now : Nat) (r : Int × uxfs_t)
    (hp : path ≠ cs "/") (h : root_inv u) (e : do_rmdir u path now = some r) :
    root_inv r.2 := by
  unfold do_rmdir at e
  by_cases hc : path = [] ∨ (d_search_file u path).1 ≠ 0
  · rw [if_pos hc] at e
    cases e
    exact h
  · rw [if_neg hc] at e
    have hf : (d_search_file u path).1 = 0 := by
      by_contra hx
      exact hc (Or.inr hx)
    have hpath := (d_search_file_found u path h.1.2 hf).2
    have h1 : ∀ g : file_t,
        g.path = (deref u (u.dir.getD (d_search_file u path).2 u.heap.length)).path →
        root_inv (store u (u.dir.getD (d_search_file u path).2 u.heap.length) g) :=
      fun g hg => store_root_inv_other u _ g hg (by
        show (file_at u (d_search_file u path).2).path ≠ cs "/"
        rw [hpath]; exact hp) h
    have key : ∀ (g : file_t) (w : Int × uxfs_t),
        g.path = (deref u (u.dir.getD (d_search_file u path).2 u.heap.length)).path →
        fileop false (store u (u.dir.getD (d_search_file u path).2 u.heap.length) g)
          [cs "rmdir", path] now = some w → root_inv w.2 :=
      fun g w hg hw => fileop_inv root_inv root_inv_stable false
        (store u (u.dir.getD (d_search_file u path).2 u.heap.length) g) [cs "rmdir", path] now w
        (h1 g hg) hw
    simp only [] at e
    split_ifs at e
    all_goals first
      | (cases e; exact h)
      | (rw [Option.map_eq_some'] at e
         obtain ⟨w, hw, rfl⟩ := e
         have h2 : root_inv w.2 := key _ w (by rfl) hw
         split <;> exact h2)

theorem do_mkdir_root_inv (u : uxfs_t) (path : List Nat) (now : Nat) (r : Int × uxfs_t)
    (h : root_inv u) (e : do_mkdir u path now = some r) : root_inv r.2 := by
  unfold do_mkdir at e
  cases hcr : f_create u path now with
  | none => rw [hcr] at e; simp at e
  | some cr =>
    rw [hcr] at e
    simp only at e
    by_cases c1 : cr.1 ≠ 0
    · rw [if_pos c1] at e
      cases e
      exact h
    · rw [if_neg c1] at e
      have c1' : cr.1 = 0 := by simpa using c1
      cases hc : cr.2.1 with
      | none => rw [hc] at e; simp at e
      | some d =>
        rw [hc] at e
        simp only at e
        obtain ⟨e1, _, e3⟩ := f_create_ok u path now d cr h.1 hcr c1' hc
        have hok := (f_create_step u path now cr hcr).2 h.1
        have hc2 : path ≠ cs "/" → root_inv cr.2.2 :=
          fun hp => f_create_root_inv u path now cr hp h hcr
        generalize cr.2.2 = c at e e1 e3 hok hc2
        generalize hg : ({ deref c d with mode := M_DIR ||| M_READ ||| M_WRITE ||| M_USER } : file_t) = g at e
        have hg1 : g.path = (deref c d).path ∧ g.deleted = (deref c d).deleted ∧
            g.mode = M_DIR ||| M_READ ||| M_WRITE ||| M_USER := by
          rw [← hg]; exact ⟨rfl, rfl, rfl⟩
        have h1 : root_inv (store c d g) := by
          by_cases hp : path = cs "/"
          · refine ⟨store_table_ok c d g hg1.1 hok, d, ?_, ?_, ?_⟩
            · rw [← hp]
              exact store_entry_of c d g hg1.1 path d e1
            · rw [deref_store_same c d g (hok.1 d e1.1), hg1.2.1]
              exact e3
            · rw [deref_store_same c d g (hok.1 d e1.1), hg1.2.2]
              decide
          · exact store_root_inv_other c d g hg1.1 (by rw [e1.2]; exact hp) (hc2 hp)
        rw [Option.map_eq_some'] at e
        obtain ⟨w, hw, rfl⟩ := e
        have h2 := fileop_inv root_inv root_inv_stable false _ [cs "mkdir", path] now w h1 hw
        split <;> exact h2

theorem rename_move_root_inv (w : uxfs_t) (s d : Nat) (sp dp : List Nat) (now : Nat)
    (r : Int × uxfs_t)
    (hs : s < w.heap.length) (hsp : (deref w s).path ≠ cs "/")
    (hd : d < w.heap.length) (hdp : (deref w d).path ≠ cs "/") (h : root_inv w)
    (e : rename_move w s d sp dp now = some r) : root_inv r.2 := by
  unfold rename_move at e
  rw [Option.map_eq_some'] at e
  obtain ⟨x, hx, rfl⟩ := e
  have hfr := (fileop_step true w [cs "rename", sp, dp] now x hx).1
  have h2 := fileop_inv root_inv root_inv_stable true w [cs "rename", sp, dp] now x h hx
  show root_inv (move_entry x.2 s d now)
  unfold move_entry
  simp only []
  generalize x.2 = u2 at hfr h2 ⊢
  have ps : (deref u2 s).path ≠ cs "/" := by rw [(hfr.2.1 s hs).1]; exact hsp
  have pd : (deref u2 d).path ≠ cs "/" := by rw [(hfr.2.1 d hd).1]; exact hdp
  have h3 := store_root_inv_other u2 d { deref u2 d with buf := none } rfl pd h2
  have q3 : ∀ q, (deref (store u2 d { deref u2 d with buf := none }) q).path = (deref u2 q).path :=
    store_path u2 d _ rfl
  generalize store u2 d { deref u2 d with buf := none } = u3 at h3 q3 ⊢
  generalize hg4 : ({ deref u3 d with mode := (deref u3 s).mode, mtime := now, deleted := 0, buf := (deref u3 s).buf } : file_t) = g4
  have hg4p : g4.path = (deref u3 d).path := by rw [← hg4]
  have h4 := store_root_inv_other u3 d g4 hg4p (by rw [q3]; exact pd) h3
  have q4 : ∀ q, (deref (store u3 d g4) q).path = (deref u3 q).path := store_path u3 d g4 hg4p
  exact store_root_inv_other _ s _ rfl (by rw [q4, q3]; exact ps) h4

theorem do_rename_root_inv (u : uxfs_t) (sp dp : List Nat) (now : Nat) (r : Int × uxfs_t)
    (h : root_inv u) (e : do_rename u sp dp now = some r) : root_inv r.2 := by
  unfold do_rename at e
  cases hg : getfile u sp 0 with
  | none =>
    rw [hg] at e
    simp only [Option.some.injEq] at e
    rw [← e]
    exact h
  | some src =>
    rw [hg] at e
    simp only at e
    obtain ⟨hes, _⟩ := (getfile_live_iff u h.1.2 sp src).1 hg
    by_cases c1 : (deref u src).mode &&& M_DIR ≠ 0
    · rw [if_pos c1] at e
      simp only [Option.some.injEq] at e
      rw [← e]
      exact h
    rw [if_neg c1] at e
    have c1' : (deref u src).mode &&& M_DIR = 0 := by simpa using c1
    have hsp := not_root_of_no_dir u sp src h hes c1'
    by_cases c2 : (deref u src).mode &&& M_USER = 0
    · rw [if_pos c2] at e
      simp only [Option.some.injEq] at e
      rw [← e]
      exact h
    rw [if_neg c2] at e
    cases hgd : getfile u dp 1 with
    | some dst =>
      rw [hgd] at e
      simp only at e
      have hed := (getfile_incl_iff u h.1.2 dp dst).1 hgd
      by_cases c3 : (deref u dst).mode &&& M_DIR ≠ 0
      · rw [if_pos c3] at e
        simp only [Option.some.injEq] at e
        rw [← e]
        exact h
      rw [if_neg c3] at e
      have c3' : (deref u dst).mode &&& M_DIR = 0 := by simpa using c3
      have hdp := not_root_of_no_dir u dp dst h hed c3'
      by_cases c4 : (deref u dst).mode &&& M_USER = 0
      · rw [if_pos c4] at e
        simp only [Option.some.injEq] at e
        rw [← e]
        exact h
      rw [if_neg c4] at e
      exact rename_move_root_inv u src dst sp dp now r (h.1.1 src hes.1)
        (by rw [hes.2]; exact hsp) (h.1.1 dst hed.1) (by rw [hed.2]; exact hdp) h e
    | none =>
      rw [hgd] at e
      simp only at e
      have hdp : dp ≠ cs "/" := by
        intro hp
        obtain ⟨r0, her, _, _⟩ := h.2
        have := (getfile_incl_iff u h.1.2 (cs "/") r0).2 her
        rw [hp, this] at hgd
        exact absurd hgd (by simp)
      cases hcr : f_create u dp now with
      | none => rw [hcr] at e; simp at e
      | some cr =>
        rw [hcr] at e
        simp only at e
        have hc := f_create_root_inv u dp now cr hdp h hcr
        by_cases c5 : cr.1 = 0
        · rw [if_pos c5] at e
          cases hg2 : getfile cr.2.2 sp 0 with
          | none =>
            rw [hg2] at e
            simp only [Option.some.injEq] at e
            rw [← e]
            exact hc
          | some src1 =>
            rw [hg2] at e
            simp only at e
            cases hcd : cr.2.1 with
            | none => rw [hcd] at e; simp at e
            | some dst =>
              rw [hcd] at e
              simp only at e
              obtain ⟨e1, _, _⟩ := f_create_ok u dp now dst cr h.1 hcr c5 hcd
              obtain ⟨hes1, _⟩ := (getfile_live_iff _ hc.1.2 sp src1).1 hg2
              exact rename_move_root_inv _ src1 dst sp dp now r (hc.1.1 src1 hes1.1)
                (by rw [hes1.2]; exact hsp) (hc.1.1 dst e1.1) (by rw [e1.2]; exact hdp) hc e
        · rw [if_neg c5] at e
          simp only [Option.some.injEq] at e
          rw [← e]
          exact h

theorem run_op_root_inv (u : uxfs_t) (now : Nat) (op : fs_op) (v : uxfs_t)
    (h1 : op ≠ fs_op.op_create (cs "/")) (h2 : op ≠ fs_op.op_rmdir (cs "/"))
    (h : root_inv u) (e : run_op u now op = some v) : root_inv v := by
  cases op with
  | op_create path =>
    simp only [run_op, Option.map_eq_some'] at e
    obtain ⟨r, er, ev⟩ := e
    rw [← ev]
    exact do_create_root_inv u path now r (fun hp => h1 (by rw [hp])) h er
  | op_open path flags =>
    simp only [run_op, Option.map_eq_some'] at e
    obtain ⟨r, er, ev⟩ := e
    rw [← ev]
    exact do_open_root_inv u path flags now r h er
  | op_mkdir path =>
    simp only [run_op, Option.map_eq_some'] at e
    obtain ⟨r, er, ev⟩ := e
    rw [← ev]
    exact do_mkdir_root_inv u path now r h er
  | op_rmdir path =>
    simp only [run_op, Option.map_eq_some'] at e
    obtain ⟨r, er, ev⟩ := e
    rw [← ev]
    exact do_rmdir_root_inv u path now r (fun hp => h2 (by rw [hp])) h er
  | op_unlink path =>
    simp only [run_op, Option.map_eq_some'] at e
    obtain ⟨r, er, ev⟩ := e
    rw [← ev]
    exact do_unlink_root_inv u path now r h er
  | op_rename src dst =>
    simp only [run_op, Option.map_eq_some'] at e
    obtain ⟨r, er, ev⟩ := e
    rw [← ev]
    exact do_rename_root_inv u src dst now r h er
  | op_release path b =>
    simp only [run_op, Option.map_eq_some'] at e
    obtain ⟨r, er, ev⟩ := e
    rw [← ev]
    exact do_release_root_inv u path b now r h er
  | op_directive line =>
    simp only [run_op, Option.map_eq_some'] at e
    obtain ⟨r, er, ev⟩ := e
    rw [← ev]
    exact root_inv_stable.2 false u line now r h er
  | op_input inp =>
    simp only [run_op, Option.some.injEq] at e
    rw [← e]
    exact root_inv_tbl u _ rfl rfl h

theorem run_ops_root_inv (ops : List (Nat × fs_op)) (u v : uxfs_t)
    (hops : ∀ e ∈ ops, e.2 ≠ fs_op.op_create (cs "/") ∧ e.2 ≠ fs_op.op_rmdir (cs "/"))
    (h : root_inv u) (e : run_ops u ops = some v) : root_inv v := by
  induction ops generalizing u with
  | nil =>
    simp only [run_ops, Option.some.injEq] at e
    rw [← e]
    exact h
  | cons x rest ih =>
    simp only [run_ops] at e
    cases hx : run_op u x.1 x.2 with
    | none => rw [hx] at e; simp at e
    | some w =>
      rw [hx] at e
      simp only at e
      have hx2 := hops x (List.mem_cons_self _ _)
      exact ih w (fun y hy => hops y (List.mem_cons_of_mem _ hy))
        (run_op_root_inv u x.1 x.2 w hx2.1 hx2.2 h hx) e

theorem bootstrap_root_inv (inp : List Nat) (now : Nat) : root_inv (bootstrap inp now) := by
  refine ⟨⟨?_, ?_⟩, 0, ?_, ?_, ?_⟩
  · intro p hp
    rw [bootstrap_eq] at hp ⊢
    simp only [List.mem_singleton] at hp
    subst hp
    exact Nat.zero_lt_one
  · intro i hi
    rw [bootstrap_eq] at hi
    simp only [List.length_singleton] at hi
    omega
  · exact ⟨by rw [bootstrap_eq]; simp, by rw [bootstrap_eq]; rfl⟩
  · rw [bootstrap_eq]; rfl
  · rw [bootstrap_eq]
    show (5 : Nat) &&& M_DIR ≠ 0
    decide

/-- C17, counterexample: from the bootstrap table, `do_rmdir("/")` leaves the root
deleted, so `getfile("/", 0)` finds nothing; and once a directive has declared the
root writable, `do_create("/")` leaves the root without DIR. -/
theorem root_lost_by_rmdir_or_create :
    (run_ops (bootstrap [] 0) [(1, fs_op.op_rmdir (cs "/"))]).map
        (fun v => getfile v (cs "/") 0) = some none ∧
    (run_ops (bootstrap [] 0)
        [(1, fs_op.op_directive (cs "/ rw")), (2, fs_op.op_create (cs "/"))]).map
        (fun v => (getfile v (cs "/") 0).map (fun r => (deref v r).mode &&& M_DIR)) =
      some (some 0) := by
  decide

/-- C17, amended: in every state reached from the bootstrap table by a sequence of
create, open, mkdir, rmdir, unlink, rename and release calls, directive lines and
controller input in which neither create nor rmdir is called on the path `/`
itself, `getfile("/", 0)` gives an entry that is not deleted and has DIR. -/
theorem root_stays_directory (inp : List Nat) (now : Nat) (ops : List (Nat × fs_op))
    (v : uxfs_t)
    (hops : ∀ e ∈ ops, e.2 ≠ fs_op.op_create (cs "/") ∧ e.2 ≠ fs_op.op_rmdir (cs "/"))
    (hrun : run_ops (bootstrap inp now) ops = some v) :
    ∃ r, getfile v (cs "/") 0 = some r ∧ (deref v r).deleted = 0 ∧
      (deref v r).mode &&& M_DIR ≠ 0 := by
  obtain ⟨hok, r, he, hd, hm⟩ :=
    run_ops_root_inv ops (bootstrap inp now) v hops (bootstrap_root_inv inp now) hrun
  exact ⟨r, (getfile_live_iff v hok.2 (cs "/") r).2 ⟨he, hd⟩, hd, hm⟩

theorem root_stays_directory_witness :
    ∃ r, getfile ((run_ops (bootstrap [] 0) quiet_life).getD (bootstrap [] 0)) (cs "/") 0 = some r ∧
      (deref ((run_ops (bootstrap [] 0) quiet_life).getD (bootstrap [] 0)) r).deleted = 0 ∧
      (deref ((run_ops (bootstrap [] 0) quiet_life).getD (bootstrap [] 0)) r).mode &&& M_DIR ≠ 0 :=
  root_stays_directory [] 0 quiet_life _ (by decide) (by decide)

/-- C18: the root is declared writable, `/a` is created, the byte `X` is written and
the handle released, `/a` is unlinked, and `mkdir /a` follows, the controller
answering `+OK` each time.  In the state reached, `/a` is a live entry with DIR
that still retains the buffer of the file. -/
theorem mkdir_keeps_retained_buffer :
    ((run_ops (bootstrap [] 0) (mkdir_over_file.take 2)).bind
        (fun v => (do_create v (cs "/a") 3).map (fun r => r.2.1))) =
      some (some (fresh_handle (M_WRITE ||| M_USER))) ∧
    (run_ops (bootstrap [] 0) mkdir_over_file).map
        (fun v => (getfile v (cs "/a") 0).map
          (fun p => ((deref v p).mode &&& M_DIR, (deref v p).deleted,
            (deref v p).buf.map contents))) =
      some (some (M_DIR, 0, some (cs "X"))) := by
  decide!

/-- C21, counterexample: the table holds only the root and the path `/aaa...a` of
`FILENAME_MAX + 1` bytes is not present; `add_file` returns -1 and leaves the
table, its length included, as it is. -/
theorem add_file_refuses_long_path :
    table_ok table_root_rw ∧ ¬ present table_root_rw over_long_path ∧
    add_file false table_root_rw over_long_path M_READ 0 = some (-1, table_root_rw) := by
  refine ⟨by decide, by decide!, by decide!⟩

/-- C21, amended: for every sorted table of valid pointers and every path of fewer than
`FILENAME_MAX` bytes that is not present in it, `add_file(path, mode)` makes the
table one entry longer and returns the index `k` at which the new entry sits;
`getfile(path, 0)` afterwards returns that entry, which has the path, the
normalised mode, deleted = 0, open count 0 and no buffer; every entry present
before is still present with its record unchanged, the old entries keep their
order around the new one, and each is still found by `d_search_file`. -/
theorem add_file_inserts (u : uxfs_t) (path : List Nat) (mode now : Nat) (hok : table_ok u)
    (hnp : ¬ present u path) (hlen : path.length < FILENAME_MAX) :
    ∃ (k : Nat) (v : uxfs_t) (q : Nat), add_file false u path mode now = some ((k : Int), v) ∧
      v.dir.length = u.dir.length + 1 ∧ k ≤ u.dir.length ∧
      v.dir = u.dir.take k ++ [q] ++ u.dir.drop k ∧ q ∉ u.dir ∧
      v.dir.getD k v.heap.length = q ∧ getfile v path 0 = some q ∧
      deref v q = { f_alloc with path := path, mode := fix_mode mode, mtime := now,
                                 inode := u.inode_count + 1 } ∧
      ∀ p, p ∈ u.dir → p ∈ v.dir ∧ deref v p = deref u p ∧
        (d_search_file v (deref u p).path).1 = 0 ∧
        v.dir.getD (d_search_file v (deref u p).path).2 v.heap.length = p := by
  have hf : (d_search_file u path).1 ≠ 0 := fun h =>
    hnp ((search_found_iff_present u hok.2 path).1 h)
  have e := add_file_new u path mode now hlen hf
  obtain ⟨hk, _, _⟩ := ins_pos_spec u path hok.2 hf
  have hokv := (add_file_step false u path mode now _ e).2 hok
  have hfr := add_file_frame false u path mode now _ e
  simp only [] at hokv hfr
  obtain ⟨v, hv⟩ : ∃ v : uxfs_t, { u with
      heap := u.heap ++ [new_file u path mode now],
      dir := u.dir.take (ins_pos u path) ++ [u.heap.length] ++ u.dir.drop (ins_pos u path),
      inode_count := u.inode_count + 1 } = v := ⟨_, rfl⟩
  rw [hv] at e hokv hfr
  have hdr : ∀ p, deref v p =
      if p < u.heap.length then deref u p
      else if p = u.heap.length then new_file u path mode now else f_alloc := by
    intro p
    rw [← hv]
    exact deref_append u _ _ _ p
  have hdir : v.dir =
      u.dir.take (ins_pos u path) ++ [u.heap.length] ++ u.dir.drop (ins_pos u path) := by
    rw [← hv]
  have hnew : deref v u.heap.length = new_file u path mode now := by
    rw [hdr, if_neg (by omega), if_pos rfl]
  have hq : entry_of v path u.heap.length := by
    refine ⟨by rw [hdir]; simp, by rw [hnew]; rfl⟩
  refine ⟨ins_pos u path, v, u.heap.length, e, ?_, hk,
    hdir, ?_, ?_, ?_, ?_, ?_⟩
  · rw [hdir]
    simp only [List.length_append, List.length_take, List.length_drop, List.length_singleton]
    omega
  · intro hm
    exact absurd (hok.1 _ hm) (by omega)
  · rw [hdir, insert_getD _ _ hk, if_neg (by omega), if_pos rfl]
  · exact (getfile_live_iff _ hokv.2 path _).2 ⟨hq, by rw [hnew]; rfl⟩
  · rw [hnew]
    rfl
  · intro p hp
    have hpv : p < u.heap.length := hok.1 p hp
    have hd : deref v p = deref u p := by rw [hdr, if_pos hpv]
    have hpe : entry_of v (deref u p).path p :=
      ⟨hfr.2.2 p hp, by rw [hd]⟩
    obtain ⟨s1, s2, _, _⟩ := search_found_entry _ hokv.2 _ p hpe
    exact ⟨hfr.2.2 p hp, hd, s1, s2⟩

theorem add_file_inserts_witness :
    ∃ (k : Nat) (v : uxfs_t) (q : Nat),
      add_file false table_mixed (cs "/b") M_DIR 7 = some ((k : Int), v) ∧
      v.dir.length = table_mixed.dir.length + 1 ∧ k ≤ table_mixed.dir.length ∧
      v.dir = table_mixed.dir.take k ++ [q] ++ table_mixed.dir.drop k ∧
      q ∉ table_mixed.dir ∧
      v.dir.getD k v.heap.length = q ∧ getfile v (cs "/b") 0 = some q ∧
      deref v q = { f_alloc with path := cs "/b", mode := fix_mode M_DIR, mtime := 7,
                                 inode := table_mixed.inode_count + 1 } ∧
      ∀ p, p ∈ table_mixed.dir → p ∈ v.dir ∧ deref v p = deref table_mixed p ∧
        (d_search_file v (deref table_mixed p).path).1 = 0 ∧
        v.dir.getD (d_search_file v (deref table_mixed p).path).2 v.heap.length = p :=
  add_file_inserts table_mixed (cs "/b") M_DIR 7 (by decide) (by decide) (by decide)

/-- C22, counterexample: `/d` is a directory with DIR and READ but without WRITE; the
mode `d_getattr` gives it is `S_IFDIR | S_IRUSR | S_IXUSR`, without the user
write bit of `rwx`. -/
theorem d_getattr_dir_without_write :
    (mk_file "/d" 5 0).mode &&& M_DIR ≠ 0 ∧
    (d_getattr table_d_dash (mk_file "/d" 5 0) stat_zero).st_mode =
      S_IFDIR ||| S_IRUSR ||| S_IXUSR ∧
    (d_getattr table_d_dash (mk_file "/d" 5 0) stat_zero).st_mode &&& S_IWUSR = 0 := by
  decide

/-- C22, amended: the file-type and user permission bits of the mode `d_getattr`
gives an entry, with or without the propagation to other users, are: for the
root, a directory with user `rwx`; for any other entry with DIR, a directory
with `S_IXUSR`, with `S_IRUSR` exactly when READ is set and `S_IWUSR` exactly when
WRITE is set; for any other entry, `S_IFREG` with `S_IRUSR` exactly when READ is set
and `S_IWUSR` exactly when WRITE is set.  Without the propagation the root gets
`S_IFDIR | 0775` and no other entry gets a group or other bit. -/
theorem d_getattr_type_and_user_bits (u : uxfs_t) (f : file_t) (st : stat_t) :
    (f.path = cs "/" →
      (d_getattr u f st).st_mode &&& (S_IFMT ||| S_IRWXU) = S_IFDIR ||| S_IRWXU ∧
      (u.other_users = 0 → (d_getattr u f st).st_mode = S_IFDIR ||| 0o775)) ∧
    (f.path ≠ cs "/" →
      (d_getattr u f st).st_mode &&& (S_IFMT ||| S_IXUSR) =
        (if f.mode &&& M_DIR ≠ 0 then S_IFDIR ||| S_IXUSR else S_IFREG) ∧
      ((d_getattr u f st).st_mode &&& S_IRUSR ≠ 0 ↔ f.mode &&& M_READ ≠ 0) ∧
      ((d_getattr u f st).st_mode &&& S_IWUSR ≠ 0 ↔ f.mode &&& M_WRITE ≠ 0) ∧
      (u.other_users = 0 → (d_getattr u f st).st_mode &&& 0o77 = 0)) := by
  have hroot : strcmp f.path (cs "/") = 0 ↔ f.path = cs "/" := strcmp_eq_zero _ _
  by_cases hp : f.path = cs "/"
  · have h0 := hroot.2 hp
    refine ⟨fun _ => ?_, fun h => absurd hp h⟩
    by_cases ho : u.other_users = 0
    · simp only [d_getattr, h0, ho, if_true, ne_eq, not_true_eq_false, if_false, forall_const]
      decide
    · simp only [d_getattr, h0, ho, if_true, ne_eq, not_false_eq_true, false_implies,
        and_true]
      decide
  · have h0 : ¬ strcmp f.path (cs "/") = 0 := fun h => hp (hroot.1 h)
    refine ⟨fun h => absurd h hp, fun _ => ?_⟩
    by_cases hw : f.mode &&& M_WRITE = 0 <;> by_cases hr : f.mode &&& M_READ = 0 <;>
      by_cases hd : f.mode &&& M_DIR = 0 <;> by_cases ho : u.other_users = 0 <;>
      by_cases hs : f.mode &&& (M_STATIC ||| M_USER) = 0 <;> cases hb : f.buf
    all_goals simp only [d_getattr, h0, hw, hr, hd, ho, hs, hb, if_true, if_false, ne_eq,
      not_true_eq_false, not_false_eq_true, false_implies, and_true, forall_const]
    all_goals decide

theorem d_getattr_type_and_user_bits_witness :
    (d_getattr table_d_dash_shared (mk_file "/d" 5 0) stat_zero).st_mode &&&
        (S_IFMT ||| S_IXUSR) = S_IFDIR ||| S_IXUSR ∧
    (d_getattr table_d_dash_shared (mk_file "/d" 5 0) stat_zero).st_mode &&& S_IRUSR ≠ 0 ∧
    (d_getattr table_d_dash_shared (mk_file "/d" 5 0) stat_zero).st_mode &&& S_IWUSR = 0 := by
  have h := (d_getattr_type_and_user_bits table_d_dash_shared (mk_file "/d" 5 0)
    stat_zero).2 (by decide)
  exact ⟨h.1, h.2.1.2 (by decide), by decide⟩

theorem d_search_probes_le (P : Nat → List Nat) (path : List Nat) :
    ∀ (fuel : Nat) (left right : Int), 0 ≤ left →
      (d_search_probes P path fuel left right : Int) ≤ max 0 (right + 1 - left) := by
  intro fuel
  induction fuel with
  | zero =>
    intro left right _
    simp only [d_search_probes]
    omega
  | succ fuel ih =>
    intro left right h0
    simp only [d_search_probes]
    by_cases hle : left ≤ right
    · simp only [hle, if_true]
      have hk1 : left ≤ (((left + right) / 2).toNat : Int) := by omega
      have hk2 : (((left + right) / 2).toNat : Int) ≤ right := by omega
      generalize ((left + right) / 2).toNat = k at hk1 hk2
      by_cases hr1 : strcmp path (P k) = 0
      · simp only [hr1, if_true]
        omega
      · simp only [hr1, if_false]
        by_cases hneg : strcmp path (P k) < 0
        · simp only [hneg, if_true]
          have := ih left ((k : Int) - 1) h0
          push_cast
          omega
        · simp only [hneg, if_false]
          have := ih ((k : Int) + 1) right (by omega)
          push_cast
          omega
    · simp only [hle, if_false]
      omega

theorem d_search_loop_fuel (P : Nat → List Nat) (path : List Nat) :
    ∀ (fuel fuel2 : Nat) (left right r : Int) (pos : Nat), 0 ≤ left →
      right + 1 - left ≤ fuel → right + 1 - left ≤ fuel2 →
      d_search_loop P path fuel2 left right r pos = d_search_loop P path fuel left right r pos := by
  intro fuel
  induction fuel with
  | zero =>
    intro fuel2 left right r pos h0 hf _
    have hlt : ¬ left ≤ right := by omega
    cases fuel2 with
    | zero => rfl
    | succ n => simp only [d_search_loop, hlt, if_false]
  | succ fuel ih =>
    intro fuel2 left right r pos h0 hf hf2
    by_cases hle : left ≤ right
    · cases fuel2 with
      | zero => omega
      | succ n =>
        simp only [d_search_loop, hle, if_true]
        have hk1 : left ≤ (((left + right) / 2).toNat : Int) := by omega
        have hk2 : (((left + right) / 2).toNat : Int) ≤ right := by omega
        generalize ((left + right) / 2).toNat = k at hk1 hk2
        by_cases hr1 : strcmp path (P k) = 0
        · simp only [hr1, if_true]
        · simp only [hr1, if_false]
          by_cases hneg : strcmp path (P k) < 0
          · simp only [hneg, if_true]
            exact ih n left _ _ k h0 (by omega) (by omega)
          · simp only [hneg, if_false]
            exact ih n _ right _ k (by omega) (by omega) (by omega)
    · cases fuel2 with
      | zero => simp only [d_search_loop, hle, if_false]
      | succ n => simp only [d_search_loop, hle, if_false]

theorem d_search_loop_last (P : Nat → List Nat) (n : Nat) (path : List Nat) :
    ∀ (fuel : Nat) (left right r : Int) (pos : Nat), 0 ≤ left → right < n →
      ((r = strcmp path (P pos) ∧ pos < n) ∨ (left ≤ right ∧ 0 < fuel)) →
      (d_search_loop P path fuel left right r pos).1 =
        strcmp path (P (d_search_loop P path fuel left right r pos).2) ∧
      (d_search_loop P path fuel left right r pos).2 < n := by
  intro fuel
  induction fuel with
  | zero =>
    intro left right r pos _ _ h
    rcases h with h | h
    · exact h
    · omega
  | succ fuel ih =>
    intro left right r pos h0 hr h
    simp only [d_search_loop]
    by_cases hle : left ≤ right
    · simp only [hle, if_true]
      have hk1 : left ≤ (((left + right) / 2).toNat : Int) := by omega
      have hk2 : (((left + right) / 2).toNat : Int) ≤ right := by omega
      generalize ((left + right) / 2).toNat = k at hk1 hk2
      have hkn : k < n := by omega
      by_cases hr1 : strcmp path (P k) = 0
      · simp only [hr1, if_true]
        exact ⟨trivial, hkn⟩
      · simp only [hr1, if_false]
        by_cases hneg : strcmp path (P k) < 0
        · simp only [hneg, if_true]
          exact ih left _ _ k h0 (by omega) (Or.inl ⟨rfl, hkn⟩)
        · simp only [hneg, if_false]
          exact ih _ right _ k (by omega) hr (Or.inl ⟨rfl, hkn⟩)
    · simp only [hle, if_false]
      rcases h with h | h
      · exact h
      · exact absurd h.1 hle

/-- C23: for every non-empty table whose paths are strictly increasing and every path,
`d_search_file` returns 0 exactly when some entry has that path, and the position
reported is then the index of that entry, the only one with the path; when no
entry has the path the result is the non-zero value of `strcmp` of the path with
the entry last probed, which is the entry at the reported position.  However
long the loop may run it makes at most `len` probes, and `len` rounds give the
result of any longer run. -/
theorem d_search_file_contract (u : uxfs_t) (path : List Nat) (hs : sorted u)
    (hne : u.dir.length ≠ 0) :
    ((d_search_file u path).1 = 0 ↔ ∃ k, k < u.dir.length ∧ (file_at u k).path = path) ∧
    ((d_search_file u path).1 = 0 →
      (d_search_file u path).2 < u.dir.length ∧
      (file_at u (d_search_file u path).2).path = path ∧
      ∀ k, k < u.dir.length → (file_at u k).path = path → k = (d_search_file u path).2) ∧
    ((d_search_file u path).1 ≠ 0 →
      (d_search_file u path).2 < u.dir.length ∧
      (d_search_file u path).1 = strcmp path (file_at u (d_search_file u path).2).path) ∧
    (∀ fuel, d_search_probes (fun k => (file_at u k).path) path fuel 0
      ((u.dir.length : Int) - 1) ≤ u.dir.length) ∧
    (∀ fuel, u.dir.length ≤ fuel →
      d_search_loop (fun k => (file_at u k).path) path fuel 0 ((u.dir.length : Int) - 1) (-2) 0
        = d_search_file u path) := by
  have hlast := d_search_loop_last (fun k => (file_at u k).path) u.dir.length path u.dir.length
    0 ((u.dir.length : Int) - 1) (-2) 0 (le_refl _) (by omega) (Or.inr ⟨by omega, by omega⟩)
  have hdef : d_search_file u path = d_search_loop (fun k => (file_at u k).path) path
      u.dir.length 0 ((u.dir.length : Int) - 1) (-2) 0 := by
    unfold d_search_file
    rw [if_neg hne]
  rw [← hdef] at hlast
  refine ⟨⟨fun h => ?_, fun ⟨k, hk, hp⟩ => d_search_file_complete u path hs k hk hp⟩, ?_,
    fun _ => ⟨hlast.2, hlast.1⟩, ?_, ?_⟩
  · obtain ⟨a, b⟩ := d_search_file_found u path hs h
    exact ⟨_, a, b⟩
  · intro h
    obtain ⟨a, b⟩ := d_search_file_found u path hs h
    refine ⟨a, b, ?_⟩
    intro k hk hp
    exact sorted_index_unique u hs k _ hk a (by rw [hp, b])
  · intro fuel
    have := d_search_probes_le (fun k => (file_at u k).path) path fuel 0
      ((u.dir.length : Int) - 1) (le_refl _)
    omega
  · intro fuel hf
    rw [hdef]
    exact d_search_loop_fuel _ _ _ _ _ _ _ _ (le_refl _) (by omega) (by omega)

theorem d_search_file_contract_witness :
    (d_search_file table_mixed (cs "/d")).1 = 0 ∧
    (d_search_file table_mixed (cs "/d")).2 < table_mixed.dir.length ∧
    (file_at table_mixed (d_search_file table_mixed (cs "/d")).2).path = cs "/d" ∧
    (d_search_file table_mixed (cs "/b")).1 =
      strcmp (cs "/b") (file_at table_mixed (d_search_file table_mixed (cs "/b")).2).path := by
  have h1 := d_search_file_contract table_mixed (cs "/d") (by decide) (by decide)
  have h2 := d_search_file_contract table_mixed (cs "/b") (by decide) (by decide)
  have e : (d_search_file table_mixed (cs "/d")).1 = 0 := h1.1.2 ⟨2, by decide, by decide⟩
  exact ⟨e, (h1.2.1 e).1, (h1.2.1 e).2.1, (h2.2.2.1 (by decide)).2⟩

/-- C24: for every sorted table, the empty and the one-entry table included, and every
path: `getfile(path, 0)` returns an entry exactly when an entry with that path is
present and not deleted, `getfile(path, 1)` returns an entry exactly when an entry
with that path is present, and an entry that is returned is an entry of the table
that carries the path.  The lookup hands back a pointer only: the table is not
changed. -/
theorem getfile_contract (u : uxfs_t) (path : List Nat) (hs : sorted u) :
    ((∃ p, getfile u path 0 = some p) ↔
      ∃ p, p ∈ u.dir ∧ (deref u p).path = path ∧ (deref u p).deleted = 0) ∧
    ((∃ p, getfile u path 1 = some p) ↔ ∃ p, p ∈ u.dir ∧ (deref u p).path = path) ∧
    (∀ p, getfile u path 0 = some p →
      p ∈ u.dir ∧ (deref u p).path = path ∧ (deref u p).deleted = 0) ∧
    (∀ p, getfile u path 1 = some p → p ∈ u.dir ∧ (deref u p).path = path) := by
  refine ⟨⟨?_, ?_⟩, ⟨?_, ?_⟩, ?_, ?_⟩
  · rintro ⟨p, h⟩
    obtain ⟨he, hd⟩ := (getfile_live_iff u hs path p).1 h
    exact ⟨p, he.1, he.2, hd⟩
  · rintro ⟨p, h1, h2, h3⟩
    exact ⟨p, (getfile_live_iff u hs path p).2 ⟨⟨h1, h2⟩, h3⟩⟩
  · rintro ⟨p, h⟩
    obtain he := (getfile_incl_iff u hs path p).1 h
    exact ⟨p, he.1, he.2⟩
  · rintro ⟨p, h1, h2⟩
    exact ⟨p, (getfile_incl_iff u hs path p).2 ⟨h1, h2⟩⟩
  · intro p h
    obtain ⟨he, hd⟩ := (getfile_live_iff u hs path p).1 h
    exact ⟨he.1, he.2, hd⟩
  · intro p h
    exact (getfile_incl_iff u hs path p).1 h

theorem getfile_contract_witness :
    (¬ ∃ p, getfile table_empty (cs "/") 0 = some p) ∧
    (∃ p, getfile table_root_rw (cs "/") 0 = some p) ∧
    (∃ p, getfile table_mixed (cs "/d") 1 = some p) :=
  ⟨fun h => by
      obtain ⟨p, hp, _⟩ := (getfile_contract table_empty (cs "/") (by decide)).1.1 h
      have e : table_empty.dir = [] := by decide
      rw [e] at hp
      exact absurd hp (List.not_mem_nil p),
    (getfile_contract table_root_rw (cs "/") (by decide)).1.2 ⟨0, by decide, by decide, by decide⟩,
    (getfile_contract table_mixed (cs "/d") (by decide)).2.1.2 ⟨2, by decide, by decide⟩⟩

theorem land_pow_iff (x i : Nat) : x &&& 2 ^ i ≠ 0 ↔ x.testBit i = true := by
  constructor
  · intro h
    obtain ⟨j, hj⟩ := Nat.ne_zero_implies_bit_true h
    rw [Nat.testBit_and, Bool.and_eq_true, Nat.testBit_two_pow] at hj
    have : i = j := of_decide_eq_true hj.2
    rw [this]
    exact hj.1
  · intro ht h0
    have := Nat.testBit_and x (2 ^ i) i
    rw [h0, ht, Nat.testBit_two_pow_self, Nat.zero_testBit] at this
    exact absurd this (by decide)

theorem modebits_foldl (par : List Nat) (acc : Nat) :
    par.foldl (fun mode c =>
      if c = 114 then mode ||| M_READ
      else if c = 119 then mode ||| M_WRITE
      else if c = 100 then mode ||| M_DIR
      else if c = 115 then mode ||| (M_READ ||| M_WRITE ||| M_STATIC)
      else mode ||| M_READ) acc = acc ||| spec_modebits par := by
  induction par generalizing acc with
  | nil => simp [spec_modebits]
  | cons c rest ih =>
    have hstep : (if c = 114 then acc ||| M_READ
        else if c = 119 then acc ||| M_WRITE
        else if c = 100 then acc ||| M_DIR
        else if c = 115 then acc ||| (M_READ ||| M_WRITE ||| M_STATIC)
        else acc ||| M_READ) = acc ||| letter_bits c := by
      unfold letter_bits
      split_ifs <;> rfl
    simp only [List.foldl_cons, spec_modebits]
    rw [hstep, ih, Nat.or_assoc]

theorem spec_modebits_testBit (par : List Nat) (i : Nat) :
    (spec_modebits par).testBit i = true ↔ ∃ c, c ∈ par ∧ (letter_bits c).testBit i = true := by
  induction par with
  | nil => simp [spec_modebits]
  | cons c rest ih =>
    simp only [spec_modebits, Nat.testBit_or, Bool.or_eq_true, ih, List.mem_cons]
    constructor
    · rintro (h | ⟨d, hd, h⟩)
      · exact ⟨c, Or.inl rfl, h⟩
      · exact ⟨d, Or.inr hd, h⟩
    · rintro ⟨d, hd | hd, h⟩
      · left; rw [← hd]; exact h
      · right; exact ⟨d, hd, h⟩

theorem letter_bits_static (c : Nat) (h : (letter_bits c).testBit 4 = true) :
    (letter_bits c).testBit 0 = true ∧ (letter_bits c).testBit 1 = true := by
  unfold letter_bits at h ⊢
  split_ifs at h ⊢
  all_goals first
    | exact absurd h (by decide)
    | exact ⟨by decide, by decide⟩

/-- C25: for every mode string, `d_get_modebits` returns the bitwise OR over its letters
of READ for `r`, WRITE for `w`, DIR for `d`, READ, WRITE and STATIC for `s`, and READ
for any other letter (0 for the empty string).  So whenever STATIC is set in the
result READ and WRITE are set too, and two strings with the same letters, in
whatever order and however often repeated, give the same result. -/
theorem d_get_modebits_contract (par : List Nat) :
    d_get_modebits par = spec_modebits par ∧
    (d_get_modebits par &&& M_STATIC ≠ 0 →
      d_get_modebits par &&& M_READ ≠ 0 ∧ d_get_modebits par &&& M_WRITE ≠ 0) ∧
    (∀ par2 : List Nat, (∀ c, c ∈ par2 ↔ c ∈ par) →
      d_get_modebits par2 = d_get_modebits par) := by
  have he : ∀ p : List Nat, d_get_modebits p = spec_modebits p := by
    intro p
    unfold d_get_modebits
    rw [modebits_foldl, Nat.zero_or]
  refine ⟨he par, ?_, ?_⟩
  · rw [he]
    intro h
    have h4 : (spec_modebits par).testBit 4 = true := (land_pow_iff _ 4).1 h
    obtain ⟨c, hc, hb⟩ := (spec_modebits_testBit par 4).1 h4
    obtain ⟨b0, b1⟩ := letter_bits_static c hb
    exact ⟨(land_pow_iff _ 0).2 ((spec_modebits_testBit par 0).2 ⟨c, hc, b0⟩),
      (land_pow_iff _ 1).2 ((spec_modebits_testBit par 1).2 ⟨c, hc, b1⟩)⟩
  · intro par2 hm
    rw [he, he]
    apply Nat.eq_of_testBit_eq
    intro i
    rw [Bool.eq_iff_iff, spec_modebits_testBit, spec_modebits_testBit]
    constructor
    · rintro ⟨c, hc, h⟩
      exact ⟨c, (hm c).1 hc, h⟩
    · rintro ⟨c, hc, h⟩
      exact ⟨c, (hm c).2 hc, h⟩

theorem d_get_modebits_contract_witness :
    d_get_modebits (cs "sd") &&& M_READ ≠ 0 ∧ d_get_modebits (cs "sd") &&& M_WRITE ≠ 0 ∧
    d_get_modebits (cs "dssd") = d_get_modebits (cs "sd") :=
  ⟨((d_get_modebits_contract (cs "sd")).2.1 (by decide)).1,
    ((d_get_modebits_contract (cs "sd")).2.1 (by decide)).2,
    (d_get_modebits_contract (cs "sd")).2.2 (cs "dssd") (by
      intro c
      have e1 : cs "dssd" = [100, 115, 115, 100] := by decide
      have e2 : cs "sd" = [115, 100] := by decide
      rw [e1, e2]
      simp only [List.mem_cons, List.mem_singleton, List.not_mem_nil, or_false]
      tauto)⟩

theorem m_getword_rest_lt (p : List Nat) (delim max : Nat) (h : (m_getword p delim max).1 ≠ []) :
    (m_getword p delim max).2.length < p.length := by
  unfold m_getword at h ⊢
  simp only at h ⊢
  generalize hs : p.dropWhile (fun c => c = 32 ∨ c = 9) = s at h ⊢
  have hsl : s.length ≤ p.length := by
    rw [← hs]
    exact (List.dropWhile_sublist _).length_le
  have ht : s.takeWhile (fun c => c ≠ delim) ≠ [] := by
    intro e
    rw [e] at h
    exact h (by simp)
  have hsum : (s.takeWhile (fun c => decide (c ≠ delim))).length +
      (s.dropWhile (fun c => decide (c ≠ delim))).length = s.length := by
    rw [← List.length_append, List.takeWhile_append_dropWhile]
  have hpos : 0 < (s.takeWhile (fun c => decide (c ≠ delim))).length :=
    List.length_pos.2 ht
  simp only [List.length_drop]
  omega

theorem directive_words_fuel :
    ∀ (fuel fuel2 : Nat) (p : List Nat), p.length < fuel → p.length < fuel2 →
      directive_words fuel2 p = directive_words fuel p := by
  intro fuel
  induction fuel with
  | zero => intro fuel2 p h; omega
  | succ n ih =>
    intro fuel2 p h1 h2
    cases fuel2 with
    | zero => omega
    | succ m =>
      simp only [directive_words]
      by_cases he : (m_getword p 59 200).1 = []
      · rw [if_pos he, if_pos he]
      · rw [if_neg he, if_neg he]
        have := m_getword_rest_lt p 59 200 he
        rw [ih m _ (by omega) (by omega)]

theorem c_directives_outcome (held : Bool) (now : Nat) :
    ∀ (fuel : Nat) (u : uxfs_t) (p : List Nat) (rc : Int),
      ((held = false ∨ ∀ t, t ∈ directive_words fuel p → t ≠ cs "DIR") →
        ∃ r, c_directives held now fuel u p rc = some r) ∧
      ∀ r, c_directives held now fuel u p rc = some r →
        ((∀ t, t ∈ directive_words fuel p → t = cs "DIR") → r.1 = rc) ∧
        (∀ pre t post, directive_words fuel p = pre ++ t :: post →
          (∀ x, x ∈ pre → x = cs "DIR") → t ≠ cs "DIR" →
          r.2.exited = true ∧ r.1 = if t = cs "QUIT" then 0 else 1) := by
  intro fuel
  induction fuel with
  | zero =>
    intro u p rc
    refine ⟨fun _ => ⟨_, rfl⟩, ?_⟩
    intro r e
    unfold c_directives at e
    cases e
    refine ⟨fun _ => rfl, ?_⟩
    intro pre t post he
    simp only [directive_words] at he
    exact absurd he (by simp)
  | succ n ih =>
    intro u p rc
    have hqd : cs "QUIT" ≠ cs "DIR" := by decide
    simp only [directive_words, c_directives]
    by_cases he : (m_getword p 59 200).1 = []
    · rw [if_pos he, if_pos he]
      refine ⟨fun _ => ⟨_, rfl⟩, ?_⟩
      intro r e
      cases e
      refine ⟨fun _ => rfl, ?_⟩
      intro pre t post h
      exact absurd h (by simp)
    · rw [if_neg he, if_neg he]
      generalize (m_getword (m_getword p 59 200).1 32 40).1 = token
      by_cases hq : strcmp token (cs "QUIT") = 0
      · rw [if_pos hq]
        have hq2 : token = cs "QUIT" := (strcmp_eq_zero _ _).1 hq
        refine ⟨fun _ => ⟨_, rfl⟩, ?_⟩
        intro r e
        cases e
        constructor
        · intro hall
          have := hall token (List.mem_cons_self _ _)
          rw [hq2] at this
          exact absurd this hqd
        · intro pre t post h hpre hne
          cases pre with
          | nil =>
            simp only [List.nil_append, List.cons.injEq] at h
            rw [← h.1, hq2]
            exact ⟨rfl, by rw [if_pos rfl]⟩
          | cons x pre2 =>
            simp only [List.cons_append, List.cons.injEq] at h
            have := hpre x (List.mem_cons_self _ _)
            rw [← h.1, hq2] at this
            exact absurd this hqd
      · rw [if_neg hq]
        have hq2 : token ≠ cs "QUIT" := fun e => hq ((strcmp_eq_zero _ _).2 e)
        by_cases hd : strcmp token (cs "DIR") = 0
        · rw [if_pos hd]
          have hd2 : token = cs "DIR" := (strcmp_eq_zero _ _).1 hd
          cases hcd : c_dir_data held now (u.co_in.length + 1) u with
          | none =>
            simp only []
            refine ⟨?_, fun r e => absurd e (by simp)⟩
            rintro (hh | hh)
            · subst hh
              obtain ⟨v, hv⟩ := c_dir_data_returns now (u.co_in.length + 1) u
              rw [hv] at hcd
              exact absurd hcd (by simp)
            · exact absurd hd2 (hh token (List.mem_cons_self _ _))
          | some v =>
            simp only []
            obtain ⟨i0, i12⟩ := ih v (m_getword p 59 200).2 rc
            refine ⟨?_, ?_⟩
            · rintro (hh | hh)
              · exact i0 (Or.inl hh)
              · exact absurd hd2 (hh token (List.mem_cons_self _ _))
            · intro r e
              obtain ⟨i1, i2⟩ := i12 r e
              constructor
              · intro hall
                exact i1 (fun t ht => hall t (List.mem_cons_of_mem _ ht))
              · intro pre t post h hpre hne
                cases pre with
                | nil =>
                  simp only [List.nil_append, List.cons.injEq] at h
                  exact absurd (h.1.symm.trans hd2) hne
                | cons x pre2 =>
                  simp only [List.cons_append, List.cons.injEq] at h
                  exact i2 pre2 t post h.2 (fun y hy => hpre y (List.mem_cons_of_mem _ hy)) hne
        · rw [if_neg hd]
          have hd2 : token ≠ cs "DIR" := fun e => hd ((strcmp_eq_zero _ _).2 e)
          refine ⟨fun _ => ⟨_, rfl⟩, ?_⟩
          intro r e
          cases e
          constructor
          · intro hall
            exact absurd (hall token (List.mem_cons_self _ _)) hd2
          · intro pre t post h hpre hne
            cases pre with
            | nil =>
              simp only [List.nil_append, List.cons.injEq] at h
              rw [← h.1]
              exact ⟨rfl, by rw [if_neg hq2]⟩
            | cons x pre2 =>
              simp only [List.cons_append, List.cons.injEq] at h
              have := hpre x (List.mem_cons_self _ _)
              rw [← h.1] at this
              exact absurd this hd2

/-- C27, counterexample: after the status line `+OK;;FOO` the directive `FOO` lies
behind an empty field and is never looked at: `c_putc` returns 0 and uxfs goes on;
and after `-ERR;QUIT` the token is `-ERR` but `c_putc` returns 0. -/
theorem status_line_not_as_claimed :
    status_token (cs "+OK;;FOO") = cs "+OK" ∧
    (c_putc false (table_hearing "+OK;;FOO\n") none none R_STATUS none none 0).map
      (fun r => (r.1, r.2.2.2.exited)) = some (0, false) ∧
    status_token (cs "-ERR;QUIT") = cs "-ERR" ∧
    (c_putc false (table_hearing "-ERR;QUIT\n") none none R_STATUS none none 0).map
      (fun r => r.1) = some 0 := by
  decide

/-- C27, amended: let `line` be the status line `c_putc` receives, its status token the
first word of its first `;`-delimited field.  A token other than `+OK` and `-ERR`
is a fatal protocol error: the result is 1, uxfs is told to exit and nothing more
is read.  Otherwise the reply data block is read exactly when the token is `+OK`
and the request was a multi-line one, and the directives behind the status field
are taken in order up to the first empty field: as long as they are `DIR`
directives the result stays 0 for `+OK` and 1 for `-ERR`; the first one that is not
ends uxfs, with the result 0 when its first word is `QUIT` and as a fatal protocol
error with the result 1 otherwise.  This is what `c_putc` does behind its request,
and all of what it does when it is called without a command.  The call returns
whenever the caller does not hold `lock` (`held = false`), and under the lock when no
directive is a `DIR` directive. -/
theorem status_line_contract (held : Bool) (u : uxfs_t) (flags : Nat) (reply : Option buf_t)
    (now : Nat) (line : List Nat) (u1 : uxfs_t) (hg : c_gets u LINE_MAX = (some line, u1)) :
    (status_token line ≠ cs "+OK" → status_token line ≠ cs "-ERR" →
      c_response held u flags reply now = some (1, reply, { u1 with exited := true })) ∧
    (status_token line = cs "+OK" ∨ status_token line = cs "-ERR" →
      ((held = false ∨ ∀ t, t ∈ directive_words ((m_getword line 59 200).2.length + 1)
            (m_getword line 59 200).2 → t ≠ cs "DIR") →
        ∃ r, c_response held u flags reply now = some r) ∧
      ∀ r, c_response held u flags reply now = some r →
        (status_token line = cs "+OK" ∧ flags &&& C_STATUS = R_MULTI →
          ∀ b, reply = some b →
            r.2.1 = some (c_recv_data (u1.co_in.length + 1) u1 (b_clear b)).1) ∧
        (¬ (status_token line = cs "+OK" ∧ flags &&& C_STATUS = R_MULTI) →
          r.2.1 = reply ∧
          (directive_words ((m_getword line 59 200).2.length + 1) (m_getword line 59 200).2 = [] →
            r.2.2 = u1)) ∧
        ((∀ t, t ∈ directive_words ((m_getword line 59 200).2.length + 1)
              (m_getword line 59 200).2 → t = cs "DIR") →
          r.1 = if status_token line = cs "+OK" then 0 else 1) ∧
        (∀ pre t post,
          directive_words ((m_getword line 59 200).2.length + 1) (m_getword line 59 200).2 =
            pre ++ t :: post →
          (∀ x, x ∈ pre → x = cs "DIR") → t ≠ cs "DIR" →
          r.2.2.exited = true ∧ r.1 = if t = cs "QUIT" then 0 else 1)) ∧
    (∀ data, flags &&& C_STATUS ≠ R_NONE →
      c_putc held u none none flags data reply now =
        (c_response held u flags reply now).map (fun r => (r.1, data, r.2.1, r.2.2))) := by
  refine (and_assoc (c := ∀ data, flags &&& C_STATUS ≠ R_NONE →
      c_putc held u none none flags data reply now =
        (c_response held u flags reply now).map (fun r => (r.1, data, r.2.1, r.2.2)))).1
    ⟨?_, fun data hf => by
      unfold c_putc
      simp only []
      rw [if_pos hf]⟩
  have hne : cs "-ERR" ≠ cs "+OK" := by decide
  have hT : (m_getword (m_getword line 59 200).1 32 40).1 = status_token line := rfl
  have hdef : c_response held u flags reply now =
      if strcmp (status_token line) (cs "+OK") ≠ 0 ∧ strcmp (status_token line) (cs "-ERR") ≠ 0
      then some (1, reply, { u1 with exited := true })
      else
        (c_directives held now ((m_getword line 59 200).2.length + 1)
            (if (if strcmp (status_token line) (cs "+OK") = 0 then (0 : Int) else 1) = 0 ∧
                flags &&& C_STATUS = R_MULTI then
              (match reply with
                | some r => (some (c_recv_data (u1.co_in.length + 1) u1 (b_clear r)).1,
                    (c_recv_data (u1.co_in.length + 1) u1 (b_clear r)).2)
                | none => (none, u1))
            else (reply, u1)).2 (m_getword line 59 200).2
            (if strcmp (status_token line) (cs "+OK") = 0 then 0 else 1)).map
          (fun dr => (dr.1,
            (if (if strcmp (status_token line) (cs "+OK") = 0 then (0 : Int) else 1) = 0 ∧
                flags &&& C_STATUS = R_MULTI then
              (match reply with
                | some r => (some (c_recv_data (u1.co_in.length + 1) u1 (b_clear r)).1,
                    (c_recv_data (u1.co_in.length + 1) u1 (b_clear r)).2)
                | none => (none, u1))
            else (reply, u1)).1, dr.2)) := by
    unfold c_response
    rw [hg]
    rfl
  rw [hdef]
  generalize status_token line = T
  generalize hR : (m_getword line 59 200).2 = rest
  have hrc : ∀ c : Prop, [Decidable c] → ((if c then (0 : Int) else 1) = 0 ↔ c) := by
    intro c _
    by_cases h : c
    · simp [h]
    · simp [h]
  simp only [strcmp_eq_zero, hrc, ne_eq]
  refine ⟨fun h1 h2 => by rw [if_pos ⟨h1, h2⟩], fun hT2 => ?_⟩
  have hcond : ¬ (¬ T = cs "+OK" ∧ ¬ T = cs "-ERR") := by
    rintro ⟨a, b⟩
    rcases hT2 with h | h
    · exact a h
    · exact b h
  rw [if_neg hcond]
  clear hdef
  have main : ∀ RD : Option buf_t × uxfs_t,
      (T = cs "+OK" ∧ flags &&& C_STATUS = R_MULTI → ∀ b, reply = some b →
        RD.1 = some (c_recv_data (u1.co_in.length + 1) u1 (b_clear b)).1) →
      (¬ (T = cs "+OK" ∧ flags &&& C_STATUS = R_MULTI) → RD = (reply, u1)) →
      ((held = false ∨ ∀ t, t ∈ directive_words (rest.length + 1) rest → t ≠ cs "DIR") →
        ∃ r, (c_directives held now (rest.length + 1) RD.2 rest
          (if T = cs "+OK" then 0 else 1)).map (fun dr => (dr.1, RD.1, dr.2)) = some r) ∧
      ∀ r, (c_directives held now (rest.length + 1) RD.2 rest
          (if T = cs "+OK" then 0 else 1)).map (fun dr => (dr.1, RD.1, dr.2)) = some r →
        (T = cs "+OK" ∧ flags &&& C_STATUS = R_MULTI →
          ∀ b, reply = some b →
            r.2.1 = some (c_recv_data (u1.co_in.length + 1) u1 (b_clear b)).1) ∧
        (¬ (T = cs "+OK" ∧ flags &&& C_STATUS = R_MULTI) →
          r.2.1 = reply ∧ (directive_words (rest.length + 1) rest = [] → r.2.2 = u1)) ∧
        ((∀ t, t ∈ directive_words (rest.length + 1) rest → t = cs "DIR") →
          r.1 = if T = cs "+OK" then 0 else 1) ∧
        (∀ pre t post, directive_words (rest.length + 1) rest = pre ++ t :: post →
          (∀ x, x ∈ pre → x = cs "DIR") → t ≠ cs "DIR" →
          r.2.2.exited = true ∧ r.1 = if t = cs "QUIT" then 0 else 1) := by
    intro RD hRD1 hRD2
    obtain ⟨o1, o2⟩ := c_directives_outcome held now (rest.length + 1) RD.2 rest
      (if T = cs "+OK" then 0 else 1)
    refine ⟨fun hh => map_returns _ _ (o1 hh), ?_⟩
    intro r e
    rw [Option.map_eq_some'] at e
    obtain ⟨dr, hdr, rfl⟩ := e
    obtain ⟨o3, o4⟩ := o2 dr hdr
    refine ⟨hRD1, ?_, o3, o4⟩
    intro hc
    have hRD := hRD2 hc
    refine ⟨by rw [hRD], fun hw => ?_⟩
    have he : (m_getword rest 59 200).1 = [] := by
      by_contra hn
      unfold directive_words at hw
      rw [if_neg hn] at hw
      exact List.cons_ne_nil _ _ hw
    unfold c_directives at hdr
    simp only [] at hdr
    rw [if_pos he] at hdr
    cases hdr
    show RD.2 = u1
    rw [hRD]
  refine main _ ?_ ?_
  · intro hc b hb
    subst hb
    rw [if_pos hc]
  · intro hc
    rw [if_neg hc]

/-- C27, witness: the status line `-ERR;DIR;QUIT` of a single-line request, with an
empty data block for its `DIR` directive. -/
theorem status_line_contract_witness :
    c_gets (table_hearing "-ERR;DIR;QUIT\n.\n") LINE_MAX =
      (some (cs "-ERR;DIR;QUIT"), table_hearing ".\n") ∧
    status_token (cs "-ERR;DIR;QUIT") = cs "-ERR" ∧
    directive_words ((m_getword (cs "-ERR;DIR;QUIT") 59 200).2.length + 1)
      (m_getword (cs "-ERR;DIR;QUIT") 59 200).2 = [cs "DIR", cs "QUIT"] ∧
    ∃ r, c_response false (table_hearing "-ERR;DIR;QUIT\n.\n") R_STATUS none 0 = some r ∧
      r.2.1 = none ∧ r.2.2.exited = true ∧ r.1 = 0 := by
  have h := status_line_contract false (table_hearing "-ERR;DIR;QUIT\n.\n") R_STATUS none 0
    (cs "-ERR;DIR;QUIT") (table_hearing ".\n") (by decide)
  have h2 := h.2.1 (Or.inr (by decide))
  obtain ⟨r, hr⟩ := h2.1 (Or.inl rfl)
  have h4 := h2.2 r hr
  have h3 := h4.2.2.2 [cs "DIR"] (cs "QUIT") [] (by decide)
    (fun x hx => List.mem_singleton.1 hx) (by decide)
  refine ⟨by decide, by decide, by decide, r, hr, (h4.2.1 (by decide)).1, h3.1, ?_⟩
  rw [h3.2]
  rfl

theorem land_rw_iff (x : Nat) :
    x &&& (M_READ ||| M_WRITE) ≠ 0 ↔ x.testBit 0 = true ∨ x.testBit 1 = true := by
  have e3 : M_READ ||| M_WRITE = 3 := by decide
  rw [e3]
  constructor
  · intro h
    obtain ⟨j, hj⟩ := Nat.ne_zero_implies_bit_true h
    rw [Nat.testBit_and, Bool.and_eq_true] at hj
    have hj2 : j < 2 := by
      by_contra hge
      have hlt : 3 < 2 ^ j :=
        lt_of_lt_of_le (by decide : 3 < 2 ^ 2) (Nat.pow_le_pow_right (by decide) (by omega))
      rw [Nat.testBit_lt_two_pow hlt] at hj
      exact absurd hj.2 (by decide)
    rcases (by omega : j = 0 ∨ j = 1) with e | e
    · left; rw [← e]; exact hj.1
    · right; rw [← e]; exact hj.1
  · rintro (h | h) h0
    · have := Nat.testBit_and x 3 0
      rw [h0, h, Nat.zero_testBit] at this
      exact absurd this (by decide)
    · have := Nat.testBit_and x 3 1
      rw [h0, h, Nat.zero_testBit] at this
      exact absurd this (by decide)

theorem mode_ok_iff (m : Nat) :
    mode_ok m ↔ (m.testBit 0 = true ∨ m.testBit 1 = true) ∧
      (m.testBit 2 = true → m.testBit 0 = true) := by
  unfold mode_ok
  rw [land_rw_iff, land_dir_iff]
  have h := land_pow_iff m 0
  have e : M_READ = 2 ^ 0 := by decide
  rw [e, h]

theorem fix_mode_ok (mode : Nat) : mode_ok (fix_mode mode) := by
  have e : M_WRITE ||| M_READ = M_READ ||| M_WRITE := by decide
  have r0 : Nat.testBit M_READ 0 = true := by decide
  have r1 : Nat.testBit M_READ 1 = false := by decide
  have r2 : Nat.testBit M_READ 2 = false := by decide
  rw [mode_ok_iff]
  unfold fix_mode
  simp only []
  rw [e]
  by_cases h1 : mode &&& (M_READ ||| M_WRITE) = 0
  · rw [if_pos h1]
    by_cases h2 : (mode ||| M_READ) &&& M_DIR ≠ 0
    · rw [if_pos h2]
      simp only [Nat.testBit_or, r0, Bool.or_true, true_or, implies_true, and_self]
    · rw [if_neg h2]
      simp only [Nat.testBit_or, r0, Bool.or_true, true_or, implies_true, and_self]
  · rw [if_neg h1]
    have h1' := (land_rw_iff mode).1 h1
    by_cases h2 : mode &&& M_DIR ≠ 0
    · rw [if_pos h2]
      simp only [Nat.testBit_or, r0, Bool.or_true, true_or, implies_true, and_self]
    · rw [if_neg h2]
      rw [land_dir_iff] at h2
      exact ⟨h1', fun h => absurd h h2⟩

theorem mode_inv_tbl (u v : uxfs_t) (h1 : v.heap = u.heap) (h2 : v.dir = u.dir)
    (h : mode_inv u) : mode_inv v := by
  refine ⟨(step_of_tbl u v h1 h2).2 h.1, fun p hp => ?_⟩
  rw [deref_congr u v h1 p]
  rw [h1] at hp
  exact h.2 p hp

theorem store_mode_inv (u : uxfs_t) (p : Nat) (g : file_t) (hpath : g.path = (deref u p).path)
    (hm : p < u.heap.length → mode_ok g.mode) (h : mode_inv u) : mode_inv (store u p g) := by
  refine ⟨store_table_ok u p g hpath h.1, fun q hq => ?_⟩
  rw [deref_store]
  split
  · next hc => exact hm hc.2
  · rw [store_heap_length] at hq
    exact h.2 q hq

theorem store_mode_inv_same (u : uxfs_t) (p : Nat) (g : file_t)
    (hpath : g.path = (deref u p).path) (hmode : g.mode = (deref u p).mode)
    (h : mode_inv u) : mode_inv (store u p g) :=
  store_mode_inv u p g hpath (fun hp => by rw [hmode]; exact h.2 p hp) h

theorem add_file_mode_inv (held : Bool) (u : uxfs_t) (path : List Nat) (mode now : Nat)
    (r : Int × uxfs_t) (h : mode_inv u) (e : add_file held u path mode now = some r) :
    mode_inv r.2 := by
  have hst := add_file_step held u path mode now r e
  rcases add_file_some held u path mode now r e with ⟨_, rfl⟩ | ⟨_, hl, hf, rfl⟩ | ⟨_, hl, hf, rfl⟩
  · exact h
  · refine store_mode_inv u _ _ ?_ ?_ h
    · rfl
    · intro _
      exact fix_mode_ok mode
  · refine ⟨hst.2 h.1, ?_⟩
    intro p hp
    have hdr := deref_append u (new_file u path mode now)
      (u.dir.take (ins_pos u path) ++ [u.heap.length] ++ u.dir.drop (ins_pos u path))
      (u.inode_count + 1) p
    simp only [] at hp ⊢
    rw [hdr]
    rw [List.length_append, List.length_singleton] at hp
    by_cases hlt : p < u.heap.length
    · rw [if_pos hlt]
      exact h.2 p hlt
    · rw [if_neg hlt, if_pos (by omega)]
      exact fix_mode_ok mode

theorem mode_inv_stable : stable mode_inv := by
  refine ⟨fun u v h1 h2 h => mode_inv_tbl u v h1 h2 h, ?_⟩
  intro held u line now r h e
  unfold add_file_from_definition at e
  simp only at e
  split at e
  · cases e; exact h
  · split at e
    · cases e; exact h
    · split at e
      · exact add_file_mode_inv _ _ _ _ _ r h e
      · split at e
        · exact add_file_mode_inv _ _ _ _ _ r h e
        · exact add_file_mode_inv _ _ _ _ _ r h e

theorem f_create_mode_inv (u : uxfs_t) (path : List Nat) (now : Nat)
    (c : Int × Option Nat × uxfs_t) (h : mode_inv u) (e : f_create u path now = some c) :
    mode_inv c.2.2 := by
  rcases f_create_some u path now c e with ⟨_, rfl⟩ | ⟨_, _, rfl⟩ | ⟨_, _, r, hr, rfl⟩
  · exact h
  · exact h
  · exact add_file_mode_inv _ _ _ _ _ r h hr

theorem open_count_mode_inv (f : Nat) (w : uxfs_t) (h : mode_inv w) :
    mode_inv { store w f { deref w f with used := (deref w f).used + 1 } with
      n_open := w.n_open + 1 } :=
  mode_inv_tbl (store w f { deref w f with used := (deref w f).used + 1 }) _ rfl rfl
    (store_mode_inv_same w f _ rfl rfl h)

theorem f_open_mode_inv (u : uxfs_t) (f mode now : Nat) (r : Int × Option buf_t × uxfs_t)
    (h : mode_inv u) (e : f_open u f mode now = some r) : mode_inv r.2.2 :=
  f_open_inv mode_inv mode_inv_stable u f mode now r (open_count_mode_inv f) h e

theorem do_create_mode_inv (u : uxfs_t) (path : List Nat) (now : Nat)
    (r : Int × Option buf_t × uxfs_t) (h : mode_inv u)
    (e : do_create u path now = some r) : mode_inv r.2.2 := by
  unfold do_create at e
  cases hc : f_create u path now with
  | none => rw [hc] at e; simp at e
  | some c =>
    rw [hc] at e
    simp only at e
    split at e
    · cases e; exact h
    · split at e
      · exact f_open_mode_inv _ _ _ _ r (f_create_mode_inv u path now c h hc) e
      · exact absurd e (by simp)

theorem do_open_mode_inv (u : uxfs_t) (path : List Nat) (flags now : Nat)
    (r : Int × Option buf_t × uxfs_t) (h : mode_inv u)
    (e : do_open u path flags now = some r) : mode_inv r.2.2 := by
  unfold do_open at e
  cases hg : getfile u path 0 with
  | none =>
    rw [hg] at e
    simp only at e
    split at e
    · exact absurd e (by simp)
    · split at e
      · exact absurd e (by simp)
      · cases e; exact h
  | some f =>
    rw [hg] at e
    simp only at e
    split at e
    · cases e; exact h
    · exact f_open_mode_inv _ _ _ _ r h e

theorem close_count_mode_inv (w : uxfs_t) (h : mode_inv w) :
    mode_inv { w with n_close := w.n_close + 1 } :=
  mode_inv_tbl w _ rfl rfl h

theorem do_release_mode_inv (u : uxfs_t) (path : List Nat) (b : buf_t) (now : Nat)
    (r : Int × uxfs_t) (h : mode_inv u) (e : do_release u path b now = some r) :
    mode_inv r.2 := by
  unfold do_release at e
  cases hg : getfile u path 1 with
  | none =>
    rw [hg] at e
    simp only [Option.some.injEq] at e
    rw [← e]
    exact close_count_mode_inv u h
  | some f =>
    rw [hg] at e
    simp only at e
    cases hb : b.buffer with
    | none => rw [hb] at e; simp at e
    | some m =>
      rw [hb] at e
      simp only at e
      generalize hf1 : ({ deref u f with mtime := now, used := (deref u f).used - 1 } : file_t) = f1 at e
      have h1 : mode_inv (store u f f1) := by
        rw [← hf1]
        exact store_mode_inv_same u f _ rfl rfl h
      split at e
      · rw [Option.map_eq_some'] at e
        obtain ⟨x, hx, rfl⟩ := e
        have h2 := c_putc_inv mode_inv mode_inv_stable true (store u f f1) _ _ _ _ _ now x h1 hx
        apply close_count_mode_inv
        split
        · exact store_mode_inv_same _ f _ rfl rfl h2
        · exact h2
      · simp only [Option.some.injEq] at e
        rw [← e]
        exact close_count_mode_inv _ h1

theorem do_unlink_mode_inv (u : uxfs_t) (path : List Nat) (now : Nat) (r : Int × uxfs_t)
    (h : mode_inv u) (e : do_unlink u path now = some r) : mode_inv r.2 := by
  unfold do_unlink at e
  cases hg : getfile u path 0 with
  | none => rw [hg] at e; cases e; exact h
  | some f =>
    rw [hg] at e
    simp only at e
    split at e
    · cases e; exact h
    · split at e
      · cases e; exact h
      · rw [Option.map_eq_some'] at e
        obtain ⟨w, hw, rfl⟩ := e
        exact store_mode_inv_same _ f _ rfl rfl
          (fileop_inv mode_inv mode_inv_stable false u [cs "unlink", path] now w h hw)

theorem do_rmdir_mode_inv (u : uxfs_t) (path : List Nat) (now : Nat) (r : Int × uxfs_t)
    (h : mode_inv u) (e : do_rmdir u path now = some r) : mode_inv r.2 := by
  unfold do_rmdir at e
  by_cases hc : path = [] ∨ (d_search_file u path).1 ≠ 0
  · rw [if_pos hc] at e
    cases e
    exact h
  · rw [if_neg hc] at e
    have key : ∀ (g : file_t) (w : Int × uxfs_t),
        g.path = (deref u (u.dir.getD (d_search_file u path).2 u.heap.length)).path →
        g.mode = (deref u (u.dir.getD (d_search_file u path).2 u.heap.length)).mode →
        fileop false (store u (u.dir.getD (d_search_file u path).2 u.heap.length) g)
          [cs "rmdir", path] now = some w → mode_inv w.2 :=
      fun g w hg hm hw => fileop_inv mode_inv mode_inv_stable false
        (store u (u.dir.getD (d_search_file u path).2 u.heap.length) g) [cs "rmdir", path] now w
        (store_mode_inv_same u _ g hg hm h) hw
    simp only [] at e
    split_ifs at e
    all_goals first
      | (cases e; exact h)
      | (rw [Option.map_eq_some'] at e
         obtain ⟨w, hw, rfl⟩ := e
         have h2 : mode_inv w.2 := key _ w (by rfl) (by rfl) hw
         split <;> exact h2)

theorem do_mkdir_mode_inv (u : uxfs_t) (path : List Nat) (now : Nat) (r : Int × uxfs_t)
    (h : mode_inv u) (e : do_mkdir u path now = some r) : mode_inv r.2 := by
  unfold do_mkdir at e
  cases hcr : f_create u path now with
  | none => rw [hcr] at e; simp at e
  | some cr =>
    rw [hcr] at e
    simp only at e
    by_cases c1 : cr.1 ≠ 0
    · rw [if_pos c1] at e
      cases e
      exact h
    · rw [if_neg c1] at e
      cases hc : cr.2.1 with
      | none => rw [hc] at e; simp at e
      | some d =>
        rw [hc] at e
        simp only at e
        have hc2 := f_create_mode_inv u path now cr h hcr
        generalize cr.2.2 = c at e hc2
        generalize hg : ({ deref c d with mode := M_DIR ||| M_READ ||| M_WRITE ||| M_USER } : file_t) = g at e
        have hg1 : g.path = (deref c d).path ∧
            g.mode = M_DIR ||| M_READ ||| M_WRITE ||| M_USER := by
          rw [← hg]; exact ⟨rfl, rfl⟩
        have h1 : mode_inv (store c d g) :=
          store_mode_inv c d g hg1.1 (fun _ => by rw [hg1.2]; decide) hc2
        rw [Option.map_eq_some'] at e
        obtain ⟨w, hw, rfl⟩ := e
        have h2 := fileop_inv mode_inv mode_inv_stable false _ [cs "mkdir", path] now w h1 hw
        split <;> exact h2

theorem rename_move_mode_inv (w : uxfs_t) (s d : Nat) (sp dp : List Nat) (now : Nat)
    (r : Int × uxfs_t) (hs : s < w.heap.length) (h : mode_inv w)
    (e : rename_move w s d sp dp now = some r) : mode_inv r.2 := by
  unfold rename_move at e
  rw [Option.map_eq_some'] at e
  obtain ⟨x, hx, rfl⟩ := e
  have hfr := (fileop_step true w [cs "rename", sp, dp] now x hx).1
  have h2 := fileop_inv mode_inv mode_inv_stable true w [cs "rename", sp, dp] now x h hx
  show mode_inv (move_entry x.2 s d now)
  unfold move_entry
  simp only []
  generalize x.2 = u2 at hfr h2 ⊢
  have hs2 : s < u2.heap.length := lt_of_lt_of_le hs hfr.1
  have h3 := store_mode_inv_same u2 d { deref u2 d with buf := none } rfl rfl h2
  have hs3 : s < (store u2 d { deref u2 d with buf := none }).heap.length := by
    rw [store_heap_length]; exact hs2
  generalize store u2 d { deref u2 d with buf := none } = u3 at h3 hs3 ⊢
  generalize hg4 : ({ deref u3 d with mode := (deref u3 s).mode, mtime := now, deleted := 0, buf := (deref u3 s).buf } : file_t) = g4
  have hg4p : g4.path = (deref u3 d).path ∧ g4.mode = (deref u3 s).mode := by
    rw [← hg4]; exact ⟨rfl, rfl⟩
  have h4 := store_mode_inv u3 d g4 hg4p.1 (fun _ => by rw [hg4p.2]; exact h3.2 s hs3) h3
  exact store_mode_inv_same _ s _ rfl rfl h4

theorem do_rename_mode_inv (u : uxfs_t) (sp dp : List Nat) (now : Nat) (r : Int × uxfs_t)
    (h : mode_inv u) (e : do_rename u sp dp now = some r) : mode_inv r.2 := by
  unfold do_rename at e
  cases hg : getfile u sp 0 with
  | none =>
    rw [hg] at e
    simp only [Option.some.injEq] at e
    rw [← e]
    exact h
  | some src =>
    rw [hg] at e
    simp only at e
    obtain ⟨hes, _⟩ := (getfile_live_iff u h.1.2 sp src).1 hg
    by_cases c1 : (deref u src).mode &&& M_DIR ≠ 0
    · rw [if_pos c1] at e
      simp only [Option.some.injEq] at e
      rw [← e]
      exact h
    rw [if_neg c1] at e
    by_cases c2 : (deref u src).mode &&& M_USER = 0
    · rw [if_pos c2] at e
      simp only [Option.some.injEq] at e
      rw [← e]
      exact h
    rw [if_neg c2] at e
    cases hgd : getfile u dp 1 with
    | some dst =>
      rw [hgd] at e
      simp only at e
      by_cases c3 : (deref u dst).mode &&& M_DIR ≠ 0
      · rw [if_pos c3] at e
        simp only [Option.some.injEq] at e
        rw [← e]
        exact h
      rw [if_neg c3] at e
      by_cases c4 : (deref u dst).mode &&& M_USER = 0
      · rw [if_pos c4] at e
        simp only [Option.some.injEq] at e
        rw [← e]
        exact h
      rw [if_neg c4] at e
      exact rename_move_mode_inv u src dst sp dp now r (h.1.1 src hes.1) h e
    | none =>
      rw [hgd] at e
      simp only at e
      cases hcr : f_create u dp now with
      | none => rw [hcr] at e; simp at e
      | some cr =>
        rw [hcr] at e
        simp only at e
        have hc := f_create_mode_inv u dp now cr h hcr
        by_cases c5 : cr.1 = 0
        · rw [if_pos c5] at e
          cases hg2 : getfile cr.2.2 sp 0 with
          | none =>
            rw [hg2] at e
            simp only [Option.some.injEq] at e
            rw [← e]
            exact hc
          | some src1 =>
            rw [hg2] at e
            simp only at e
            cases hcd : cr.2.1 with
            | none => rw [hcd] at e; simp at e
            | some dst =>
              rw [hcd] at e
              simp only at e
              obtain ⟨hes1, _⟩ := (getfile_live_iff _ hc.1.2 sp src1).1 hg2
              exact rename_move_mode_inv _ src1 dst sp dp now r (hc.1.1 src1 hes1.1) hc e
        · rw [if_neg c5] at e
          simp only [Option.some.injEq] at e
          rw [← e]
          exact h

theorem run_op_mode_inv (u : uxfs_t) (now : Nat) (op : fs_op) (v : uxfs_t)
    (h : mode_inv u) (e : run_op u now op = some v) : mode_inv v := by
  cases op with
  | op_create path =>
    simp only [run_op, Option.map_eq_some'] at e
    obtain ⟨r, er, ev⟩ := e
    rw [← ev]
    exact do_create_mode_inv u path now r h er
  | op_open path flags =>
    simp only [run_op, Option.map_eq_some'] at e
    obtain ⟨r, er, ev⟩ := e
    rw [← ev]
    exact do_open_mode_inv u path flags now r h er
  | op_mkdir path =>
    simp only [run_op, Option.map_eq_some'] at e
    obtain ⟨r, er, ev⟩ := e
    rw [← ev]
    exact do_mkdir_mode_inv u path now r h er
  | op_rmdir path =>
    simp only [run_op, Option.map_eq_some'] at e
    obtain ⟨r, er, ev⟩ := e
    rw [← ev]
    exact do_rmdir_mode_inv u path now r h er
  | op_unlink path =>
    simp only [run_op, Option.map_eq_some'] at e
    obtain ⟨r, er, ev⟩ := e
    rw [← ev]
    exact do_unlink_mode_inv u path now r h er
  | op_rename src dst =>
    simp only [run_op, Option.map_eq_some'] at e
    obtain ⟨r, er, ev⟩ := e
    rw [← ev]
    exact do_rename_mode_inv u src dst now r h er
  | op_release path b =>
    simp only [run_op, Option.map_eq_some'] at e
    obtain ⟨r, er, ev⟩ := e
    rw [← ev]
    exact do_release_mode_inv u path b now r h er
  | op_directive line =>
    simp only [run_op, Option.map_eq_some'] at e
    obtain ⟨r, er, ev⟩ := e
    rw [← ev]
    exact mode_inv_stable.2 false u line now r h er
  | op_input inp =>
    simp only [run_op, Option.some.injEq] at e
    rw [← e]
    exact mode_inv_tbl u _ rfl rfl h

theorem run_table_ops_mode_inv (evs : List (Nat × table_op)) (u v : uxfs_t)
    (h : mode_inv u) (e : run_table_ops u evs = some v) : mode_inv v := by
  induction evs generalizing u with
  | nil =>
    simp only [run_table_ops, Option.some.injEq] at e
    rw [← e]
    exact h
  | cons x rest ih =>
    simp only [run_table_ops] at e
    cases hx : run_table_op u x.1 x.2 with
    | none => rw [hx] at e; simp at e
    | some w =>
      rw [hx] at e
      simp only at e
      refine ih w ?_ e
      cases hop : x.2 with
      | tbl_add_file path mode =>
        rw [hop] at hx
        simp only [run_table_op, Option.map_eq_some'] at hx
        obtain ⟨r, er, ev⟩ := hx
        rw [← ev]
        exact add_file_mode_inv false u path mode x.1 r h er
      | tbl_fs op =>
        rw [hop] at hx
        exact run_op_mode_inv u x.1 op w h hx

theorem uxfs_init_mode_inv (inp : List Nat) : mode_inv (uxfs_init inp) :=
  ⟨(uxfs_init_inv inp).1, fun p hp => absurd hp (Nat.not_lt_zero p)⟩

/-- C26: in every state reached from an empty table by direct `add_file` calls, lines
of controller DIR directives, create, mkdir, rename, unlink and rmdir (and open and
release besides), every entry's mode has READ or WRITE set, and every entry with DIR
has READ set. -/
theorem modes_stay_normalised (u0 : uxfs_t) (evs : List (Nat × table_op)) (v : uxfs_t)
    (h0 : u0.heap = [] ∧ u0.dir = []) (hrun : run_table_ops u0 evs = some v) :
    ∀ p, p ∈ v.dir →
      (deref v p).mode &&& (M_READ ||| M_WRITE) ≠ 0 ∧
      ((deref v p).mode &&& M_DIR ≠ 0 → (deref v p).mode &&& M_READ ≠ 0) := by
  have hinit : mode_inv u0 := by
    refine ⟨⟨fun p hp => ?_, fun i hi => ?_⟩, fun p hp => ?_⟩
    · rw [h0.2] at hp
      exact absurd hp (List.not_mem_nil p)
    · rw [h0.2] at hi
      exact absurd hi (Nat.not_lt_zero _)
    · rw [h0.1] at hp
      exact absurd hp (Nat.not_lt_zero _)
  have hv := run_table_ops_mode_inv evs u0 v hinit hrun
  intro p hp
  exact hv.2 p (hv.1.1 p hp)

/-- C26, witness: the run `busy_table` from the state `main` starts with, the controller
answering `+OK` four times; it ends with five entries, three of them deleted. -/
theorem modes_stay_normalised_witness :
    ∃ v, run_table_ops (uxfs_init (cs "+OK\n+OK\n+OK\n+OK\n")) busy_table = some v ∧
      v.dir.length = 5 ∧
      ∀ p, p ∈ v.dir →
        (deref v p).mode &&& (M_READ ||| M_WRITE) ≠ 0 ∧
        ((deref v p).mode &&& M_DIR ≠ 0 → (deref v p).mode &&& M_READ ≠ 0) := by
  have h : (run_table_ops (uxfs_init (cs "+OK\n+OK\n+OK\n+OK\n")) busy_table).isSome = true := by
    decide
  obtain ⟨v, hv⟩ := Option.isSome_iff_exists.1 h
  have hl : (run_table_ops (uxfs_init (cs "+OK\n+OK\n+OK\n+OK\n")) busy_table).map
      (fun w => w.dir.length) = some 5 := by
    decide
  rw [hv] at hl
  exact ⟨v, hv, Option.some.inj hl, modes_stay_normalised _ _ v ⟨rfl, rfl⟩ hv⟩

end Uxfs
